import Mathlib

/-!
Verification development for the Files-Sorter vault engine
(`src/unnamed/part_008` = the vault module, `src/backend/src/database.ts`,
`src/backend/src/scanner.ts`, `src/backend/src/organizer.ts`).

Modelling conventions, fixed once and used throughout:

* An absolute filesystem path is a list of name segments (`Path`); the
  JavaScript string `"/V/Travel"` is `["V", "Travel"]`.  `path.join` is list
  append, and `s.startsWith(p + "/")` on path strings is the proper-segment
  prefix test.  Where the source measures the *string* length of a joined
  path we measure the length of `String.intercalate "/"` of the segments.
* The filesystem is a single rooted tree `FsNode`.  `fs.rename` follows the
  POSIX contract of the `rename` syscall that `fs/promises.rename` wraps:
  ENOENT when the source (or the target's parent) is missing, EINVAL when
  the target lies strictly inside the source directory, ENOTEMPTY /
  ENOTDIR / EISDIR when the target exists incompatibly, and silent
  replacement of an existing *empty* directory target.  The EXDEV
  (cross-device) branch of the source's `moveFile` helper cannot arise in a
  one-tree model and is kept as dead code, exactly as in the source.
* The relational catalog (`database.ts`, a CRUD facade over SQLite) is a
  record of row lists.  Every mutating call is also appended to an
  operation log `DbOp`, so "this pass performs zero catalog mutations" is a
  statement about the log, not only about before/after states.  `ORDER BY`
  clauses are modelled by a stable insertion sort; ties keep insertion
  order.  `INSERT OR REPLACE` on images drops rows conflicting on the `id`
  or the unique `path` column before appending.
* `uuid()` is modelled by a counter threaded through the state (`uid`),
  rendered as the string `u<n>`.
* The append-only activity log (`writeVaultLog`) is a dot-prefixed file the
  scanner never looks at; it is modelled as an audit list outside the
  directory tree so that "the directory tree is unchanged" statements are
  about the tree the engine actually reconciles.
* Thumbnail generation and OCR are fire-and-forget external collaborators
  (spec section 1 excludes them); they touch no row field our claims
  mention and are modelled as absent.
-/

namespace FilesSorter

/-- A filesystem path as a list of name segments. -/
abbrev Path := List String

/-- Joined string form of a relative path, as produced by `path.join` in the
source (used where the source measures string lengths of paths). -/
def pathStr (p : Path) : String := String.intercalate "/" p

/-- Boolean segment-prefix test: `segStarts p q` holds when `q` starts with
the segments `p` (this is `q.startsWith(pJoined)` at a segment boundary). -/
def segStarts : Path → Path → Bool
  | [], _ => true
  | _ :: _, [] => false
  | a :: as, b :: bs => a == b && segStarts as bs

/-- Proper segment-prefix test: `q.startsWith(pJoined + "/")` in the source.
The image path must continue strictly below the directory `p`. -/
def segStartsStrict (p q : Path) : Bool :=
  segStarts p q && decide (p.length < q.length)

/-- `sanitizeFilename` of the source: every character of `/\:*?"<>|` is
replaced by an underscore (a per-character global regex replace). -/
def sanitizeFilename (name : String) : String :=
  String.mk (name.toList.map (fun c =>
    if c ∈ ['/', '\\', ':', '*', '?', '"', '<', '>', '|'] then '_' else c))

/-- Kernel-friendly `String.startsWith`. -/
def strStarts (pre s : String) : Bool := pre.data.isPrefixOf s.data

/-- Kernel-friendly ASCII `Char.toLower`. -/
def lowerChar (c : Char) : Char :=
  if 'A' ≤ c && c ≤ 'Z' then Char.ofNat (c.toNat + 32) else c

/-- Kernel-friendly `String.toLower`. -/
def strLower (s : String) : String := String.mk (s.data.map lowerChar)

/-- Kernel-friendly `String.contains`. -/
def strHas (s : String) (c : Char) : Bool := s.data.contains c

/-- The `path.extname` of a basename: the suffix from the final dot, empty
when there is no dot or the only dot is the leading character. -/
def extname (s : String) : String :=
  let cs := s.data
  let afterRev := cs.reverse.takeWhile (fun c => !(c == '.'))
  if afterRev.length == cs.length then ""
  else
    let dotIndex := cs.length - (afterRev.length + 1)
    if dotIndex == 0 then "" else String.mk (cs.drop dotIndex)

/-- The `path.basename(filename, ext)` of the source: the filename with the
extension suffix removed. -/
def baseNoExt (filename : String) : String :=
  filename.dropRight (extname filename).length

/-- `SUPPORTED_EXTENSIONS` of the vault module. -/
def SUPPORTED_EXTENSIONS : List String :=
  [".jpg", ".jpeg", ".png", ".gif", ".webp", ".bmp", ".tiff", ".tif",
   ".heic", ".heif", ".avif", ".raw", ".cr2", ".nef", ".arw", ".dng",
   ".orf", ".rw2", ".pef", ".sr2", ".raf"]

/-- `isImageFile` of the vault module. -/
def isImageFile (filename : String) : Bool :=
  SUPPORTED_EXTENSIONS.contains (strLower (extname filename))

/-- `SPECIAL_FOLDERS` of the vault module. -/
def SPECIAL_FOLDERS : List String := ["_Trash", "_Sort Later", ".DS_Store"]

/-! ## The filesystem model -/

/-- A filesystem node: a file (size and mtime) or a directory with an
ordered entry list (`readdir` order). -/
inductive FsNode where
  | file (size : Nat) (mtime : String) : FsNode
  | dir (entries : List (String × FsNode)) : FsNode
deriving Repr

/-- Error codes of the OS file primitives (spec section 6). -/
inductive FsErr where
  | enoent | eexist | enotempty | einval | enotdir | eisdir
deriving DecidableEq, Repr

/-- Look up the entry of a directory list by name (first match). -/
def findEntry (es : List (String × FsNode)) (s : String) : Option FsNode :=
  (es.find? (fun e => e.1 == s)).map (fun e => e.2)

/-- Replace the named entry in place, or append it when absent. -/
def setEntry (es : List (String × FsNode)) (s : String) (n : FsNode) :
    List (String × FsNode) :=
  if es.any (fun e => e.1 == s) then
    es.map (fun e => if e.1 == s then (e.1, n) else e)
  else es ++ [(s, n)]

/-- Remove the named entry. -/
def removeEntry (es : List (String × FsNode)) (s : String) :
    List (String × FsNode) :=
  es.filter (fun e => !(e.1 == s))

/-- Resolve a path to the node it names. -/
def lookupFs : FsNode → Path → Option FsNode
  | t, [] => some t
  | FsNode.file _ _, _ :: _ => none
  | FsNode.dir es, s :: rest =>
    match findEntry es s with
    | some c => lookupFs c rest
    | none => none

/-- `fs.access`: some node exists at the path. -/
def existsAt (t : FsNode) (p : Path) : Bool := (lookupFs t p).isSome

/-- The path names an existing directory. -/
def isDirAt (t : FsNode) (p : Path) : Bool :=
  match lookupFs t p with
  | some (FsNode.dir _) => true
  | _ => false

/-- The entry list of the directory at a path (`fs.readdir` with file
types), or `none` when `readdir` would fail. -/
def readdirAt (t : FsNode) (p : Path) : Option (List (String × FsNode)) :=
  match lookupFs t p with
  | some (FsNode.dir es) => some es
  | _ => none

/-- Remove the node at a (nonempty) path, when present. -/
def removeAt : FsNode → Path → FsNode
  | t, [] => t
  | FsNode.file sz mt, _ :: _ => FsNode.file sz mt
  | FsNode.dir es, [s] => FsNode.dir (removeEntry es s)
  | FsNode.dir es, s :: rest₁ :: rest₂ =>
    FsNode.dir (es.map (fun e =>
      if e.1 == s then (e.1, removeAt e.2 (rest₁ :: rest₂)) else e))

/-- Place a node at a (nonempty) path whose parent exists as a directory;
an existing entry of that name is replaced in place. -/
def placeAt : FsNode → Path → FsNode → FsNode
  | _, [], n => n
  | FsNode.file sz mt, _ :: _, _ => FsNode.file sz mt
  | FsNode.dir es, [s], n => FsNode.dir (setEntry es s n)
  | FsNode.dir es, s :: rest₁ :: rest₂, n =>
    FsNode.dir (es.map (fun e =>
      if e.1 == s then (e.1, placeAt e.2 (rest₁ :: rest₂) n) else e))

/-- `fs.mkdir(p, { recursive: true })`: create every missing directory on
the way down; fails ENOTDIR when a file is in the way. -/
def mkdirp : FsNode → Path → Except FsErr FsNode
  | FsNode.file _ _, [] => Except.error FsErr.enotdir
  | FsNode.dir es, [] => Except.ok (FsNode.dir es)
  | FsNode.file _ _, _ :: _ => Except.error FsErr.enotdir
  | FsNode.dir es, s :: rest =>
    match findEntry es s with
    | some c =>
      (mkdirp c rest).map (fun c2 => FsNode.dir (setEntry es s c2))
    | none =>
      (mkdirp (FsNode.dir []) rest).map
        (fun c2 => FsNode.dir (es ++ [(s, c2)]))

/-- `fs.rename` with the POSIX `rename(2)` contract (see the header note):
the source's `moveFile` helper calls this and would fall back to
copy+unlink only on EXDEV, which a one-tree model never produces. -/
def renameFs (t : FsNode) (src dst : Path) : Except FsErr FsNode :=
  match src, dst with
  | [], _ => Except.error FsErr.einval
  | _, [] => Except.error FsErr.einval
  | s₀ :: srest, d₀ :: drest =>
    let src := s₀ :: srest
    let dst := d₀ :: drest
    match lookupFs t src with
    | none => Except.error FsErr.enoent
    | some n =>
      if src = dst then Except.ok t
      else if segStarts src dst then Except.error FsErr.einval
      else
        match lookupFs t dst with
        | some d =>
          match n, d with
          | FsNode.dir _, FsNode.dir [] =>
            Except.ok (placeAt (removeAt t src) dst n)
          | FsNode.dir _, FsNode.dir (_ :: _) => Except.error FsErr.enotempty
          | FsNode.dir _, FsNode.file _ _ => Except.error FsErr.enotdir
          | FsNode.file _ _, FsNode.dir _ => Except.error FsErr.eisdir
          | FsNode.file _ _, FsNode.file _ _ =>
            Except.ok (placeAt (removeAt t src) dst n)
        | none =>
          if isDirAt t dst.dropLast then
            Except.ok (placeAt (removeAt t src) dst n)
          else Except.error FsErr.enoent

/-- The source's `moveFile`: `fs.rename`, with a copy+unlink fallback
reserved for EXDEV, which this model never raises. -/
def moveFileFs (t : FsNode) (src dst : Path) : Except FsErr FsNode :=
  match renameFs t src dst with
  | Except.ok t2 => Except.ok t2
  | Except.error e => Except.error e

/-- `fs.rm(p, { recursive: true })`: remove the subtree, ENOENT if absent. -/
def rmRecFs (t : FsNode) (p : Path) : Except FsErr FsNode :=
  if existsAt t p then Except.ok (removeAt t p) else Except.error FsErr.enoent

/-- `fs.copyFile`: source must be a file; an existing file target is
overwritten, a directory target fails. -/
def copyFileFs (t : FsNode) (src dst : Path) : Except FsErr FsNode :=
  match lookupFs t src with
  | some (FsNode.file sz mt) =>
    match lookupFs t dst with
    | some (FsNode.dir _) => Except.error FsErr.eisdir
    | _ =>
      if isDirAt t dst.dropLast then
        Except.ok (placeAt t dst (FsNode.file sz mt))
      else Except.error FsErr.enoent
  | some (FsNode.dir _) => Except.error FsErr.eisdir
  | none => Except.error FsErr.enoent

/-- `fs.unlink`: remove a file. -/
def unlinkFs (t : FsNode) (p : Path) : Except FsErr FsNode :=
  match lookupFs t p with
  | some (FsNode.file _ _) => Except.ok (removeAt t p)
  | some (FsNode.dir _) => Except.error FsErr.eisdir
  | none => Except.error FsErr.enoent

/-- `fs.stat` on a path known to be a file: its size and mtime. -/
def statFileAt (t : FsNode) (p : Path) : Option (Nat × String) :=
  match lookupFs t p with
  | some (FsNode.file sz mt) => some (sz, mt)
  | _ => none

/-- Entry keys are pairwise distinct. -/
def nodupKeys : List (String × FsNode) → Bool
  | [] => true
  | e :: rest => rest.all (fun x => !(x.1 == e.1)) && nodupKeys rest

mutual

/-- Well-formed directory tree: within each directory the entry names are
distinct, nonempty and contain no separator (what a real filesystem
guarantees for `readdir` output). -/
def fsWF : FsNode → Bool
  | FsNode.file _ _ => true
  | FsNode.dir es =>
    nodupKeys es
      && es.all (fun e => !(e.1 == "") && !(strHas e.1 '/'))
      && fsWFEntries es

/-- `fsWF` on every child of an entry list. -/
def fsWFEntries : List (String × FsNode) → Bool
  | [] => true
  | e :: rest => fsWF e.2 && fsWFEntries rest

end

end FilesSorter

namespace FilesSorter

/-! ## The catalog model (`database.ts` facade) -/

/-- A vault row (`types.ts` `Vault`). -/
structure Vault where
  id : String
  path : Path
  displayName : String
  isVisible : Bool
  order : Nat
deriving DecidableEq, Repr

/-- An album row (`types.ts` `Album`). -/
structure Album where
  id : String
  name : String
  parentId : Option String
  vaultId : String
  order : Nat
deriving DecidableEq, Repr

/-- Image status (`types.ts`). -/
inductive ImgStatus where
  | normal | trash | notSure
deriving DecidableEq, Repr

/-- An image row (`types.ts` `ImageFile`; the OCR columns are never touched
by the engine under verification and are omitted). -/
structure Image where
  id : String
  path : Path
  filename : String
  fileSize : Nat
  width : Option Nat
  height : Option Nat
  modifiedDate : String
  thumbnailPath : Option String
  isSupported : Bool
  format : String
  albumId : Option String
  vaultId : Option String
  status : ImgStatus
deriving DecidableEq, Repr

/-- `trashHandling` setting. -/
inductive TrashHandling where
  | system | vault
deriving DecidableEq, Repr

/-- The settings rows the engine reads. -/
structure Settings where
  vaultFolder : Option Path
  trashHandling : TrashHandling
deriving DecidableEq, Repr

/-- Field-update record for `database.updateAlbum` (a JS partial object:
an outer `none` means the field is absent from the update). -/
structure AlbumUpd where
  name : Option String := none
  parentId : Option (Option String) := none
  vaultId : Option String := none
  order : Option Nat := none
deriving DecidableEq, Repr

/-- Field-update record for `database.updateImages`. -/
structure ImageUpd where
  albumId : Option (Option String) := none
  vaultId : Option (Option String) := none
  status : Option ImgStatus := none
deriving DecidableEq, Repr

/-- Apply an album update to a row (absent fields keep the row's value). -/
def applyAlbumUpd (u : AlbumUpd) (a : Album) : Album :=
  { a with
    name := u.name.getD a.name
    parentId := u.parentId.getD a.parentId
    vaultId := u.vaultId.getD a.vaultId
    order := u.order.getD a.order }

/-- Apply an image update to a row. -/
def applyImageUpd (u : ImageUpd) (i : Image) : Image :=
  { i with
    albumId := u.albumId.getD i.albumId
    vaultId := u.vaultId.getD i.vaultId
    status := u.status.getD i.status }

/-- One logged catalog mutation. -/
inductive DbOp where
  | insertAlbum (a : Album)
  | updateAlbum (id : String) (u : AlbumUpd)
  | deleteAlbumCascade (id : String)
  | insertImage (i : Image)
  | updateImages (ids : List String) (u : ImageUpd)
  | deleteImages (ids : List String)
  | updateImagePath (id : String) (p : Path) (fn : String)
  | clearAllImages
  | insertVault (v : Vault)
deriving DecidableEq, Repr

/-- The whole catalog. -/
structure Db where
  vaults : List Vault
  albums : List Album
  images : List Image
  settings : Settings
deriving DecidableEq, Repr

/-- Engine state: catalog, directory tree, the uuid counter, the catalog
mutation log and the activity-log audit list. -/
structure St where
  db : Db
  fs : FsNode
  uid : Nat
  ops : List DbOp
  audit : List (Path × String)
deriving Repr

/-- The modelled `uuid()`: mint the next id string. -/
def mkUid (n : Nat) : String := "u" ++ Nat.repr n

/-- Stable insertion step of the `ORDER BY` model. -/
def insSortBy (le : α → α → Bool) (x : α) : List α → List α
  | [] => [x]
  | y :: ys => if le y x then y :: insSortBy le x ys else x :: y :: ys

/-- Stable sort modelling `ORDER BY` (equal keys keep insertion order). -/
def sortBy (le : α → α → Bool) (l : List α) : List α :=
  l.foldr (insSortBy le) []

/-- `database.getAllVaults` (`ORDER BY "order"`). -/
def dbGetAllVaults (s : St) : List Vault :=
  sortBy (fun a b => a.order ≤ b.order) s.db.vaults

/-- `database.getVaultById`. -/
def dbGetVaultById (s : St) (id : String) : Option Vault :=
  s.db.vaults.find? (fun v => v.id == id)

/-- `database.getAllAlbums` (`ORDER BY "order"`). -/
def dbGetAllAlbums (s : St) : List Album :=
  sortBy (fun a b => a.order ≤ b.order) s.db.albums

/-- `database.getAlbumsByVault` (`WHERE vault_id = ? ORDER BY "order"`). -/
def dbGetAlbumsByVault (s : St) (vid : String) : List Album :=
  sortBy (fun a b => a.order ≤ b.order)
    (s.db.albums.filter (fun a => a.vaultId == vid))

/-- `database.getAllImages` (`ORDER BY filename`). -/
def dbGetAllImages (s : St) : List Image :=
  sortBy (fun a b => a.filename ≤ b.filename) s.db.images

/-- `database.getImageById`. -/
def dbGetImageById (s : St) (id : String) : Option Image :=
  s.db.images.find? (fun i => i.id == id)

/-- `database.insertVault`. -/
def dbInsertVault (s : St) (v : Vault) : St :=
  { s with
    db.vaults := s.db.vaults ++ [v]
    ops := s.ops ++ [DbOp.insertVault v] }

/-- `database.insertAlbum`. -/
def dbInsertAlbum (s : St) (a : Album) : St :=
  { s with
    db.albums := s.db.albums ++ [a]
    ops := s.ops ++ [DbOp.insertAlbum a] }

/-- `database.updateAlbum` (an `UPDATE ... WHERE id = ?`: a missing row is
silently a no-op). -/
def dbUpdateAlbum (s : St) (id : String) (u : AlbumUpd) : St :=
  { s with
    db.albums := s.db.albums.map (fun a => if a.id == id then applyAlbumUpd u a else a)
    ops := s.ops ++ [DbOp.updateAlbum id u] }

/-- The recursive `getDescendants` inside `database.deleteAlbum`, reading
the live album table; fuelled because a corrupted parent chain would make
the source recurse forever. -/
def dbDescendants (albums : List Album) : Nat → String → List String
  | 0, _ => []
  | fuel + 1, pid =>
    (albums.filter (fun a => a.parentId == some pid)).flatMap
      (fun c => c.id :: dbDescendants albums fuel c.id)

/-- `database.deleteAlbum`: collect the album and its live descendants,
set `album_id = NULL` on their images ("Move images to orphans" in the
source), then delete the album rows.  Image rows are not deleted. -/
def dbDeleteAlbum (s : St) (id : String) : St :=
  let ids := id :: dbDescendants s.db.albums s.db.albums.length id
  { s with
    db.images := s.db.images.map (fun i =>
      if ids.contains (i.albumId.getD "") && i.albumId.isSome
      then { i with albumId := none } else i)
    db.albums := s.db.albums.filter (fun a => !(ids.contains a.id))
    ops := s.ops ++ [DbOp.deleteAlbumCascade id] }

/-- `database.insertImage` (`INSERT OR REPLACE`, with `path` unique: rows
conflicting on `id` or `path` are replaced). -/
def dbInsertImage (s : St) (i : Image) : St :=
  { s with
    db.images :=
      s.db.images.filter (fun r => !(r.id == i.id) && !(decide (r.path = i.path))) ++ [i]
    ops := s.ops ++ [DbOp.insertImage i] }

/-- `database.updateImages` (`UPDATE ... WHERE id IN (...)`). -/
def dbUpdateImages (s : St) (ids : List String) (u : ImageUpd) : St :=
  { s with
    db.images := s.db.images.map (fun i =>
      if ids.contains i.id then applyImageUpd u i else i)
    ops := s.ops ++ [DbOp.updateImages ids u] }

/-- `database.deleteImages`. -/
def dbDeleteImages (s : St) (ids : List String) : St :=
  { s with
    db.images := s.db.images.filter (fun i => !(ids.contains i.id))
    ops := s.ops ++ [DbOp.deleteImages ids] }

/-- `database.updateImagePath`. -/
def dbUpdateImagePath (s : St) (id : String) (p : Path) (fn : String) : St :=
  { s with
    db.images := s.db.images.map (fun i =>
      if i.id == id then { i with path := p, filename := fn } else i)
    ops := s.ops ++ [DbOp.updateImagePath id p fn] }

/-- `database.clearAllImages` (`DELETE FROM images`). -/
def dbClearAllImages (s : St) : St :=
  { s with
    db.images := []
    ops := s.ops ++ [DbOp.clearAllImages] }

/-- `writeVaultLog`: appended to the audit list (see the header note). -/
def auditLog (s : St) (vaultPath : Path) (action : String) : St :=
  { s with audit := s.audit ++ [(vaultPath, action)] }

/-! ## Shared helpers of the vault module -/

/-- Operation-level errors (`throw new Error(...)` in the source, plus
propagated filesystem errors); spec section 7 taxonomy. -/
inductive OpErr where
  | notFound (what : String)
  | conflict (what : String)
  | notEmpty
  | noVault
  | fsFail (e : FsErr)
deriving DecidableEq, Repr

/-- Result of a single-item operation: the error or value, together with
the state as mutated so far (an error after a partial mutation keeps the
mutation, exactly as the source's thrown exceptions do). -/
abbrev OpRes (α : Type) := Except OpErr α × St

/-- The `getAlbumPath` closure the vault module rebuilds in each operation:
derive an album's vault-relative path by walking the parent chain and
sanitizing names; a missing parent restarts from the bare name.  Fuelled:
the source would recurse forever on a cyclic chain, callers pass
`albums.length` and theorems carry chain hypotheses making the fuel
sufficient. -/
def getAlbumPath (albums : List Album) : Nat → Album → Path
  | 0, a => [sanitizeFilename a.name]
  | fuel + 1, a =>
    match a.parentId with
    | none => [sanitizeFilename a.name]
    | some pid =>
      match albums.find? (fun p => p.id == pid) with
      | none => [sanitizeFilename a.name]
      | some p => getAlbumPath albums fuel p ++ [sanitizeFilename a.name]

/-- The candidate filename tried at counter value `n` by
`getUniqueFilename`: the filename itself at `0`, then `base (n)ext`. -/
def candName (base ext : String) : Nat → String
  | 0 => base ++ ext
  | n + 1 => base ++ " (" ++ Nat.repr (n + 1) ++ ")" ++ ext

/-- The collision loop of `getUniqueFilename`, fuelled (the source loops
until a free name is found; adequacy of the fuel is a theorem input). -/
def uniqueLoop (t : FsNode) (dir : Path) (base ext : String) :
    Nat → Nat → Path
  | _, 0 => dir ++ [candName base ext 0]
  | counter, fuel + 1 =>
    let p := dir ++ [candName base ext counter]
    if existsAt t p then uniqueLoop t dir base ext (counter + 1) fuel
    else p

/-- `getUniqueFilename(targetDir, filename)`: starting from the filename,
append ` (n)` with increasing `n` until the name is free in the target
directory. -/
def getUniqueFilename (t : FsNode) (dir : Path) (filename : String) : Path :=
  let ext := extname filename
  let base := filename.dropRight ext.length
  uniqueLoop t dir base ext 0 ((readdirAt t dir).getD []).length.succ

end FilesSorter

namespace FilesSorter

/-- The by-id `getAlbumPath` closure used by `createFolder` and the
organize job: a missing album yields the empty relative path (the source
returns the empty string, which `path.join` drops). -/
def getAlbumPathById (albums : List Album) : Nat → String → Path
  | 0, _ => []
  | fuel + 1, aid =>
    match albums.find? (fun a => a.id == aid) with
    | none => []
    | some a =>
      match a.parentId with
      | none => [sanitizeFilename a.name]
      | some pid =>
        getAlbumPathById albums fuel pid ++ [sanitizeFilename a.name]

/-! ## `vault.renameFolder` -/

/-- `vault.renameFolder(albumId, newName)`: derive the current directory,
rename it in place to the sanitized new name (no existence pre-check: the
outcome on an occupied target is whatever `fs.rename` does), log, then
update only the album's `name` column. -/
def renameFolder (albumId newName : String) (s : St) : OpRes Album :=
  let albums := dbGetAllAlbums s
  match albums.find? (fun a => a.id == albumId) with
  | none => (Except.error (OpErr.notFound "Album not found"), s)
  | some album =>
    match dbGetVaultById s album.vaultId with
    | none => (Except.error (OpErr.notFound "Vault not found for this album"), s)
    | some vaultRecord =>
      let currentPath := vaultRecord.path ++ getAlbumPath albums albums.length album
      let parentDir := currentPath.dropLast
      let newFolderName := sanitizeFilename newName
      let newPath := parentDir ++ [newFolderName]
      match renameFs s.fs currentPath newPath with
      | Except.error e => (Except.error (OpErr.fsFail e), s)
      | Except.ok fs2 =>
        let s := { s with fs := fs2 }
        let s := auditLog s vaultRecord.path "RENAME"
        let s := dbUpdateAlbum s albumId { name := some newFolderName }
        (Except.ok { album with name := newFolderName }, s)

/-! ## `vault.moveFolder` -/

/-- Target-vault resolution step of `moveFolder` (returns the resolved
target vault record and id, or the error thrown during resolution). -/
def moveFolderResolve (s : St) (albums : List Album) (album : Album)
    (newParentId : Option String) (targetVaultId : Option String)
    (sourceVaultRecord : Vault) : Except OpErr (Vault × String) :=
  match targetVaultId with
  | some tid =>
    if tid != album.vaultId then
      match dbGetVaultById s tid with
      | none => Except.error (OpErr.notFound "Target vault not found")
      | some tv => Except.ok (tv, tid)
    else Except.ok (sourceVaultRecord, album.vaultId)
  | none =>
    match newParentId with
    | some npid =>
      match albums.find? (fun a => a.id == npid) with
      | some newParent =>
        if newParent.vaultId != album.vaultId then
          match dbGetVaultById s newParent.vaultId with
          | none => Except.error (OpErr.notFound "Target parent vault not found")
          | some tv => Except.ok (tv, newParent.vaultId)
        else Except.ok (sourceVaultRecord, album.vaultId)
      | none => Except.ok (sourceVaultRecord, album.vaultId)
    | none => Except.ok (sourceVaultRecord, album.vaultId)

/-- The recursive `updateChildrenVault` of `moveFolder`: cascade the new
`vaultId` to descendant albums of the snapshot (images of those nested
descendants are not touched — the documented gap).  Fuelled like every
parent-chain walk. -/
def updateChildrenVault (snapshot : List Album) (rvid : String) :
    Nat → String → St → St
  | 0, _, s => s
  | fuel + 1, pid, s =>
    (snapshot.filter (fun a => a.parentId == some pid)).foldl
      (fun acc c =>
        updateChildrenVault snapshot rvid fuel c.id
          (dbUpdateAlbum acc c.id { vaultId := some rvid }))
      s

/-- `vault.moveFolder(albumId, newParentId, targetVaultId?)`.  Note: the
source's target-exists check throws an `Error` without a `code` property
inside its own `try`, and the `catch` only rethrows errors carrying a
non-ENOENT `code`, so the Conflict throw is swallowed and the block as a
whole is a no-op; the model reflects that by omitting it.  The move then
stands or falls with `fs.rename`. -/
def moveFolder (albumId : String) (newParentId : Option String)
    (targetVaultId : Option String) (s : St) : OpRes Album :=
  let albums := dbGetAllAlbums s
  match albums.find? (fun a => a.id == albumId) with
  | none => (Except.error (OpErr.notFound "Album not found"), s)
  | some album =>
    match dbGetVaultById s album.vaultId with
    | none => (Except.error (OpErr.notFound "Source vault not found"), s)
    | some sourceVaultRecord =>
      match moveFolderResolve s albums album newParentId targetVaultId
          sourceVaultRecord with
      | Except.error e => (Except.error e, s)
      | Except.ok (targetVault, resolvedVaultId) =>
        if album.parentId == newParentId && album.vaultId == resolvedVaultId then
          (Except.ok album, s)
        else
          let currentPath :=
            sourceVaultRecord.path ++ getAlbumPath albums albums.length album
          let newParentPathE : Except OpErr Path :=
            match newParentId with
            | none => Except.ok targetVault.path
            | some npid =>
              match albums.find? (fun a => a.id == npid) with
              | none => Except.error (OpErr.notFound "Target parent album not found")
              | some newParent =>
                match dbGetVaultById s newParent.vaultId with
                | none => Except.error (OpErr.notFound "Parent vault not found")
                | some parentVault =>
                  Except.ok
                    (parentVault.path ++ getAlbumPath albums albums.length newParent)
          match newParentPathE with
          | Except.error e => (Except.error e, s)
          | Except.ok newParentPath =>
            let newPath := newParentPath ++ [sanitizeFilename album.name]
            match moveFileFs s.fs currentPath newPath with
            | Except.error e => (Except.error (OpErr.fsFail e), s)
            | Except.ok fs2 =>
              let s := { s with fs := fs2 }
              let siblingAlbums := albums.filter (fun a =>
                a.parentId == newParentId && a.vaultId == resolvedVaultId)
              let maxOrder := (siblingAlbums.map (fun a => a.order)).foldl Nat.max 0
              let s := dbUpdateAlbum s albumId
                { parentId := some newParentId
                  vaultId := some resolvedVaultId
                  order := some (maxOrder + 1) }
              let s :=
                if resolvedVaultId != album.vaultId then
                  let s := updateChildrenVault albums resolvedVaultId
                    albums.length albumId s
                  let images := dbGetAllImages s
                  let imagesToUpdate := images.filter (fun i => i.albumId == some albumId)
                  if imagesToUpdate.length > 0 then
                    dbUpdateImages s (imagesToUpdate.map (fun i => i.id))
                      { vaultId := some (some resolvedVaultId) }
                  else s
                else s
              let s :=
                if sourceVaultRecord.id == targetVault.id then
                  auditLog s sourceVaultRecord.path "MOVE"
                else
                  auditLog (auditLog s sourceVaultRecord.path "MOVE")
                    targetVault.path "MOVE"
              (Except.ok { album with
                  parentId := newParentId
                  vaultId := resolvedVaultId
                  order := maxOrder + 1 }, s)

/-! ## `vault.deleteFolder` -/

/-- The recursive `deleteAlbumAndChildren` of `deleteFolder`: post-order
over the snapshot's children, then `database.deleteAlbum` on the id. -/
def deleteAlbumAndChildren (snapshot : List Album) :
    Nat → String → St → St
  | 0, _, s => s
  | fuel + 1, id, s =>
    let s := (snapshot.filter (fun a => a.parentId == some id)).foldl
      (fun acc c => deleteAlbumAndChildren snapshot fuel c.id acc) s
    dbDeleteAlbum s id

/-- `vault.deleteFolder(albumId, deleteContents)`: fail NotEmpty when the
directory holds a non-hidden entry and the flag is false; otherwise log,
remove the tree recursively, then cascade album deletion through
`database.deleteAlbum` (which orphans, not deletes, the image rows). -/
def deleteFolder (albumId : String) (deleteContents : Bool) (s : St) :
    OpRes Unit :=
  let albums := dbGetAllAlbums s
  match albums.find? (fun a => a.id == albumId) with
  | none => (Except.error (OpErr.notFound "Album not found"), s)
  | some album =>
    match dbGetVaultById s album.vaultId with
    | none => (Except.error (OpErr.notFound "Vault not found for this album"), s)
    | some vaultRecord =>
      let folderPath := vaultRecord.path ++ getAlbumPath albums albums.length album
      match readdirAt s.fs folderPath with
      | none => (Except.error (OpErr.fsFail FsErr.enoent), s)
      | some entries =>
        let hasContents := entries.any (fun e => !(strStarts "." e.1))
        if hasContents && !deleteContents then
          (Except.error OpErr.notEmpty, s)
        else
          let s := auditLog s vaultRecord.path "DELETE"
          match rmRecFs s.fs folderPath with
          | Except.error e => (Except.error (OpErr.fsFail e), s)
          | Except.ok fs2 =>
            let s := { s with fs := fs2 }
            let s := deleteAlbumAndChildren albums albums.length albumId s
            (Except.ok (), s)

end FilesSorter

namespace FilesSorter

/-! ## `vault.createFolder` -/

/-- First resolution step of `createFolder`: the explicit vault id, else
the parent album's vault. -/
def resolveStep1 (albums : List Album) (parentId vaultId : Option String) :
    Option String :=
  match vaultId with
  | some v => some v
  | none =>
    match parentId with
    | some pid => (albums.find? (fun a => a.id == pid)).map (fun a => a.vaultId)
    | none => none

/-- The parent directory `createFolder` creates under: the vault root,
or the parent album's derived directory. -/
def createTargetDir (albums : List Album) (parentId : Option String)
    (vaultPath : Path) : Path :=
  match parentId with
  | none => vaultPath
  | some pid => vaultPath ++ getAlbumPathById albums albums.length pid

/-- `vault.createFolder(name, parentId?, vaultId?)`: resolve the target
vault (explicit id, else the parent album's vault, else the legacy
`settings.vaultFolder` for which a vault record is found or created),
sanitize the name, `mkdir -p` the directory under the resolved parent
path, and insert the album with order one past the maximum order over
*all* albums of the catalog (the source's `Math.max(0, ...albums)` ranges
over the full `getAllAlbums()` snapshot, not the siblings). -/
def createFolder (name : String) (parentId : Option String)
    (vaultId : Option String) (s : St) : OpRes Album :=
  let albums := dbGetAllAlbums s
  let step1 : Option String := resolveStep1 albums parentId vaultId
  let resolvedE : Except OpErr (String × St) :=
    match step1 with
    | some rv => Except.ok (rv, s)
    | none =>
      match s.db.settings.vaultFolder with
      | none => Except.error OpErr.noVault
      | some vf =>
        let vaults := dbGetAllVaults s
        match vaults.find? (fun v => v.path == vf) with
        | some v => Except.ok (v.id, s)
        | none =>
          let newVault : Vault :=
            { id := mkUid s.uid
              path := vf
              displayName := vf.getLastD ""
              isVisible := true
              order := vaults.length }
          Except.ok (newVault.id, dbInsertVault { s with uid := s.uid + 1 } newVault)
  match resolvedE with
  | Except.error e => (Except.error e, s)
  | Except.ok (resolvedVaultId, s) =>
    match dbGetVaultById s resolvedVaultId with
    | none => (Except.error (OpErr.notFound "Vault not found"), s)
    | some vaultRecord =>
      let targetDir := createTargetDir albums parentId vaultRecord.path
      let folderName := sanitizeFilename name
      let folderPath := targetDir ++ [folderName]
      match mkdirp s.fs folderPath with
      | Except.error e => (Except.error (OpErr.fsFail e), s)
      | Except.ok fs2 =>
        let s := { s with fs := fs2 }
        let maxOrder := (albums.map (fun a => a.order)).foldl Nat.max 0
        let album : Album :=
          { id := mkUid s.uid
            name := folderName
            parentId := parentId
            vaultId := resolvedVaultId
            order := maxOrder + 1 }
        let s := dbInsertAlbum { s with uid := s.uid + 1 } album
        let s := auditLog s vaultRecord.path "CREATE"
        (Except.ok album, s)

/-! ## `vault.moveImageToTrash` -/

/-- The trash-vault resolution of `moveImageToTrash`: the owning vault's
path when it resolves, else the first visible vault, else the legacy
`settings.vaultFolder`. -/
def resolveTrashVaultPath (s : St) (image : Image) : Option Path :=
  let fromOwner : Option Path :=
    match image.vaultId with
    | some vid => (dbGetVaultById s vid).map (fun v => v.path)
    | none => none
  match fromOwner with
  | some p => some p
  | none =>
    match (dbGetAllVaults s).find? (fun v => v.isVisible) with
    | some v => some v.path
    | none => s.db.settings.vaultFolder

/-- `vault.moveImageToTrash(imageId)`: resolve the trash vault, ensure its
`_Trash` directory, move the file there under a collision-free name, log,
then delete the image's catalog row. -/
def moveImageToTrash (imageId : String) (s : St) : OpRes Unit :=
  match dbGetImageById s imageId with
  | none => (Except.error (OpErr.notFound "Image not found"), s)
  | some image =>
    match resolveTrashVaultPath s image with
    | none => (Except.error OpErr.noVault, s)
    | some vaultPath =>
      let trashDir := vaultPath ++ ["_Trash"]
      match mkdirp s.fs trashDir with
      | Except.error e => (Except.error (OpErr.fsFail e), s)
      | Except.ok fs2 =>
        let s := { s with fs := fs2 }
        let targetPath := getUniqueFilename s.fs trashDir image.filename
        match moveFileFs s.fs image.path targetPath with
        | Except.error e => (Except.error (OpErr.fsFail e), s)
        | Except.ok fs3 =>
          let s := { s with fs := fs3 }
          let s := auditLog s vaultPath "DELETE"
          let s := dbDeleteImages s [imageId]
          (Except.ok (), s)

end FilesSorter

namespace FilesSorter

/-! ## The organize job (`organizer.ts`) -/

/-- Rendering of a filesystem error as the recorded reason string. -/
def fsErrMsg : FsErr → String
  | FsErr.enoent => "ENOENT"
  | FsErr.eexist => "EEXIST"
  | FsErr.enotempty => "ENOTEMPTY"
  | FsErr.einval => "EINVAL"
  | FsErr.enotdir => "ENOTDIR"
  | FsErr.eisdir => "EISDIR"

/-- Modelled from the spec: `moveToSystemTrash` shells out to the macOS
Finder to delete the file (spec section 4.5, "system trash"); the OS trash
can lies outside the modelled tree, so the disposition is a file removal. -/
def moveToSystemTrash (t : FsNode) (p : Path) : Except FsErr FsNode :=
  unlinkFs t p

/-- One iteration body of the organize loop (the `try` block): check the
source file exists, dispose of it per its status (trash / sort-later /
album), mirroring the `deleteOriginals` move-or-copy choice. -/
def organizeItem (deleteOriginals : Bool) (vaultFolder : Path)
    (th : TrashHandling) (albums : List Album) (image : Image)
    (t : FsNode) : Except FsErr FsNode :=
  if !(existsAt t image.path) then Except.error FsErr.enoent
  else if image.status == ImgStatus.trash then
    match th with
    | TrashHandling.system => moveToSystemTrash t image.path
    | TrashHandling.vault =>
      let trashDir := vaultFolder ++ ["_Trash"]
      match mkdirp t trashDir with
      | Except.error e => Except.error e
      | Except.ok t2 =>
        let targetPath := getUniqueFilename t2 trashDir image.filename
        moveFileFs t2 image.path targetPath
  else if image.status == ImgStatus.notSure then
    let sortLaterDir := vaultFolder ++ ["_Sort Later"]
    match mkdirp t sortLaterDir with
    | Except.error e => Except.error e
    | Except.ok t2 =>
      let targetPath := getUniqueFilename t2 sortLaterDir image.filename
      if deleteOriginals then moveFileFs t2 image.path targetPath
      else copyFileFs t2 image.path targetPath
  else
    match image.albumId with
    | some aid =>
      let albumPath := getAlbumPathById albums albums.length aid
      let targetDir := vaultFolder ++ albumPath
      match mkdirp t targetDir with
      | Except.error e => Except.error e
      | Except.ok t2 =>
        let targetPath := getUniqueFilename t2 targetDir image.filename
        if deleteOriginals then moveFileFs t2 image.path targetPath
        else copyFileFs t2 image.path targetPath
    | none => Except.ok t

/-- The organize loop: cooperative cancellation is checked between items
(`cancelAt = some k` makes the check fire from the `k`-th item on); each
item either succeeds (its id is collected) or appends one
`(path, reason)` error entry, and the loop always continues. -/
def organizeLoop (deleteOriginals : Bool) (vaultFolder : Path)
    (th : TrashHandling) (albums : List Album) (cancelAt : Option Nat) :
    List Image → Nat → FsNode → List (Path × String) → List String →
    FsNode × List (Path × String) × List String
  | [], _, t, errs, done => (t, errs, done)
  | image :: rest, idx, t, errs, done =>
    let cancelled := match cancelAt with
      | some k => decide (k ≤ idx)
      | none => false
    if cancelled then (t, errs, done)
    else
      match organizeItem deleteOriginals vaultFolder th albums image t with
      | Except.ok t2 =>
        organizeLoop deleteOriginals vaultFolder th albums cancelAt rest
          (idx + 1) t2 errs (done ++ [image.id])
      | Except.error e =>
        organizeLoop deleteOriginals vaultFolder th albums cancelAt rest
          (idx + 1) t (errs ++ [(image.path, fsErrMsg e)]) done

/-- `organizer.organize(deleteOriginals)`: select the images carrying a
pending disposition, run the continue-on-error loop, then delete the
catalog rows of exactly the successfully disposed images.  Returns the
error/unit outcome, the final state and the published error entries. -/
def organize (deleteOriginals : Bool) (cancelAt : Option Nat) (s : St) :
    Except OpErr Unit × St × List (Path × String) :=
  let images := dbGetAllImages s
  let albums := dbGetAllAlbums s
  match s.db.settings.vaultFolder with
  | none => (Except.error OpErr.noVault, s, [])
  | some vaultFolder =>
    let toProcess := images.filter (fun img =>
      img.albumId.isSome || img.status == ImgStatus.trash
        || img.status == ImgStatus.notSure)
    let (t2, errs, processedIds) :=
      organizeLoop deleteOriginals vaultFolder s.db.settings.trashHandling
        albums cancelAt toProcess 0 s.fs [] []
    let s := { s with fs := t2 }
    let s := if processedIds.length > 0 then dbDeleteImages s processedIds else s
    (Except.ok (), s, errs)

/-! ## The scan job (`scanner.ts`) -/

/-- `SUPPORTED_FORMATS` of the scanner. -/
def SCANNER_SUPPORTED : List String :=
  [".jpg", ".jpeg", ".png", ".gif", ".webp", ".avif", ".bmp", ".tiff", ".tif"]

/-- `IMAGE_EXTENSIONS` of the scanner. -/
def SCANNER_IMAGE_EXTENSIONS : List String :=
  SCANNER_SUPPORTED ++
    [".cr2", ".cr3", ".nef", ".arw", ".dng", ".raf", ".orf", ".rw2",
     ".psd", ".ai", ".eps", ".svg", ".ico", ".heic", ".heif"]

/-- One cooperative-cancellation check: `some 0` means cancellation has
been requested (and stays requested); otherwise the countdown ticks. -/
def checkCancel : Option Nat → Bool × Option Nat
  | none => (false, none)
  | some 0 => (true, some 0)
  | some (n + 1) => (false, some n)

/-- `processFile` of the scan job: skip non-image extensions, otherwise
insert a fresh catalog row for the file.  Dimension and thumbnail
extraction are external bitmap work (spec section 1) and modelled as
absent; the inserted row has no album and no vault. -/
def scanFile (filename : String) (sz : Nat) (mt : String) (filePath : Path)
    (s : St) (b : Option Nat) : St × Option Nat :=
  let (c, b) := checkCancel b
  if c then (s, b)
  else
    let ext := strLower (extname filename)
    if !(SCANNER_IMAGE_EXTENSIONS.contains ext) then (s, b)
    else
      let row : Image :=
        { id := mkUid s.uid
          path := filePath
          filename := filename
          fileSize := sz
          width := none
          height := none
          modifiedDate := mt
          thumbnailPath := none
          isSupported := SCANNER_SUPPORTED.contains ext
          format := String.mk (ext.data.drop 1)
          albumId := none
          vaultId := none
          status := ImgStatus.normal }
      (dbInsertImage { s with uid := s.uid + 1 } row, b)

mutual

/-- `processFolder` of the scan job on a resolved node. -/
def scanFolder : FsNode → Path → St → Option Nat → St × Option Nat
  | node, p, s, b =>
    let (c, b) := checkCancel b
    if c then (s, b)
    else
      match node with
      | FsNode.file _ _ => (s, b)
      | FsNode.dir es => scanFolderEntries es p s b

/-- The entry loop of `processFolder`: per-entry cancellation check, skip
hidden names, recurse into directories, process files. -/
def scanFolderEntries :
    List (String × FsNode) → Path → St → Option Nat → St × Option Nat
  | [], _, s, b => (s, b)
  | (name, child) :: rest, p, s, b =>
    let (c, b) := checkCancel b
    if c then (s, b)
    else if strStarts "." name then scanFolderEntries rest p s b
    else
      match child with
      | FsNode.dir _ =>
        let (s, b) := scanFolder child (p ++ [name]) s b
        scanFolderEntries rest p s b
      | FsNode.file sz mt =>
        let (s, b) := scanFile name sz mt (p ++ [name]) s b
        scanFolderEntries rest p s b

end

/-- `scanner.scan(folderPath)`: clear every image row, then walk the tree
inserting the discovered files (an unreadable root is logged and the walk
yields nothing, as the source's catch does). -/
def scan (folderPath : Path) (b : Option Nat) (s : St) : St :=
  let s := dbClearAllImages s
  match lookupFs s.fs folderPath with
  | some n => (scanFolder n folderPath s b).1
  | none => s

end FilesSorter

namespace FilesSorter

/-! ## `vault.scanVaultFolder` and `vault.syncVault` -/

/-- A `VaultAlbum` of the scan: one discovered folder with its minted id,
raw name, parent's minted id, vault-relative path and traversal order. -/
structure VaultAlbum where
  id : String
  name : String
  parentId : Option String
  vaultId : String
  path : Path
  order : Nat
deriving DecidableEq, Repr

/-- `scanDir` accepts a directory entry when it is a directory, not a
reserved name and not dot-prefixed. -/
def scanAccept (name : String) (child : FsNode) : Bool :=
  match child with
  | FsNode.dir _ =>
    !(SPECIAL_FOLDERS.contains name) && !(strStarts "." name)
  | FsNode.file _ _ => false

mutual

/-- The recursive `scanDir` of `scanVaultFolder` on a resolved node:
depth-first, pushing each accepted folder before recursing into it,
threading the uuid and order counters. -/
def scanVA : FsNode → String → Option String → Path → Nat → Nat →
    List VaultAlbum × Nat × Nat
  | FsNode.file _ _, _, _, _, uid, ord => ([], uid, ord)
  | FsNode.dir es, vid, pid, rel, uid, ord => scanVAEntries es vid pid rel uid ord

/-- The entry loop of `scanDir`. -/
def scanVAEntries : List (String × FsNode) → String → Option String → Path →
    Nat → Nat → List VaultAlbum × Nat × Nat
  | [], _, _, _, uid, ord => ([], uid, ord)
  | (name, child) :: rest, vid, pid, rel, uid, ord =>
    if scanAccept name child then
      let album : VaultAlbum :=
        { id := mkUid uid
          name := name
          parentId := pid
          vaultId := vid
          path := rel ++ [name]
          order := ord }
      let (sub, uid2, ord2) :=
        scanVA child vid (some album.id) (rel ++ [name]) (uid + 1) (ord + 1)
      let (restOut, uid3, ord3) := scanVAEntries rest vid pid rel uid2 ord2
      (album :: (sub ++ restOut), uid3, ord3)
    else scanVAEntries rest vid pid rel uid ord

end

/-- `vault.scanVaultFolder(vaultId)`: resolve the vault, walk its root
(an unresolvable or unreadable root yields the empty list), and return
the discovered folder structure plus the advanced uuid counter. -/
def scanVaultFolder (vaultId : String) (s : St) : List VaultAlbum × Nat :=
  match dbGetVaultById s vaultId with
  | none => ([], s.uid)
  | some vaultRecord =>
    match lookupFs s.fs vaultRecord.path with
    | some (FsNode.dir es) =>
      let (out, uid2, _) := scanVAEntries es vaultId none [] s.uid 0
      (out, uid2)
    | _ => ([], s.uid)

/-- JS `Map.set` on a path-keyed association list: replace in place when
the key is present (keeping the original position), else append. -/
def alSet (m : List (Path × Album)) (k : Path) (v : Album) :
    List (Path × Album) :=
  if m.any (fun e => e.1 == k) then
    m.map (fun e => if e.1 == k then (k, v) else e)
  else m ++ [(k, v)]

/-- JS `Map.get` by path key. -/
def alGet (m : List (Path × Album)) (k : Path) : Option Album :=
  (m.find? (fun e => e.1 == k)).map (fun e => e.2)

/-- The `pathToExisting` map of `syncVault`: every existing album keyed by
its freshly derived relative path (later duplicates overwrite earlier). -/
def buildPathToExisting (existingAlbums : List Album) : List (Path × Album) :=
  existingAlbums.foldl
    (fun m a => alSet m (getAlbumPath existingAlbums existingAlbums.length a) a)
    []

/-- The album-construction loop of `syncVault`: for each scanned folder in
traversal order, reuse the existing album's id when one occupies the same
path, link the parent through the albums built so far, and record the
result in `pathToNewAlbum`. -/
def syncBuild (pathToExisting : List (Path × Album)) (vaultId : String) :
    List VaultAlbum → List Album → List (Path × Album) →
    List Album × List (Path × Album)
  | [], acc, m => (acc, m)
  | va :: rest, acc, m =>
    let existing := alGet pathToExisting va.path
    let parentAlbum : Option Album :=
      if va.path.length ≤ 1 then none else alGet m va.path.dropLast
    let album : Album :=
      { id := match existing with
          | some e => e.id
          | none => va.id
        name := va.name
        parentId := parentAlbum.map (fun a => a.id)
        vaultId := vaultId
        order := va.order }
    syncBuild pathToExisting vaultId rest (acc ++ [album]) (alSet m va.path album)

/-- The per-folder image pass of `syncVault` for one scanned folder:
non-recursively list the files, correct drifted album/vault associations
of known paths, insert rows for new files (the extension allow-list
decides supportedness). -/
def syncImagesInFolder (vaultRecord : Vault) (vaultId : String)
    (existingImages : List Image) (album : Album) (vaPath : Path) (s : St) : St :=
  let folderPath := vaultRecord.path ++ vaPath
  match readdirAt s.fs folderPath with
  | none => s
  | some entries =>
    entries.foldl
      (fun s entry =>
        match entry with
        | (_, FsNode.dir _) => s
        | (name, FsNode.file sz mt) =>
          if !(isImageFile name) then s
          else
            let imagePath := folderPath ++ [name]
            match existingImages.find? (fun i => i.path == imagePath) with
            | some existingImage =>
              if existingImage.albumId != some album.id
                  || existingImage.vaultId != some vaultId then
                dbUpdateImages s [existingImage.id]
                  { albumId := some (some album.id)
                    vaultId := some (some vaultId)
                    status := some ImgStatus.normal }
              else s
            | none =>
              let ext := String.mk ((strLower (extname name)).data.drop 1)
              let row : Image :=
                { id := mkUid s.uid
                  path := imagePath
                  filename := name
                  fileSize := sz
                  width := none
                  height := none
                  modifiedDate := mt
                  thumbnailPath := none
                  isSupported := SUPPORTED_EXTENSIONS.contains ("." ++ ext)
                  format := ext
                  albumId := some album.id
                  vaultId := some vaultId
                  status := ImgStatus.normal }
              dbInsertImage { s with uid := s.uid + 1 } row)
      s

/-- The orphan-matching fold of `syncVault`, verbatim: the incumbent match
is compared through `pathToNewAlbum.get(matchedAlbumId)` — a lookup of an
album *id* in a map keyed by relative *paths* — whose `?.name.length || 0`
collapses to `0` whenever the id is not itself a path key. -/
def orphanMatch (m : List (Path × Album)) (vaultPath imgPath : Path) :
    Option String :=
  m.foldl
    (fun matched e =>
      if segStartsStrict (vaultPath ++ e.1) imgPath then
        if matched.isNone
            || decide ((pathStr e.1).length >
                (((m.find? (fun x => pathStr x.1 == matched.getD "")).map
                  (fun x => x.2.name.length)).getD 0)) then
          some e.2.id
        else matched
      else matched)
    none

/-- The orphan-reclamation pass of `syncVault`: every snapshot image with
no vault whose path starts with the vault root is attached to the matched
album (or to none) and claimed for this vault. -/
def syncOrphans (vaultRecord : Vault) (vaultId : String)
    (existingImages : List Image) (m : List (Path × Album)) (s : St) : St :=
  let orphanedImages := existingImages.filter (fun img =>
    img.vaultId == none && segStarts vaultRecord.path img.path)
  orphanedImages.foldl
    (fun s img =>
      dbUpdateImages s [img.id]
        { vaultId := some (some vaultId)
          albumId := some (orphanMatch m vaultRecord.path img.path) })
    s

/-- `vault.syncVault(vaultId)`: scan the vault root, match scanned paths
against freshly derived existing-album paths, delete stale albums, insert
or (unconditionally) update matched ones, reconcile the images of each
scanned folder, reclaim orphans, and log one SYNC entry. -/
def syncVault (vaultId : String) (s : St) : OpRes (List Album) :=
  match dbGetVaultById s vaultId with
  | none => (Except.error (OpErr.notFound "Vault not found"), s)
  | some vaultRecord =>
    let (vaultAlbums, uid2) := scanVaultFolder vaultId s
    let s := { s with uid := uid2 }
    let existingAlbums := dbGetAlbumsByVault s vaultId
    let pathToExisting := buildPathToExisting existingAlbums
    let (newAlbums, pathToNewAlbum) :=
      syncBuild pathToExisting vaultId vaultAlbums [] []
    let albumsToDelete := existingAlbums.filter (fun ea =>
      !(newAlbums.any (fun na => na.id == ea.id)))
    let s := albumsToDelete.foldl (fun acc a => dbDeleteAlbum acc a.id) s
    let s := newAlbums.foldl
      (fun acc album =>
        if existingAlbums.any (fun ea => ea.id == album.id) then
          dbUpdateAlbum acc album.id
            { name := some album.name
              parentId := some album.parentId
              vaultId := some album.vaultId
              order := some album.order }
        else dbInsertAlbum acc album)
      s
    let existingImages := dbGetAllImages s
    let s := vaultAlbums.foldl
      (fun acc va =>
        match alGet pathToNewAlbum va.path with
        | none => acc
        | some album =>
          syncImagesInFolder vaultRecord vaultId existingImages album va.path acc)
      s
    let s := syncOrphans vaultRecord vaultId existingImages pathToNewAlbum s
    let s := auditLog s vaultRecord.path "SYNC"
    (Except.ok newAlbums, s)

end FilesSorter

namespace FilesSorter

/-! ## Claim C8: collision-free filenames -/

/-- The collision loop returns the first free candidate at or after the
start counter, provided some candidate within the fuel budget is free. -/
theorem uniqueLoop_first_free (t : FsNode) (dir : Path) (base ext : String) :
    ∀ fuel counter,
      (∃ k, k < fuel ∧ existsAt t (dir ++ [candName base ext (counter + k)]) = false) →
      ∃ n, uniqueLoop t dir base ext counter fuel =
            dir ++ [candName base ext (counter + n)]
        ∧ existsAt t (dir ++ [candName base ext (counter + n)]) = false
        ∧ ∀ j, j < n → existsAt t (dir ++ [candName base ext (counter + j)]) = true := by
  intro fuel
  induction fuel with
  | zero =>
    intro counter h
    obtain ⟨k, hk, _⟩ := h
    omega
  | succ fuel ih =>
    intro counter h
    by_cases h0 : existsAt t (dir ++ [candName base ext counter]) = true
    · have hne : ∃ k, k < fuel ∧
          existsAt t (dir ++ [candName base ext (counter + 1 + k)]) = false := by
        obtain ⟨k, hk, hfree⟩ := h
        match k, hk, hfree with
        | 0, hk, hfree =>
          rw [Nat.add_zero] at hfree
          rw [h0] at hfree
          exact absurd hfree (by simp)
        | k + 1, hk, hfree =>
          exact ⟨k, by omega, by rw [show counter + 1 + k = counter + (k + 1) by omega]; exact hfree⟩
      obtain ⟨n, heq, hfree, hocc⟩ := ih (counter + 1) hne
      refine ⟨n + 1, ?_, ?_, ?_⟩
      · rw [show counter + (n + 1) = counter + 1 + n by omega]
        rw [uniqueLoop, h0]
        exact heq
      · rw [show counter + (n + 1) = counter + 1 + n by omega]
        exact hfree
      · intro j hj
        match j, hj with
        | 0, _ => rw [Nat.add_zero]; exact h0
        | j + 1, hj =>
          rw [show counter + (j + 1) = counter + 1 + j by omega]
          exact hocc j (by omega)
    · have h0f : existsAt t (dir ++ [candName base ext counter]) = false := by
        revert h0
        cases existsAt t (dir ++ [candName base ext counter]) <;> simp
      refine ⟨0, ?_, by rw [Nat.add_zero]; exact h0f, by intro j hj; omega⟩
      rw [Nat.add_zero]
      rw [uniqueLoop, h0f]
      simp

/-- Claim C8: `getUniqueFilename` tries the filename itself, then
`base (1)ext`, `base (2)ext`, ..., and returns the first candidate free in
the target directory: the result is `base (n)ext` for the least free `n`
(with `n = 0` standing for the unchanged filename), every smaller counter
value being occupied.  In particular moving `a.jpg` into a directory
holding `a.jpg` stores `a (1).jpg`, and with `a (1).jpg` also present it
stores `a (2).jpg`. -/
theorem getUniqueFilename_increments_until_free (t : FsNode) (dir : Path)
    (filename : String)
    (hfree : ∃ k, k < ((readdirAt t dir).getD []).length.succ ∧
        existsAt t (dir ++ [candName (filename.dropRight (extname filename).length)
          (extname filename) k]) = false) :
    ∃ n, getUniqueFilename t dir filename =
          dir ++ [candName (filename.dropRight (extname filename).length)
            (extname filename) n]
      ∧ existsAt t (dir ++ [candName (filename.dropRight (extname filename).length)
          (extname filename) n]) = false
      ∧ ∀ j, j < n →
          existsAt t (dir ++ [candName (filename.dropRight (extname filename).length)
            (extname filename) j]) = true := by
  have h := uniqueLoop_first_free t dir
    (filename.dropRight (extname filename).length) (extname filename)
    ((readdirAt t dir).getD []).length.succ 0
    (by simpa using hfree)
  simpa [getUniqueFilename] using h

/-- Concrete directory for the C8 witness: `a.jpg` and `a (1).jpg` both
present. -/
def c8Tree : FsNode :=
  FsNode.dir [("V", FsNode.dir
    [("a.jpg", FsNode.file 1 "t"), ("a (1).jpg", FsNode.file 1 "t")])]

/-- Witness for C8: in a directory holding `a.jpg` and `a (1).jpg`, the
theorem applies and the computed collision-free name is `a (2).jpg`. -/
theorem getUniqueFilename_increments_until_free_witness :
    (∃ k, k < ((readdirAt c8Tree ["V"]).getD []).length.succ ∧
        existsAt c8Tree (["V"] ++ [candName ("a.jpg".dropRight (extname "a.jpg").length)
          (extname "a.jpg") k]) = false)
    ∧ (∃ n, getUniqueFilename c8Tree ["V"] "a.jpg" =
          ["V"] ++ [candName ("a.jpg".dropRight (extname "a.jpg").length)
            (extname "a.jpg") n]
      ∧ existsAt c8Tree (["V"] ++ [candName ("a.jpg".dropRight (extname "a.jpg").length)
          (extname "a.jpg") n]) = false
      ∧ ∀ j, j < n →
          existsAt c8Tree (["V"] ++ [candName ("a.jpg".dropRight (extname "a.jpg").length)
            (extname "a.jpg") j]) = true)
    ∧ getUniqueFilename c8Tree ["V"] "a.jpg" = ["V", "a (2).jpg"] :=
  ⟨⟨2, by decide, by decide⟩,
   getUniqueFilename_increments_until_free c8Tree ["V"] "a.jpg"
     ⟨2, by decide, by decide⟩,
   by decide⟩

end FilesSorter

namespace FilesSorter

/-! ## Claim C1: moving a folder under its own descendant -/

/-- A derived album path is never empty. -/
theorem getAlbumPath_ne_nil (albums : List Album) (fuel : Nat) (a : Album) :
    getAlbumPath albums fuel a ≠ [] := by
  cases fuel with
  | zero => simp [getAlbumPath]
  | succ fuel =>
    rw [getAlbumPath]
    split
    · simp
    · split <;> simp

/-- A path is a segment prefix of any of its extensions. -/
theorem segStarts_append (p r : Path) : segStarts p (p ++ r) = true := by
  induction p with
  | nil => rfl
  | cons a as ih => simp [segStarts, ih]

/-- Renaming a directory onto a strictly longer extension of its own path
always fails (EINVAL from the POSIX no-subdirectory-of-itself rule, or
ENOENT when the source is already gone). -/
theorem renameFs_to_extension_errors (t : FsNode) (src r : Path) (hr : r ≠ []) :
    ∃ e, renameFs t src (src ++ r) = Except.error e := by
  cases src with
  | nil => exact ⟨FsErr.einval, by simp [renameFs]⟩
  | cons s₀ ss =>
    cases r with
    | nil => exact absurd rfl hr
    | cons r₀ rs =>
      cases hl : lookupFs t (s₀ :: ss) with
      | none => exact ⟨FsErr.enoent, by simp [renameFs, hl]⟩
      | some n =>
        have hne : (s₀ :: ss) ≠ s₀ :: (ss ++ r₀ :: rs) := by
          intro h
          have := congrArg List.length h
          simp at this
        have hpre : segStarts (s₀ :: ss) (s₀ :: (ss ++ r₀ :: rs)) = true := by
          have := segStarts_append (s₀ :: ss) (r₀ :: rs)
          simpa using this
        exact ⟨FsErr.einval, by simp [renameFs, hl, hne, hpre]⟩

/-- The parent chain of an album terminates (at a missing or absent
parent) within the given fuel. -/
def chainOk (albums : List Album) : Nat → Album → Bool
  | 0, a =>
    match a.parentId with
    | none => true
    | some pid => (albums.find? (fun p => p.id == pid)).isNone
  | fuel + 1, a =>
    match a.parentId with
    | none => true
    | some pid =>
      match albums.find? (fun p => p.id == pid) with
      | none => true
      | some p => chainOk albums fuel p

/-- The album with the given id is a strict ancestor of `p` reachable
within the given fuel along the parent chain. -/
def isAncestorOf (albums : List Album) (aid : String) : Nat → Album → Bool
  | 0, _ => false
  | fuel + 1, p =>
    match p.parentId with
    | none => false
    | some pid =>
      pid == aid ||
        (match albums.find? (fun x => x.id == pid) with
         | none => false
         | some pp => isAncestorOf albums aid fuel pp)

/-- Chain termination is monotone in the fuel. -/
theorem chainOk_succ (albums : List Album) :
    ∀ fuel a, chainOk albums fuel a = true → chainOk albums (fuel + 1) a = true := by
  intro fuel
  induction fuel with
  | zero =>
    intro a h
    simp only [chainOk] at h ⊢
    rcases hp : a.parentId with _ | pid
    case none => simp [hp]
    case some =>
      simp only [hp] at h ⊢
      rcases hf : albums.find? (fun p => p.id == pid) with _ | p
      case none => simp [hf]
      case some => rw [hf] at h; simp at h
  | succ fuel ih =>
    intro a h
    simp only [chainOk] at h ⊢
    rcases hp : a.parentId with _ | pid
    case none => simp [hp]
    case some =>
      simp only [hp] at h ⊢
      rcases hf : albums.find? (fun p => p.id == pid) with _ | p
      case none => simp [hf]
      case some =>
        simp only [hf] at h ⊢
        exact ih p h

/-- Once the chain terminates within the fuel, adding fuel does not change
the derived path. -/
theorem getAlbumPath_stable (albums : List Album) :
    ∀ fuel a, chainOk albums fuel a = true →
      getAlbumPath albums (fuel + 1) a = getAlbumPath albums fuel a := by
  intro fuel
  induction fuel with
  | zero =>
    intro a h
    simp only [chainOk] at h
    simp only [getAlbumPath]
    rcases hp : a.parentId with _ | pid
    case none => simp [hp]
    case some =>
      simp only [hp] at h ⊢
      rcases hf : albums.find? (fun p => p.id == pid) with _ | p
      case none => simp [hf]
      case some => rw [hf] at h; simp at h
  | succ fuel ih =>
    intro a h
    simp only [chainOk] at h
    rw [getAlbumPath]
    conv_rhs => rw [getAlbumPath]
    rcases hp : a.parentId with _ | pid
    case none => simp [hp]
    case some =>
      simp only [hp] at h ⊢
      rcases hf : albums.find? (fun p => p.id == pid) with _ | p
      case none => simp [hf]
      case some =>
        simp only [hf] at h ⊢
        rw [ih p h]

/-- When `aid` resolves to `A` and is a strict ancestor of `P` along a
terminating chain, the derived path of `P` strictly extends the derived
path of `A` (and the chain of `A` terminates too). -/
theorem getAlbumPath_extends (albums : List Album) (aid : String) (A : Album)
    (hfind : albums.find? (fun x => x.id == aid) = some A) :
    ∀ fuel P, isAncestorOf albums aid fuel P = true →
      chainOk albums fuel P = true →
      chainOk albums fuel A = true ∧
      ∃ q, q ≠ [] ∧
        getAlbumPath albums fuel P = getAlbumPath albums fuel A ++ q := by
  intro fuel
  induction fuel with
  | zero => intro P h; simp [isAncestorOf] at h
  | succ fuel ih =>
    intro P hanc hchain
    simp only [isAncestorOf] at hanc
    simp only [chainOk] at hchain
    rcases hp : P.parentId with _ | pid
    case none => rw [hp] at hanc; simp at hanc
    case some =>
      simp only [hp] at hanc hchain
      rcases hf : albums.find? (fun x => x.id == pid) with _ | Pp
      case none =>
        rw [hf] at hanc
        have hpid : pid = aid := by simpa using hanc
        rw [hpid] at hf
        rw [hfind] at hf
        exact absurd hf (by simp)
      case some =>
        rw [hf] at hanc hchain
        have hstep : getAlbumPath albums (fuel + 1) P
            = getAlbumPath albums fuel Pp ++ [sanitizeFilename P.name] := by
          rw [getAlbumPath, hp]
          simp only [hf]
        rcases (show pid = aid ∨ isAncestorOf albums aid fuel Pp = true by
            simpa using hanc) with hpid | hrec
        · have hPpA : Pp = A := by
            rw [hpid] at hf
            rw [hfind] at hf
            exact (Option.some_inj.mp hf).symm
          subst hPpA
          refine ⟨chainOk_succ albums fuel Pp hchain,
            [sanitizeFilename P.name], by simp, ?_⟩
          rw [hstep, getAlbumPath_stable albums fuel Pp hchain]
        · obtain ⟨hAok, q, hq, heq⟩ := ih Pp hrec hchain
          refine ⟨chainOk_succ albums fuel A hAok,
            q ++ [sanitizeFilename P.name], by simp, ?_⟩
          rw [hstep, heq, getAlbumPath_stable albums fuel A hAok]
          simp

end FilesSorter

namespace FilesSorter

/-- Claim C1: for an album `A` and a target parent `P` that is a strict
descendant of `A` (in the same vault, along a terminating, non-degenerate
parent chain), `moveFolder(A.id, P.id)` fails — the rename target lies
strictly inside the moved directory, so the POSIX rename refuses it (or
the source is already gone) — and the returned state is exactly the input
state: the directory tree, the album rows, the image rows and the
catalog-operation log are all unchanged. -/
theorem moveFolder_into_descendant_fails (s : St) (A P : Album) (V : Vault)
    (hA : (dbGetAllAlbums s).find? (fun a => a.id == A.id) = some A)
    (hP : (dbGetAllAlbums s).find? (fun a => a.id == P.id) = some P)
    (hV : dbGetVaultById s A.vaultId = some V)
    (hvid : P.vaultId = A.vaultId)
    (hanc : isAncestorOf (dbGetAllAlbums s) A.id (dbGetAllAlbums s).length P = true)
    (hchain : chainOk (dbGetAllAlbums s) (dbGetAllAlbums s).length P = true)
    (hnoop : A.parentId ≠ some P.id) :
    ∃ e, moveFolder A.id (some P.id) none s = (Except.error e, s) := by
  obtain ⟨hAok, q, hq, heq⟩ :=
    getAlbumPath_extends (dbGetAllAlbums s) A.id A hA (dbGetAllAlbums s).length
      P hanc hchain
  have hres : moveFolderResolve s (dbGetAllAlbums s) A (some P.id) none V
      = Except.ok (V, A.vaultId) := by
    simp only [moveFolderResolve, hP]
    simp [hvid]
  obtain ⟨e, he⟩ := renameFs_to_extension_errors s.fs
    (V.path ++ getAlbumPath (dbGetAllAlbums s) (dbGetAllAlbums s).length A)
    (q ++ [sanitizeFilename A.name]) (by simp)
  refine ⟨OpErr.fsFail e, ?_⟩
  have hnoopb : (A.parentId == some P.id && A.vaultId == A.vaultId) = false := by
    simp [hnoop]
  simp only [moveFolder, hA, hV, hres, hnoopb, hP, hvid, heq, moveFileFs]
  have hassoc : V.path ++ (getAlbumPath (dbGetAllAlbums s) (dbGetAllAlbums s).length A ++ q)
        ++ [sanitizeFilename A.name]
      = (V.path ++ getAlbumPath (dbGetAllAlbums s) (dbGetAllAlbums s).length A)
        ++ (q ++ [sanitizeFilename A.name]) := by
    simp
  rw [hassoc, he]
  simp

end FilesSorter

namespace FilesSorter

/-- Concrete catalog for the C1 witness: vault `V` with album `A` and its
child album `B`, mirrored on disk. -/
def c1A : Album := { id := "a", name := "A", parentId := none, vaultId := "v1", order := 0 }

/-- Child album of `c1A`. -/
def c1B : Album := { id := "b", name := "B", parentId := some "a", vaultId := "v1", order := 1 }

/-- Vault record of the C1 witness. -/
def c1V : Vault := { id := "v1", path := ["V"], displayName := "V", isVisible := true, order := 0 }

/-- Whole state of the C1 witness. -/
def c1St : St :=
  { db := { vaults := [c1V]
            albums := [c1A, c1B]
            images := []
            settings := { vaultFolder := none, trashHandling := TrashHandling.vault } }
    fs := FsNode.dir [("V", FsNode.dir [("A", FsNode.dir [("B", FsNode.dir [])])])]
    uid := 0
    ops := []
    audit := [] }

/-- Witness for C1: moving `A` under its own descendant `B` fails and
returns the state unchanged. -/
theorem moveFolder_into_descendant_fails_witness :
    ((dbGetAllAlbums c1St).find? (fun a => a.id == c1A.id) = some c1A
      ∧ (dbGetAllAlbums c1St).find? (fun a => a.id == c1B.id) = some c1B
      ∧ dbGetVaultById c1St c1A.vaultId = some c1V
      ∧ c1B.vaultId = c1A.vaultId
      ∧ isAncestorOf (dbGetAllAlbums c1St) c1A.id (dbGetAllAlbums c1St).length c1B = true
      ∧ chainOk (dbGetAllAlbums c1St) (dbGetAllAlbums c1St).length c1B = true
      ∧ c1A.parentId ≠ some c1B.id)
    ∧ ∃ e, moveFolder c1A.id (some c1B.id) none c1St = (Except.error e, c1St) :=
  ⟨⟨by decide, by decide, by decide, by decide, by decide, by decide, by decide⟩,
   moveFolder_into_descendant_fails c1St c1A c1B c1V
     (by decide) (by decide) (by decide) (by decide) (by decide) (by decide) (by decide)⟩

end FilesSorter

namespace FilesSorter

/-! ## Claim C5: renameFolder and occupied targets -/

/-- Equal-length segment prefixes coincide. -/
theorem segStarts_eq_of_length : ∀ p q : Path, segStarts p q = true →
    p.length = q.length → p = q := by
  intro p
  induction p with
  | nil =>
    intro q _ hlen
    cases q with
    | nil => rfl
    | cons b bs => simp at hlen
  | cons a as ih =>
    intro q hpre hlen
    cases q with
    | nil => simp [segStarts] at hpre
    | cons b bs =>
      simp only [segStarts, Bool.and_eq_true, beq_iff_eq] at hpre
      simp only [List.length_cons, Nat.add_right_cancel_iff] at hlen
      rw [hpre.1, ih bs hpre.2 hlen]

/-- Renaming onto a target occupied by a non-empty directory always
errors (whatever else holds of the source). -/
theorem renameFs_occupied_dir_errors (t : FsNode) (src dst : Path)
    (d : String × FsNode) (ds : List (String × FsNode))
    (hne : src ≠ dst)
    (hdst : lookupFs t dst = some (FsNode.dir (d :: ds))) :
    ∃ e, renameFs t src dst = Except.error e := by
  cases src with
  | nil => exact ⟨FsErr.einval, by simp [renameFs]⟩
  | cons s₀ ss =>
    cases dst with
    | nil => exact ⟨FsErr.einval, by simp [renameFs]⟩
    | cons d₀ dsg =>
      cases hl : lookupFs t (s₀ :: ss) with
      | none => exact ⟨FsErr.enoent, by simp [renameFs, hl]⟩
      | some n =>
        by_cases hpre : segStarts (s₀ :: ss) (d₀ :: dsg) = true
        · exact ⟨FsErr.einval, by simp [renameFs, hl, hne, hpre]⟩
        · cases n with
          | dir aes =>
            exact ⟨FsErr.enotempty, by
              simp only [Bool.not_eq_true] at hpre
              simp [renameFs, hl, hne, hpre, hdst]⟩
          | file sz mt =>
            exact ⟨FsErr.eisdir, by
              simp only [Bool.not_eq_true] at hpre
              simp [renameFs, hl, hne, hpre, hdst]⟩

/-- Renaming onto a free target whose parent directory exists moves the
source node there. -/
theorem renameFs_move_free (t : FsNode) (src dst : Path) (n : FsNode)
    (hsrcne : src ≠ [])
    (hsrc : lookupFs t src = some n)
    (hdst : lookupFs t dst = none)
    (hpar : isDirAt t dst.dropLast = true)
    (hnpre : segStarts src dst = false) :
    renameFs t src dst = Except.ok (placeAt (removeAt t src) dst n) := by
  cases src with
  | nil => exact absurd rfl hsrcne
  | cons s₀ ss =>
    cases dst with
    | nil => rw [lookupFs] at hdst; exact absurd hdst (by simp)
    | cons d₀ dsg =>
      have hne : (s₀ :: ss) ≠ (d₀ :: dsg) := by
        intro h
        rw [h, hdst] at hsrc
        exact absurd hsrc (by simp)
      simp [renameFs, hsrc, hne, hnpre, hdst, hpar]

/-- Renaming onto a target occupied by an *empty* directory silently
replaces it (the POSIX directory-over-empty-directory rule). -/
theorem renameFs_replace_empty (t : FsNode) (src dst : Path)
    (aes : List (String × FsNode))
    (hne : src ≠ dst)
    (hsrc : lookupFs t src = some (FsNode.dir aes))
    (hdst : lookupFs t dst = some (FsNode.dir []))
    (hnpre : segStarts src dst = false) :
    renameFs t src dst = Except.ok (placeAt (removeAt t src) dst (FsNode.dir aes)) := by
  cases src with
  | nil => simp [segStarts] at hnpre
  | cons s₀ ss =>
    cases dst with
    | nil =>
      rw [lookupFs] at hdst
      have ht : t = FsNode.dir [] := by simpa using hdst
      rw [ht] at hsrc
      rw [lookupFs] at hsrc
      simp [findEntry] at hsrc
    | cons d₀ dsg =>
      simp [renameFs, hsrc, hne, hnpre, hdst]

end FilesSorter

namespace FilesSorter

/-- The on-disk directory `renameFolder` renames (vault root plus derived
album path). -/
def renSrcPath (s : St) (A : Album) (V : Vault) : Path :=
  V.path ++ getAlbumPath (dbGetAllAlbums s) (dbGetAllAlbums s).length A

/-- The rename target: the sanitized new name beside the source. -/
def renDstPath (s : St) (A : Album) (V : Vault) (newName : String) : Path :=
  (renSrcPath s A V).dropLast ++ [sanitizeFilename newName]

/-- The source directory path is never empty. -/
theorem renSrcPath_ne_nil (s : St) (A : Album) (V : Vault) :
    renSrcPath s A V ≠ [] := by
  rw [renSrcPath]
  intro h
  rcases List.append_eq_nil.mp h with ⟨_, h2⟩
  exact getAlbumPath_ne_nil _ _ _ h2

/-- Source and target of the rename have the same number of segments. -/
theorem renDstPath_length (s : St) (A : Album) (V : Vault) (newName : String) :
    (renDstPath s A V newName).length = (renSrcPath s A V).length := by
  rw [renDstPath]
  have hne := renSrcPath_ne_nil s A V
  have h1 : (renSrcPath s A V).dropLast.length = (renSrcPath s A V).length - 1 :=
    List.length_dropLast _
  have h2 : 1 ≤ (renSrcPath s A V).length := by
    cases hc : renSrcPath s A V with
    | nil => exact absurd hc hne
    | cons x xs => simp
  simp only [List.length_append, h1, List.length_cons, List.length_nil]
  omega

/-- The rename target is never strictly inside the source. -/
theorem renDstPath_not_inside (s : St) (A : Album) (V : Vault) (newName : String)
    (hne : renSrcPath s A V ≠ renDstPath s A V newName) :
    segStarts (renSrcPath s A V) (renDstPath s A V newName) = false := by
  cases h : segStarts (renSrcPath s A V) (renDstPath s A V newName) with
  | false => rfl
  | true =>
    exact absurd (segStarts_eq_of_length _ _ h (renDstPath_length s A V newName).symm) hne

/-- Claim C5 (amended): `renameFolder` performs no existence pre-check and
produces no Conflict error of its own; the outcome on an occupied target
is the OS rename's.  When the sanitized target exists as a non-empty
directory the call fails with the filesystem error and the state is
returned unchanged; when the target is free (and its parent exists) the
rename succeeds; and when the target exists as an *empty* directory the
rename also succeeds, silently replacing it.  In both success cases the
directory moves and the only catalog mutation is the update of the
album's Name field. -/
theorem renameFolder_occupied_target_behavior (s : St) (A : Album) (V : Vault)
    (newName : String)
    (hA : (dbGetAllAlbums s).find? (fun a => a.id == A.id) = some A)
    (hV : dbGetVaultById s A.vaultId = some V) :
    (∀ d ds, lookupFs s.fs (renDstPath s A V newName) = some (FsNode.dir (d :: ds)) →
        renSrcPath s A V ≠ renDstPath s A V newName →
        ∃ e, renameFolder A.id newName s = (Except.error e, s))
    ∧ (∀ n, lookupFs s.fs (renSrcPath s A V) = some n →
        lookupFs s.fs (renDstPath s A V newName) = none →
        isDirAt s.fs (renDstPath s A V newName).dropLast = true →
        renameFolder A.id newName s =
          (Except.ok { A with name := sanitizeFilename newName },
           { s with
               fs := placeAt (removeAt s.fs (renSrcPath s A V))
                 (renDstPath s A V newName) n
               db.albums := s.db.albums.map (fun a =>
                 if a.id == A.id then { a with name := sanitizeFilename newName } else a)
               ops := s.ops ++ [DbOp.updateAlbum A.id { name := some (sanitizeFilename newName) }]
               audit := s.audit ++ [(V.path, "RENAME")] }))
    ∧ (∀ aes, lookupFs s.fs (renSrcPath s A V) = some (FsNode.dir aes) →
        lookupFs s.fs (renDstPath s A V newName) = some (FsNode.dir []) →
        renSrcPath s A V ≠ renDstPath s A V newName →
        renameFolder A.id newName s =
          (Except.ok { A with name := sanitizeFilename newName },
           { s with
               fs := placeAt (removeAt s.fs (renSrcPath s A V))
                 (renDstPath s A V newName) (FsNode.dir aes)
               db.albums := s.db.albums.map (fun a =>
                 if a.id == A.id then { a with name := sanitizeFilename newName } else a)
               ops := s.ops ++ [DbOp.updateAlbum A.id { name := some (sanitizeFilename newName) }]
               audit := s.audit ++ [(V.path, "RENAME")] })) := by
  refine ⟨?_, ?_, ?_⟩
  · intro d ds hdst hne
    obtain ⟨e, he⟩ := renameFs_occupied_dir_errors s.fs (renSrcPath s A V)
      (renDstPath s A V newName) d ds hne hdst
    refine ⟨OpErr.fsFail e, ?_⟩
    simp only [renSrcPath, renDstPath] at he
    simp only [renameFolder, hA, hV, he]
  · intro n hsrc hdst hpar
    have hne : renSrcPath s A V ≠ renDstPath s A V newName := by
      intro h
      rw [h, hdst] at hsrc
      exact absurd hsrc (by simp)
    have he := renameFs_move_free s.fs (renSrcPath s A V) (renDstPath s A V newName)
      n (renSrcPath_ne_nil s A V) hsrc hdst hpar
      (renDstPath_not_inside s A V newName hne)
    simp only [renSrcPath, renDstPath] at he
    simp only [renameFolder, hA, hV, he]
    simp only [auditLog, dbUpdateAlbum, applyAlbumUpd]
    simp [renSrcPath, renDstPath]
  · intro aes hsrc hdst hne
    have he := renameFs_replace_empty s.fs (renSrcPath s A V) (renDstPath s A V newName)
      aes hne hsrc hdst (renDstPath_not_inside s A V newName hne)
    simp only [renSrcPath, renDstPath] at he
    simp only [renameFolder, hA, hV, he]
    simp only [auditLog, dbUpdateAlbum, applyAlbumUpd]
    simp [renSrcPath, renDstPath]

end FilesSorter

namespace FilesSorter

/-- C5 counterexample state: vault `V`, album `A` (holding `f.jpg`), and
an empty directory `C` beside it on disk. -/
def c5A : Album := { id := "a", name := "A", parentId := none, vaultId := "v1", order := 0 }

/-- Vault record of the C5 state. -/
def c5V : Vault := { id := "v1", path := ["V"], displayName := "V", isVisible := true, order := 0 }

/-- Whole state of the C5 counterexample. -/
def c5St : St :=
  { db := { vaults := [c5V]
            albums := [c5A]
            images := []
            settings := { vaultFolder := none, trashHandling := TrashHandling.vault } }
    fs := FsNode.dir [("V", FsNode.dir
      [("A", FsNode.dir [("f.jpg", FsNode.file 1 "t")]), ("C", FsNode.dir [])])]
    uid := 0
    ops := []
    audit := [] }

/-- Counterexample to C5 as stated: the sanitized target `C` already
exists on disk in the album's parent directory, yet
`renameFolder(a, "C")` does not fail — it succeeds and renames the album,
because the source performs no conflict check and the OS rename silently
replaces an empty directory target. -/
theorem renameFolder_conflict_claim_false :
    renDstPath c5St c5A c5V "C" = ["V", "C"]
    ∧ existsAt c5St.fs ["V", "C"] = true
    ∧ (renameFolder c5A.id "C" c5St).1 =
        Except.ok { id := "a", name := "C", parentId := none, vaultId := "v1", order := 0 } := by
  exact ⟨by decide, by decide, rfl⟩

/-- Witness for the amended C5 theorem: applying it to the concrete state
shows the empty-directory target is silently replaced and only the Name
field is written. -/
theorem renameFolder_occupied_target_behavior_witness :
    ((dbGetAllAlbums c5St).find? (fun a => a.id == c5A.id) = some c5A
      ∧ dbGetVaultById c5St c5A.vaultId = some c5V)
    ∧ renameFolder c5A.id "C" c5St =
        (Except.ok { c5A with name := sanitizeFilename "C" },
         { c5St with
             fs := placeAt (removeAt c5St.fs (renSrcPath c5St c5A c5V))
               (renDstPath c5St c5A c5V "C") (FsNode.dir [("f.jpg", FsNode.file 1 "t")])
             db.albums := c5St.db.albums.map (fun a =>
               if a.id == c5A.id then { a with name := sanitizeFilename "C" } else a)
             ops := c5St.ops ++ [DbOp.updateAlbum c5A.id { name := some (sanitizeFilename "C") }]
             audit := c5St.audit ++ [(c5V.path, "RENAME")] }) :=
  ⟨⟨by decide, by decide⟩,
   (renameFolder_occupied_target_behavior c5St c5A c5V "C" (by decide) (by decide)).2.2
     [("f.jpg", FsNode.file 1 "t")] rfl rfl (by decide)⟩

end FilesSorter

namespace FilesSorter

/-! ## Claim C4: deleteFolder cascades -/

/-- An image row is preserved up to detachment: unchanged, or only its
`albumId` cleared. -/
def ImgKept (i i2 : Image) : Prop := i2 = i ∨ i2 = { i with albumId := none }

/-- Detaching twice is detaching once. -/
theorem imgKept_trans {i j k : Image} (h1 : ImgKept i j) (h2 : ImgKept j k) :
    ImgKept i k := by
  rcases h1 with h1 | h1 <;> rcases h2 with h2 | h2 <;> subst h1 <;> subst h2 <;>
    simp [ImgKept]

/-- `ImgKept` between a list and its image under a detach-or-keep map. -/
theorem forall₂_imgKept_map (l : List Image) (f : Image → Image)
    (hf : ∀ x, f x = x ∨ f x = { x with albumId := none }) :
    List.Forall₂ ImgKept l (l.map f) := by
  induction l with
  | nil => exact List.Forall₂.nil
  | cons x xs ih => exact List.Forall₂.cons (hf x) ih

/-- `ImgKept` composes along `Forall₂`. -/
theorem forall₂_imgKept_trans {l1 l2 l3 : List Image}
    (h1 : List.Forall₂ ImgKept l1 l2) (h2 : List.Forall₂ ImgKept l2 l3) :
    List.Forall₂ ImgKept l1 l3 := by
  induction h1 generalizing l3 with
  | nil => cases h2; exact List.Forall₂.nil
  | cons hx hxs ih =>
    cases h2 with
    | cons hy hys => exact List.Forall₂.cons (imgKept_trans hx hy) (ih hys)

/-- `Forall₂ ImgKept` is reflexive. -/
theorem forall₂_imgKept_refl (l : List Image) : List.Forall₂ ImgKept l l := by
  induction l with
  | nil => exact List.Forall₂.nil
  | cons x xs ih => exact List.Forall₂.cons (Or.inl rfl) ih

/-- `database.deleteAlbum` keeps every image row up to detachment. -/
theorem dbDeleteAlbum_imgKept (s : St) (id : String) :
    List.Forall₂ ImgKept s.db.images (dbDeleteAlbum s id).db.images := by
  simp only [dbDeleteAlbum]
  refine forall₂_imgKept_map _ _ (fun x => ?_)
  by_cases h : ((id :: dbDescendants s.db.albums s.db.albums.length id).contains
      (x.albumId.getD "") && x.albumId.isSome) = true
  · right; simp only [if_pos h]
  · left; simp only [if_neg h]

/-- A `foldl` of steps that each keep images up to detachment keeps them
up to detachment. -/
theorem foldl_imgKept {α : Type} (step : St → α → St) (l : List α)
    (hstep : ∀ acc c, List.Forall₂ ImgKept acc.db.images (step acc c).db.images) :
    ∀ s, List.Forall₂ ImgKept s.db.images (l.foldl step s).db.images := by
  induction l with
  | nil => intro s; exact forall₂_imgKept_refl s.db.images
  | cons c cs ih =>
    intro s
    exact forall₂_imgKept_trans (hstep s c) (ih (step s c))

end FilesSorter

namespace FilesSorter

/-- Album id `xid` is fully purged from a state: no album row carries it
and no image row references it. -/
def Gone (s : St) (xid : String) : Prop :=
  (∀ a ∈ s.db.albums, a.id ≠ xid) ∧ (∀ i ∈ s.db.images, i.albumId ≠ some xid)

/-- `database.deleteAlbum` never resurrects a purged album id. -/
theorem dbDeleteAlbum_gone_preserved (s : St) (id xid : String)
    (h : Gone s xid) : Gone (dbDeleteAlbum s id) xid := by
  obtain ⟨ha, hi⟩ := h
  constructor
  · intro a hma
    simp only [dbDeleteAlbum, List.mem_filter] at hma
    exact ha a hma.1
  · intro i hmi
    simp only [dbDeleteAlbum, List.mem_map] at hmi
    obtain ⟨i0, hi0, heq⟩ := hmi
    by_cases hc : ((id :: dbDescendants s.db.albums s.db.albums.length id).contains
        (i0.albumId.getD "") && i0.albumId.isSome) = true
    · rw [if_pos hc] at heq
      rw [← heq]
      simp
    · rw [if_neg hc] at heq
      rw [← heq]
      exact hi i0 hi0

/-- `database.deleteAlbum` purges the id it is called on. -/
theorem dbDeleteAlbum_gone_self (s : St) (id : String) :
    Gone (dbDeleteAlbum s id) id := by
  constructor
  · intro a hma
    simp only [dbDeleteAlbum, List.mem_filter] at hma
    intro hid
    have := hma.2
    simp only [List.contains_cons] at this
    rw [hid] at this
    simp at this
  · intro i hmi
    simp only [dbDeleteAlbum, List.mem_map] at hmi
    obtain ⟨i0, hi0, heq⟩ := hmi
    by_cases hc : ((id :: dbDescendants s.db.albums s.db.albums.length id).contains
        (i0.albumId.getD "") && i0.albumId.isSome) = true
    · rw [if_pos hc] at heq
      rw [← heq]
      simp
    · rw [if_neg hc] at heq
      rw [← heq]
      intro hbad
      apply hc
      rw [hbad]
      simp

/-- `deleteAlbumAndChildren` never resurrects a purged album id. -/
theorem delRec_gone_preserved (L : List Album) (xid : String) :
    ∀ fuel root s, Gone s xid →
      Gone (deleteAlbumAndChildren L fuel root s) xid := by
  intro fuel
  induction fuel with
  | zero => intro root s h; exact h
  | succ fuel ih =>
    intro root s h
    rw [deleteAlbumAndChildren]
    apply dbDeleteAlbum_gone_preserved
    have hfold : ∀ (l : List Album) (acc : St), Gone acc xid →
        Gone (l.foldl (fun acc c => deleteAlbumAndChildren L fuel c.id acc) acc) xid := by
      intro l
      induction l with
      | nil => intro acc hacc; exact hacc
      | cons c cs ihl =>
        intro acc hacc
        rw [List.foldl_cons]
        exact ihl _ (ih c.id acc hacc)
    exact hfold _ s h

/-- `deleteAlbumAndChildren` (with at least one unit of fuel) purges its
root id. -/
theorem delRec_gone_self (L : List Album) :
    ∀ fuel root s, 1 ≤ fuel →
      Gone (deleteAlbumAndChildren L fuel root s) root := by
  intro fuel root s hfuel
  cases fuel with
  | zero => omega
  | succ fuel =>
    rw [deleteAlbumAndChildren]
    exact dbDeleteAlbum_gone_self _ root

/-- `deleteAlbumAndChildren` only touches the catalog: the directory tree
is unchanged. -/
theorem delRec_fs (L : List Album) :
    ∀ fuel root s, (deleteAlbumAndChildren L fuel root s).fs = s.fs := by
  intro fuel
  induction fuel with
  | zero => intro root s; rfl
  | succ fuel ih =>
    intro root s
    rw [deleteAlbumAndChildren]
    have hfold : ∀ (l : List Album) (acc : St),
        (l.foldl (fun acc c => deleteAlbumAndChildren L fuel c.id acc) acc).fs = acc.fs := by
      intro l
      induction l with
      | nil => intro acc; rfl
      | cons c cs ihl =>
        intro acc
        rw [List.foldl_cons, ihl, ih]
    rw [dbDeleteAlbum]
    simp [hfold]

/-- `deleteAlbumAndChildren` keeps every image row up to detachment. -/
theorem delRec_imgKept (L : List Album) :
    ∀ fuel root s,
      List.Forall₂ ImgKept s.db.images
        (deleteAlbumAndChildren L fuel root s).db.images := by
  intro fuel
  induction fuel with
  | zero => intro root s; exact forall₂_imgKept_refl _
  | succ fuel ih =>
    intro root s
    rw [deleteAlbumAndChildren]
    refine forall₂_imgKept_trans ?_ (dbDeleteAlbum_imgKept _ _)
    have hfold : ∀ (l : List Album) (acc : St),
        List.Forall₂ ImgKept acc.db.images
          (l.foldl (fun acc c => deleteAlbumAndChildren L fuel c.id acc) acc).db.images := by
      intro l
      induction l with
      | nil => intro acc; exact forall₂_imgKept_refl _
      | cons c cs ihl =>
        intro acc
        rw [List.foldl_cons]
        exact forall₂_imgKept_trans (ih c.id acc) (ihl _)
    exact hfold _ s

end FilesSorter

namespace FilesSorter

/-- Strict ancestry needs at least one step of fuel. -/
theorem isAncestorOf_pos {L : List Album} {aid : String} {d : Nat} {x : Album}
    (h : isAncestorOf L aid d x = true) : 1 ≤ d := by
  cases d with
  | zero => simp [isAncestorOf] at h
  | succ d => omega

/-- Decomposition of strict descent: a strict descendant of `root` lies
under some direct child `c` of `root` (either being `c` itself or a
strictly smaller-depth descendant of `c`). -/
theorem isAncestorOf_step (L : List Album) (root : String) :
    ∀ d x, isAncestorOf L root d x = true → x ∈ L →
      ∃ c, c ∈ L ∧ c.parentId = some root ∧
        (c = x ∨ ∃ d2, d2 < d ∧ isAncestorOf L c.id d2 x = true) := by
  intro d
  induction d with
  | zero => intro x h _; simp [isAncestorOf] at h
  | succ d ih =>
    intro x hanc hx
    simp only [isAncestorOf] at hanc
    rcases hp : x.parentId with _ | pid
    · simp only [hp] at hanc; simp at hanc
    · simp only [hp] at hanc
      rcases hf : L.find? (fun a => a.id == pid) with _ | pp
      · simp only [hf] at hanc
        have hpid : pid = root := by simpa using hanc
        exact ⟨x, hx, by rw [hp, hpid], Or.inl rfl⟩
      · simp only [hf] at hanc
        rcases (show pid = root ∨ isAncestorOf L root d pp = true by
            simpa using hanc) with hpid | hrec
        · exact ⟨x, hx, by rw [hp, hpid], Or.inl rfl⟩
        · have hppmem : pp ∈ L := List.mem_of_find?_eq_some hf
          have hppid : pp.id = pid := by
            have := List.find?_some hf
            simpa using this
          obtain ⟨c, hcL, hcp, hcase⟩ := ih pp hrec hppmem
          refine ⟨c, hcL, hcp, Or.inr ?_⟩
          rcases hcase with hceq | ⟨d2, hd2, hanc2⟩
          · refine ⟨1, by have := isAncestorOf_pos hrec; omega, ?_⟩
            subst hceq
            simp [isAncestorOf, hp, hppid]
          · refine ⟨d2 + 1, by omega, ?_⟩
            simp only [isAncestorOf, hp, hf]
            simp [hanc2]

/-- Fold form of `delRec_gone_preserved`. -/
theorem delRec_foldl_gone (L : List Album) (fuel : Nat) (xid : String) :
    ∀ (l : List Album) (acc : St), Gone acc xid →
      Gone (l.foldl (fun acc c => deleteAlbumAndChildren L fuel c.id acc) acc) xid := by
  intro l
  induction l with
  | nil => intro acc h; exact h
  | cons c cs ihl =>
    intro acc h
    rw [List.foldl_cons]
    exact ihl _ (delRec_gone_preserved L xid fuel c.id acc h)

/-- Completeness of the cascade: every strict descendant of the root
(reachable within the fuel) is purged — its album row is gone and no image
row references it. -/
theorem delRec_purges_descendants (L : List Album) :
    ∀ d root x s fuel, isAncestorOf L root d x = true → x ∈ L →
      d + 1 ≤ fuel →
      Gone (deleteAlbumAndChildren L fuel root s) x.id := by
  intro d
  induction d using Nat.strong_induction_on with
  | _ d ih =>
    intro root x s fuel hanc hx hfuel
    have h1d : 1 ≤ d := isAncestorOf_pos hanc
    obtain ⟨c, hcL, hcp, hcase⟩ := isAncestorOf_step L root d x hanc hx
    cases fuel with
    | zero => omega
    | succ fuel =>
      rw [deleteAlbumAndChildren]
      apply dbDeleteAlbum_gone_preserved
      have hcchild : c ∈ L.filter (fun a => a.parentId == some root) := by
        simp only [List.mem_filter, hcL, true_and, hcp]
        simp
      obtain ⟨l1, l2, hsplit⟩ := List.append_of_mem hcchild
      rw [hsplit, List.foldl_append, List.foldl_cons]
      apply delRec_foldl_gone
      rcases hcase with hceq | ⟨d2, hd2, hanc2⟩
      · subst hceq
        exact delRec_gone_self L fuel c.id _ (by omega)
      · exact ih d2 hd2 c.id x _ fuel hanc2 hx (by omega)

end FilesSorter

namespace FilesSorter

/-- A successful `readdir` pins the node at the path. -/
theorem readdirAt_some {t : FsNode} {p : Path} {es : List (String × FsNode)}
    (h : readdirAt t p = some es) : lookupFs t p = some (FsNode.dir es) := by
  rw [readdirAt] at h
  rcases hl : lookupFs t p with _ | n
  · rw [hl] at h; simp at h
  · rw [hl] at h
    cases n with
    | file sz mt => simp at h
    | dir es2 => simp at h; rw [h]

/-- Claim C4 (amended): with `deleteContents = false` and a non-hidden
entry present, `deleteFolder` fails NotEmpty and changes nothing; with
`deleteContents = true` it removes the directory tree, deletes the album
row and every descendant album row, and does *not* delete any image row —
every image row survives, at most detached (`albumId` cleared), and no
surviving reference to a deleted album remains. -/
theorem deleteFolder_semantics (s : St) (A : Album) (V : Vault)
    (entries : List (String × FsNode))
    (hA : (dbGetAllAlbums s).find? (fun a => a.id == A.id) = some A)
    (hV : dbGetVaultById s A.vaultId = some V)
    (hrd : readdirAt s.fs
        (V.path ++ getAlbumPath (dbGetAllAlbums s) (dbGetAllAlbums s).length A)
      = some entries) :
    ((entries.any (fun e => !(strStarts "." e.1))) = true →
      deleteFolder A.id false s = (Except.error OpErr.notEmpty, s))
    ∧ ((deleteFolder A.id true s).1 = Except.ok ()
      ∧ (deleteFolder A.id true s).2.fs
          = removeAt s.fs (V.path ++ getAlbumPath (dbGetAllAlbums s) (dbGetAllAlbums s).length A)
      ∧ List.Forall₂ ImgKept s.db.images (deleteFolder A.id true s).2.db.images
      ∧ Gone (deleteFolder A.id true s).2 A.id
      ∧ (∀ d x, x ∈ dbGetAllAlbums s →
          isAncestorOf (dbGetAllAlbums s) A.id d x = true →
          d + 1 ≤ (dbGetAllAlbums s).length →
          Gone (deleteFolder A.id true s).2 x.id)) := by
  have hlk : lookupFs s.fs
      (V.path ++ getAlbumPath (dbGetAllAlbums s) (dbGetAllAlbums s).length A)
      = some (FsNode.dir entries) := readdirAt_some hrd
  constructor
  · intro hcont
    simp only [deleteFolder, hA, hV, hrd]
    simp [hcont]
  · have hrun : deleteFolder A.id true s =
        (Except.ok (),
         deleteAlbumAndChildren (dbGetAllAlbums s) (dbGetAllAlbums s).length A.id
           (auditLog { s with fs := removeAt s.fs (V.path ++ getAlbumPath (dbGetAllAlbums s) (dbGetAllAlbums s).length A) } V.path "DELETE")) := by
      simp only [deleteFolder, hA, hV, hrd]
      simp only [Bool.not_true, Bool.and_false, Bool.false_eq_true, if_false]
      simp only [rmRecFs, existsAt, hlk, Option.isSome_some, if_true, auditLog]
    have hlen : 1 ≤ (dbGetAllAlbums s).length := by
      have := List.mem_of_find?_eq_some hA
      cases hc : dbGetAllAlbums s with
      | nil => rw [hc] at this; simp at this
      | cons y ys => simp [hc]
    have hrun1 : (deleteFolder A.id true s).1 = Except.ok () := by rw [hrun]
    have hrun2 : (deleteFolder A.id true s).2 =
        deleteAlbumAndChildren (dbGetAllAlbums s) (dbGetAllAlbums s).length A.id
          (auditLog { s with fs := removeAt s.fs (V.path ++ getAlbumPath (dbGetAllAlbums s) (dbGetAllAlbums s).length A) } V.path "DELETE") := by
      rw [hrun]
    refine ⟨hrun1, ?_, ?_, ?_, ?_⟩
    · rw [hrun2, delRec_fs]
      rfl
    · rw [hrun2]
      have h := delRec_imgKept (dbGetAllAlbums s) (dbGetAllAlbums s).length A.id
        (auditLog { s with fs := removeAt s.fs (V.path ++ getAlbumPath (dbGetAllAlbums s) (dbGetAllAlbums s).length A) } V.path "DELETE")
      simpa [auditLog] using h
    · rw [hrun2]
      exact delRec_gone_self _ _ _ _ hlen
    · intro d x hx hanc hfuel
      rw [hrun2]
      exact delRec_purges_descendants (dbGetAllAlbums s) d A.id x _
        (dbGetAllAlbums s).length hanc hx hfuel

end FilesSorter

namespace FilesSorter

/-- C4 state: vault `V`, album `A` (with child album `B` and image
`x.jpg`), the image catalogued under `A`. -/
def c4A : Album := { id := "a", name := "A", parentId := none, vaultId := "v1", order := 0 }

/-- Child album of `c4A`. -/
def c4B : Album := { id := "b", name := "B", parentId := some "a", vaultId := "v1", order := 1 }

/-- Vault record of the C4 state. -/
def c4V : Vault := { id := "v1", path := ["V"], displayName := "V", isVisible := true, order := 0 }

/-- Image row catalogued inside `c4A`. -/
def c4I : Image :=
  { id := "i1", path := ["V", "A", "x.jpg"], filename := "x.jpg", fileSize := 1,
    width := none, height := none, modifiedDate := "t", thumbnailPath := none,
    isSupported := true, format := "jpg", albumId := some "a",
    vaultId := some "v1", status := ImgStatus.normal }

/-- Whole state of the C4 counterexample. -/
def c4St : St :=
  { db := { vaults := [c4V]
            albums := [c4A, c4B]
            images := [c4I]
            settings := { vaultFolder := none, trashHandling := TrashHandling.vault } }
    fs := FsNode.dir [("V", FsNode.dir [("A", FsNode.dir
      [("B", FsNode.dir []), ("x.jpg", FsNode.file 1 "t")])])]
    uid := 0
    ops := []
    audit := [] }

/-- Counterexample to C4 as stated: `deleteFolder(a, deleteContents=true)`
succeeds, deletes the album rows, but the catalog row of the contained
image is *not* deleted — it survives with `albumId` cleared
(`database.deleteAlbum` moves images to orphans instead of deleting
them). -/
theorem deleteFolder_keeps_image_rows :
    (deleteFolder c4A.id true c4St).1 = Except.ok ()
    ∧ (deleteFolder c4A.id true c4St).2.db.albums = []
    ∧ (deleteFolder c4A.id true c4St).2.db.images = [{ c4I with albumId := none }] :=
  ⟨rfl, rfl, rfl⟩

/-- Witness for the amended C4 theorem at the concrete state. -/
theorem deleteFolder_semantics_witness :
    ((dbGetAllAlbums c4St).find? (fun a => a.id == c4A.id) = some c4A
      ∧ dbGetVaultById c4St c4A.vaultId = some c4V
      ∧ readdirAt c4St.fs
          (c4V.path ++ getAlbumPath (dbGetAllAlbums c4St) (dbGetAllAlbums c4St).length c4A)
        = some [("B", FsNode.dir []), ("x.jpg", FsNode.file 1 "t")])
    ∧ (((([("B", FsNode.dir []), ("x.jpg", FsNode.file 1 "t")] :
          List (String × FsNode)).any (fun e => !(strStarts "." e.1))) = true →
        deleteFolder c4A.id false c4St = (Except.error OpErr.notEmpty, c4St))
      ∧ ((deleteFolder c4A.id true c4St).1 = Except.ok ()
        ∧ (deleteFolder c4A.id true c4St).2.fs
            = removeAt c4St.fs (c4V.path ++ getAlbumPath (dbGetAllAlbums c4St) (dbGetAllAlbums c4St).length c4A)
        ∧ List.Forall₂ ImgKept c4St.db.images (deleteFolder c4A.id true c4St).2.db.images
        ∧ Gone (deleteFolder c4A.id true c4St).2 c4A.id
        ∧ (∀ d x, x ∈ dbGetAllAlbums c4St →
            isAncestorOf (dbGetAllAlbums c4St) c4A.id d x = true →
            d + 1 ≤ (dbGetAllAlbums c4St).length →
            Gone (deleteFolder c4A.id true c4St).2 x.id))) :=
  ⟨⟨by decide, by decide, rfl⟩,
   deleteFolder_semantics c4St c4A c4V
     [("B", FsNode.dir []), ("x.jpg", FsNode.file 1 "t")]
     (by decide) (by decide) rfl⟩

end FilesSorter

namespace FilesSorter

/-! ## Claim C6: createFolder -/

/-- The album row `createFolder` inserts: fresh uuid, sanitized name, the
requested parent, the resolved vault, and order one past the maximum
order over the whole album table. -/
def createdAlbum (s : St) (name : String) (parentId : Option String)
    (rv : String) : Album :=
  { id := mkUid s.uid
    name := sanitizeFilename name
    parentId := parentId
    vaultId := rv
    order := ((dbGetAllAlbums s).map (fun a => a.order)).foldl Nat.max 0 + 1 }

/-- The vault record the legacy fallback of `createFolder` creates for
`settings.vaultFolder` when no vault row matches that path. -/
def legacyVault (s : St) (vf : Path) : Vault :=
  { id := mkUid s.uid
    path := vf
    displayName := vf.getLastD ""
    isVisible := true
    order := (dbGetAllVaults s).length }

/-- The album row inserted on the create-vault fallback path: its id is
minted after the new vault's id. -/
def createdAlbumLegacy (s : St) (name : String) (parentId : Option String) :
    Album :=
  { id := mkUid (s.uid + 1)
    name := sanitizeFilename name
    parentId := parentId
    vaultId := mkUid s.uid
    order := ((dbGetAllAlbums s).map (fun a => a.order)).foldl Nat.max 0 + 1 }

/-- `find?` skips a prefix holding no match. -/
theorem find?_append_none {α : Type} {p : α → Bool} :
    ∀ {l1 : List α} (l2 : List α), l1.find? p = none →
      (l1 ++ l2).find? p = l2.find? p := by
  intro l1
  induction l1 with
  | nil => intro l2 _; rfl
  | cons x xs ih =>
    intro l2 h
    by_cases hx : p x = true
    · rw [List.find?_cons_of_pos _ hx] at h
      cases h
    · rw [List.find?_cons_of_neg _ hx] at h
      rw [List.cons_append]
      rw [List.find?_cons_of_neg _ hx]
      exact ih l2 h

/-- Claim C6 (amended): `createFolder` resolves the target vault as the
explicit `vaultId`, else the parent album's vault, else the legacy
`settings.vaultFolder` fallback — erroring when that setting is absent,
reusing the vault row whose path matches it, or creating (and inserting)
a fresh vault record otherwise; it sanitizes the name, creates the
directory under the resolved parent path, and inserts the album with
order `max(0, orders of ALL albums in the catalog) + 1` — the maximum
ranges over the whole album table, not the new album's siblings. -/
theorem createFolder_semantics (s : St) (name : String)
    (parentId : Option String) (vaultId : Option String) :
    (∀ (rv : String) (V : Vault) (fs2 : FsNode),
      resolveStep1 (dbGetAllAlbums s) parentId vaultId = some rv →
      dbGetVaultById s rv = some V →
      mkdirp s.fs (createTargetDir (dbGetAllAlbums s) parentId V.path
        ++ [sanitizeFilename name]) = Except.ok fs2 →
      createFolder name parentId vaultId s =
        (Except.ok (createdAlbum s name parentId rv),
         { s with
             fs := fs2
             uid := s.uid + 1
             db.albums := s.db.albums ++ [createdAlbum s name parentId rv]
             ops := s.ops ++ [DbOp.insertAlbum (createdAlbum s name parentId rv)]
             audit := s.audit ++ [(V.path, "CREATE")] }))
    ∧ (resolveStep1 (dbGetAllAlbums s) parentId vaultId = none →
      s.db.settings.vaultFolder = none →
      createFolder name parentId vaultId s = (Except.error OpErr.noVault, s))
    ∧ (∀ (vf : Path) (w V : Vault) (fs2 : FsNode),
      resolveStep1 (dbGetAllAlbums s) parentId vaultId = none →
      s.db.settings.vaultFolder = some vf →
      (dbGetAllVaults s).find? (fun x => x.path == vf) = some w →
      dbGetVaultById s w.id = some V →
      mkdirp s.fs (createTargetDir (dbGetAllAlbums s) parentId V.path
        ++ [sanitizeFilename name]) = Except.ok fs2 →
      createFolder name parentId vaultId s =
        (Except.ok (createdAlbum s name parentId w.id),
         { s with
             fs := fs2
             uid := s.uid + 1
             db.albums := s.db.albums ++ [createdAlbum s name parentId w.id]
             ops := s.ops ++ [DbOp.insertAlbum (createdAlbum s name parentId w.id)]
             audit := s.audit ++ [(V.path, "CREATE")] }))
    ∧ (∀ (vf : Path) (fs2 : FsNode),
      resolveStep1 (dbGetAllAlbums s) parentId vaultId = none →
      s.db.settings.vaultFolder = some vf →
      (dbGetAllVaults s).find? (fun x => x.path == vf) = none →
      dbGetVaultById s (mkUid s.uid) = none →
      mkdirp s.fs (createTargetDir (dbGetAllAlbums s) parentId vf
        ++ [sanitizeFilename name]) = Except.ok fs2 →
      createFolder name parentId vaultId s =
        (Except.ok (createdAlbumLegacy s name parentId),
         { s with
             fs := fs2
             uid := s.uid + 1 + 1
             db.vaults := s.db.vaults ++ [legacyVault s vf]
             db.albums := s.db.albums ++ [createdAlbumLegacy s name parentId]
             ops := s.ops ++ [DbOp.insertVault (legacyVault s vf)]
               ++ [DbOp.insertAlbum (createdAlbumLegacy s name parentId)]
             audit := s.audit ++ [(vf, "CREATE")] })) := by
  refine ⟨?_, ?_, ?_, ?_⟩
  · intro rv V fs2 hrv hV hmk
    simp only [createFolder, hrv, hV, hmk]
    simp only [dbInsertAlbum, auditLog, createdAlbum]
  · intro hrv hset
    simp only [createFolder, hrv, hset]
  · intro vf w V fs2 hrv hset hfind hV hmk
    simp only [createFolder, hrv, hset, hfind, hV, hmk]
    simp only [dbInsertAlbum, auditLog, createdAlbum]
  · intro vf fs2 hrv hset hfind hfresh hmk
    have hfresh' : s.db.vaults.find? (fun v => v.id == mkUid s.uid) = none := hfresh
    have hgv : dbGetVaultById
        (dbInsertVault { s with uid := s.uid + 1 } (legacyVault s vf))
        (mkUid s.uid) = some (legacyVault s vf) := by
      show (s.db.vaults ++ [legacyVault s vf]).find?
          (fun v => v.id == mkUid s.uid) = some (legacyVault s vf)
      rw [find?_append_none [legacyVault s vf] hfresh']
      have h1 : ((legacyVault s vf).id == mkUid s.uid) = true := by
        simp [legacyVault]
      exact List.find?_cons_of_pos _ h1
    have hgv' : dbGetVaultById
        (dbInsertVault { s with uid := s.uid + 1 }
          { id := mkUid s.uid, path := vf, displayName := vf.getLastD "",
            isVisible := true, order := (dbGetAllVaults s).length })
        (mkUid s.uid) = some (legacyVault s vf) := hgv
    simp only [createFolder, hrv, hset, hfind, hgv']
    simp only [show (legacyVault s vf).path = vf from rfl]
    simp only [dbInsertVault]
    simp only [hmk]
    simp only [dbInsertAlbum, auditLog, createdAlbumLegacy, legacyVault]

/-- C6 state: one vault and one top-level album of order 5, with no
children. -/
def c6P : Album := { id := "p1", name := "P", parentId := none, vaultId := "v1", order := 5 }

/-- Vault record of the C6 state. -/
def c6V : Vault := { id := "v1", path := ["V"], displayName := "V", isVisible := true, order := 0 }

/-- Whole state of the C6 counterexample. -/
def c6St : St :=
  { db := { vaults := [c6V]
            albums := [c6P]
            images := []
            settings := { vaultFolder := none, trashHandling := TrashHandling.vault } }
    fs := FsNode.dir [("V", FsNode.dir [("P", FsNode.dir [])])]
    uid := 0
    ops := []
    audit := [] }

/-- Counterexample to C6 as stated: the new album under `P` has no
siblings (sibling max-order would give order 1), yet `createFolder`
assigns order 6 = (global maximum 5) + 1. -/
theorem createFolder_order_not_sibling_max :
    (createFolder "New" (some "p1") none c6St).1 =
        Except.ok { id := "u0", name := "New", parentId := some "p1",
                    vaultId := "v1", order := 6 }
    ∧ (c6St.db.albums.filter (fun a => a.parentId == some "p1")).map (fun a => a.order) = []
    ∧ ¬((6 : Nat) = ([] : List Nat).foldl Nat.max 0 + 1) :=
  ⟨rfl, rfl, by decide⟩

/-- Legacy-fallback state: an empty vault table, `settings.vaultFolder`
set to `W`, and `W` present on disk. -/
def c6LegSt : St :=
  { db := { vaults := []
            albums := []
            images := []
            settings := { vaultFolder := some ["W"], trashHandling := TrashHandling.vault } }
    fs := FsNode.dir [("W", FsNode.dir [])]
    uid := 0
    ops := []
    audit := [] }

/-- Witness for the amended C6 theorem: the parent-vault mode at the
concrete state, and the legacy `settings.vaultFolder` fallback creating
and inserting the vault record. -/
theorem createFolder_semantics_witness :
    (createFolder "New" (some "p1") none c6St =
      (Except.ok (createdAlbum c6St "New" (some "p1") "v1"),
       { c6St with
           fs := FsNode.dir [("V", FsNode.dir [("P", FsNode.dir [("New", FsNode.dir [])])])]
           uid := c6St.uid + 1
           db.albums := c6St.db.albums ++ [createdAlbum c6St "New" (some "p1") "v1"]
           ops := c6St.ops ++ [DbOp.insertAlbum (createdAlbum c6St "New" (some "p1") "v1")]
           audit := c6St.audit ++ [(c6V.path, "CREATE")] }))
    ∧ (createFolder "New" none none c6LegSt =
      (Except.ok (createdAlbumLegacy c6LegSt "New" none),
       { c6LegSt with
           fs := FsNode.dir [("W", FsNode.dir [("New", FsNode.dir [])])]
           uid := c6LegSt.uid + 1 + 1
           db.vaults := c6LegSt.db.vaults ++ [legacyVault c6LegSt ["W"]]
           db.albums := c6LegSt.db.albums ++ [createdAlbumLegacy c6LegSt "New" none]
           ops := c6LegSt.ops ++ [DbOp.insertVault (legacyVault c6LegSt ["W"])]
             ++ [DbOp.insertAlbum (createdAlbumLegacy c6LegSt "New" none)]
           audit := c6LegSt.audit ++ [(["W"], "CREATE")] })) :=
  ⟨(createFolder_semantics c6St "New" (some "p1") none).1 "v1" c6V
     (FsNode.dir [("V", FsNode.dir [("P", FsNode.dir [("New", FsNode.dir [])])])])
     (by decide) (by decide) rfl,
   (createFolder_semantics c6LegSt "New" none none).2.2.2 ["W"]
     (FsNode.dir [("W", FsNode.dir [("New", FsNode.dir [])])])
     rfl rfl rfl rfl rfl⟩

end FilesSorter

namespace FilesSorter

/-! ## Claim C7: moveImageToTrash -/

/-- Claim C7: `moveImageToTrash` resolves the trash vault path as the
image's owning vault when it resolves, else the first visible vault, else
the legacy `settings.vaultFolder`; ensures `_Trash`, moves the file there
under a collision-free `(n)`-suffixed name, and deletes the image's
catalog row — the only catalog mutation is that deletion. -/
theorem moveImageToTrash_spec (s : St) (imageId : String) (img : Image)
    (vp : Path) (f2 f3 : FsNode)
    (himg : dbGetImageById s imageId = some img)
    (hscen : (∃ vid V, img.vaultId = some vid ∧ dbGetVaultById s vid = some V ∧ vp = V.path)
      ∨ ((match img.vaultId with
          | none => True
          | some vid => dbGetVaultById s vid = none)
        ∧ ((∃ V, (dbGetAllVaults s).find? (fun v => v.isVisible) = some V ∧ vp = V.path)
          ∨ ((dbGetAllVaults s).find? (fun v => v.isVisible) = none
            ∧ s.db.settings.vaultFolder = some vp))))
    (hmk : mkdirp s.fs (vp ++ ["_Trash"]) = Except.ok f2)
    (hmv : moveFileFs f2 img.path
        (getUniqueFilename f2 (vp ++ ["_Trash"]) img.filename) = Except.ok f3)
    (hfree : ∃ k, k < ((readdirAt f2 (vp ++ ["_Trash"])).getD []).length.succ ∧
        existsAt f2 ((vp ++ ["_Trash"]) ++
          [candName (img.filename.dropRight (extname img.filename).length)
            (extname img.filename) k]) = false) :
    moveImageToTrash imageId s =
      (Except.ok (),
       { s with
           fs := f3
           db.images := s.db.images.filter (fun i => !([imageId].contains i.id))
           ops := s.ops ++ [DbOp.deleteImages [imageId]]
           audit := s.audit ++ [(vp, "DELETE")] })
    ∧ existsAt f2 (getUniqueFilename f2 (vp ++ ["_Trash"]) img.filename) = false
    ∧ ∃ n, getUniqueFilename f2 (vp ++ ["_Trash"]) img.filename
        = (vp ++ ["_Trash"]) ++
          [candName (img.filename.dropRight (extname img.filename).length)
            (extname img.filename) n] := by
  have hres : resolveTrashVaultPath s img = some vp := by
    rcases hscen with ⟨vid, V, hv1, hv2, hv3⟩ | ⟨howner, hfall⟩
    · simp [resolveTrashVaultPath, hv1, hv2, hv3]
    · have hnone : (match img.vaultId with
          | some vid => (dbGetVaultById s vid).map (fun v => v.path)
          | none => none) = (none : Option Path) := by
        rcases hv : img.vaultId with _ | vid
        · simp
        · simp only [hv] at howner ⊢
          simp [howner]
      rcases hfall with ⟨V, hv1, hv2⟩ | ⟨hv1, hv2⟩
      · simp only [resolveTrashVaultPath, hnone, hv1]
        rw [hv2]
      · simp only [resolveTrashVaultPath, hnone, hv1]
        exact hv2
  obtain ⟨n, hn1, hn2, _⟩ := uniqueLoop_first_free f2 (vp ++ ["_Trash"])
    (img.filename.dropRight (extname img.filename).length) (extname img.filename)
    ((readdirAt f2 (vp ++ ["_Trash"])).getD []).length.succ 0
    (by simpa using hfree)
  rw [Nat.zero_add] at hn1 hn2
  refine ⟨?_, ?_, ?_⟩
  · simp only [moveImageToTrash, himg, hres, hmk]
    simp only [moveFileFs] at hmv ⊢
    simp only [hmv]
    simp only [auditLog, dbDeleteImages]
  · rw [getUniqueFilename]
    rw [hn1]
    exact hn2
  · rw [getUniqueFilename]
    rw [hn1]
    exact ⟨n, rfl⟩

end FilesSorter

namespace FilesSorter

/-- Vault record of the C7 witness. -/
def c7V : Vault := { id := "v1", path := ["V"], displayName := "V", isVisible := true, order := 0 }

/-- Image row of the C7 witness, owned by vault `v1`. -/
def c7I : Image :=
  { id := "i9", path := ["V", "A", "z.jpg"], filename := "z.jpg", fileSize := 3,
    width := none, height := none, modifiedDate := "t", thumbnailPath := none,
    isSupported := true, format := "jpg", albumId := none,
    vaultId := some "v1", status := ImgStatus.normal }

/-- Whole state of the C7 witness: the vault trash already holds a file
named `z.jpg`, forcing the collision suffix. -/
def c7St : St :=
  { db := { vaults := [c7V]
            albums := []
            images := [c7I]
            settings := { vaultFolder := none, trashHandling := TrashHandling.vault } }
    fs := FsNode.dir [("V", FsNode.dir
      [("A", FsNode.dir [("z.jpg", FsNode.file 3 "t")]),
       ("_Trash", FsNode.dir [("z.jpg", FsNode.file 9 "t")])])]
    uid := 0
    ops := []
    audit := [] }

/-- The tree after the witness move: the source is gone and the trash
holds `z (1).jpg`. -/
def c7After : FsNode :=
  FsNode.dir [("V", FsNode.dir
    [("A", FsNode.dir []),
     ("_Trash", FsNode.dir
       [("z.jpg", FsNode.file 9 "t"), ("z (1).jpg", FsNode.file 3 "t")])])]

/-- Witness for C7 at the concrete state: the owning vault's `_Trash`
receives the file as `z (1).jpg` and the image row is deleted. -/
theorem moveImageToTrash_spec_witness :
    (dbGetImageById c7St "i9" = some c7I
      ∧ mkdirp c7St.fs (["V"] ++ ["_Trash"]) = Except.ok c7St.fs
      ∧ moveFileFs c7St.fs c7I.path
          (getUniqueFilename c7St.fs (["V"] ++ ["_Trash"]) c7I.filename) = Except.ok c7After)
    ∧ (moveImageToTrash "i9" c7St =
        (Except.ok (),
         { c7St with
             fs := c7After
             db.images := c7St.db.images.filter (fun i => !(["i9"].contains i.id))
             ops := c7St.ops ++ [DbOp.deleteImages ["i9"]]
             audit := c7St.audit ++ [(["V"], "DELETE")] })
      ∧ existsAt c7St.fs (getUniqueFilename c7St.fs (["V"] ++ ["_Trash"]) c7I.filename) = false
      ∧ ∃ n, getUniqueFilename c7St.fs (["V"] ++ ["_Trash"]) c7I.filename
          = (["V"] ++ ["_Trash"]) ++
            [candName (c7I.filename.dropRight (extname c7I.filename).length)
              (extname c7I.filename) n]) :=
  ⟨⟨rfl, rfl, rfl⟩,
   moveImageToTrash_spec c7St "i9" c7I ["V"] c7St.fs c7After
     rfl (Or.inl ⟨"v1", c7V, rfl, rfl, rfl⟩) rfl rfl ⟨1, by decide, by decide⟩⟩

end FilesSorter

namespace FilesSorter

/-! ## Claim C10: scan clears the catalog before the walk -/

/-- Segment prefixes compose. -/
theorem segStarts_trans : ∀ a b c : Path, segStarts a b = true →
    segStarts b c = true → segStarts a c = true := by
  intro a
  induction a with
  | nil => intro b c _ _; rfl
  | cons x xs ih =>
    intro b c hab hbc
    cases b with
    | nil => simp [segStarts] at hab
    | cons y ys =>
      cases c with
      | nil => simp [segStarts] at hbc
      | cons z zs =>
        simp only [segStarts, Bool.and_eq_true, beq_iff_eq] at hab hbc ⊢
        exact ⟨hab.1.trans hbc.1, ih ys zs hab.2 hbc.2⟩

/-- A segment prefix is no longer than the whole. -/
theorem segStarts_length_le : ∀ a b : Path, segStarts a b = true →
    a.length ≤ b.length := by
  intro a
  induction a with
  | nil => intro b _; simp
  | cons x xs ih =>
    intro b h
    cases b with
    | nil => simp [segStarts] at h
    | cons y ys =>
      simp only [segStarts, Bool.and_eq_true] at h
      have := ih ys h.2
      simp only [List.length_cons]
      omega

/-- Strictly-below composes through a child directory. -/
theorem segStartsStrict_child {p q : Path} (name : String)
    (h : segStartsStrict (p ++ [name]) q = true) :
    segStartsStrict p q = true := by
  simp only [segStartsStrict, Bool.and_eq_true, decide_eq_true_eq] at h ⊢
  refine ⟨segStarts_trans p (p ++ [name]) q (segStarts_append p [name]) h.1, ?_⟩
  have := h.2
  simp only [List.length_append, List.length_cons, List.length_nil] at this
  omega

/-- A direct file of the folder lies strictly below the folder. -/
theorem segStartsStrict_self_child (p : Path) (name : String) :
    segStartsStrict p (p ++ [name]) = true := by
  simp only [segStartsStrict, Bool.and_eq_true, decide_eq_true_eq]
  exact ⟨segStarts_append p [name], by simp⟩

/-- The image row `scanFile` inserts for a recognised file. -/
def scannedRow (filename : String) (sz : Nat) (mt : String) (fp : Path)
    (uid : Nat) : Image :=
  { id := mkUid uid, path := fp, filename := filename, fileSize := sz,
    width := none, height := none, modifiedDate := mt, thumbnailPath := none,
    isSupported := SCANNER_SUPPORTED.contains (strLower (extname filename)),
    format := String.mk ((strLower (extname filename)).data.drop 1),
    albumId := none, vaultId := none, status := ImgStatus.normal }

/-- `scanFile` appends at most one insert to the op log. -/
theorem scanFile_ops (filename : String) (sz : Nat) (mt : String) (fp : Path)
    (s : St) (b : Option Nat) :
    ∃ rest, (scanFile filename sz mt fp s b).1.ops = s.ops ++ rest
      ∧ ∀ o ∈ rest, ∃ im, o = DbOp.insertImage im := by
  rw [scanFile]
  rcases hc : checkCancel b with ⟨c, b2⟩
  simp only [hc]
  cases c with
  | true => exact ⟨[], by simp, by simp⟩
  | false =>
    by_cases hext : (SCANNER_IMAGE_EXTENSIONS.contains (strLower (extname filename))) = true
    · have hmem : strLower (extname filename) ∈ SCANNER_IMAGE_EXTENSIONS := by
        simpa using hext
      refine ⟨[DbOp.insertImage (scannedRow filename sz mt fp s.uid)], ?_, ?_⟩
      · simp [hmem, dbInsertImage, scannedRow]
      · intro o ho
        simp only [List.mem_singleton] at ho
        exact ⟨_, ho⟩
    · have hmem : strLower (extname filename) ∉ SCANNER_IMAGE_EXTENSIONS := by
        simpa using hext
      exact ⟨[], by simp [hmem], by simp⟩

/-- Every image row after `scanFile` was already present or is the
file's own row. -/
theorem scanFile_images (filename : String) (sz : Nat) (mt : String) (fp : Path)
    (s : St) (b : Option Nat) :
    ∀ i ∈ (scanFile filename sz mt fp s b).1.db.images,
      i ∈ s.db.images ∨ i.path = fp := by
  rw [scanFile]
  rcases hc : checkCancel b with ⟨c, b2⟩
  simp only [hc]
  cases c with
  | true => intro i hi; exact Or.inl hi
  | false =>
    by_cases hext : (SCANNER_IMAGE_EXTENSIONS.contains (strLower (extname filename))) = true
    · have hcond : (!(SCANNER_IMAGE_EXTENSIONS.contains (strLower (extname filename)))) = false := by
        rw [hext]; rfl
      intro i hi
      simp only [Bool.false_eq_true, if_false, hcond, dbInsertImage] at hi
      simp only [List.mem_append, List.mem_filter, List.mem_singleton] at hi
      rcases hi with hi | hi
      · exact Or.inl hi.1
      · right; rw [hi]
    · have hcond : (!(SCANNER_IMAGE_EXTENSIONS.contains (strLower (extname filename)))) = true := by
        rw [Bool.not_eq_true] at hext
        rw [hext]; rfl
      intro i hi
      simp only [Bool.false_eq_true, if_false, hcond, if_true] at hi
      exact Or.inl hi

/-- `scanFile` depends only on the image table, the uuid counter and the
budget. -/
theorem scanFile_congr (filename : String) (sz : Nat) (mt : String) (fp : Path)
    (s s₂ : St) (b : Option Nat)
    (him : s.db.images = s₂.db.images) (hud : s.uid = s₂.uid) :
    (scanFile filename sz mt fp s b).1.db.images
        = (scanFile filename sz mt fp s₂ b).1.db.images
    ∧ (scanFile filename sz mt fp s b).1.uid = (scanFile filename sz mt fp s₂ b).1.uid
    ∧ (scanFile filename sz mt fp s b).2 = (scanFile filename sz mt fp s₂ b).2 := by
  rw [scanFile, scanFile]
  rcases hc : checkCancel b with ⟨c, b2⟩
  simp only [hc]
  cases c with
  | true => exact ⟨him, hud, rfl⟩
  | false =>
    by_cases hext : (SCANNER_IMAGE_EXTENSIONS.contains (strLower (extname filename))) = true
    · have hcond : (!(SCANNER_IMAGE_EXTENSIONS.contains (strLower (extname filename)))) = false := by
        rw [hext]; rfl
      simp only [Bool.false_eq_true, if_false, hcond, dbInsertImage, him, hud]
      exact ⟨trivial, trivial, trivial⟩
    · have hcond : (!(SCANNER_IMAGE_EXTENSIONS.contains (strLower (extname filename)))) = true := by
        rw [Bool.not_eq_true] at hext
        rw [hext]; rfl
      simp only [Bool.false_eq_true, if_false, hcond, if_true]
      exact ⟨him, hud, trivial⟩

end FilesSorter

namespace FilesSorter

/-- Entry lists have positive size. -/
theorem sizeOf_entries_pos (es : List (String × FsNode)) : 1 ≤ sizeOf es := by
  cases es with
  | nil => simp
  | cons e rest => simp only [List.cons.sizeOf_spec]; omega

/-- A directory child's entry list is smaller than the enclosing list. -/
theorem sizeOf_child_lt (name : String) (ces rest : List (String × FsNode)) :
    sizeOf ces < sizeOf ((name, FsNode.dir ces) :: rest) := by
  simp only [List.cons.sizeOf_spec, Prod.mk.sizeOf_spec, FsNode.dir.sizeOf_spec]
  omega

/-- The tail is smaller than the list. -/
theorem sizeOf_rest_lt (e : String × FsNode) (rest : List (String × FsNode)) :
    sizeOf rest < sizeOf (e :: rest) := by
  simp only [List.cons.sizeOf_spec]
  have : 0 < sizeOf e := by
    rcases e with ⟨n, c⟩
    simp only [Prod.mk.sizeOf_spec]
    omega
  omega

/-- The walk of `processFolder` only appends image inserts to the op
log. -/
theorem scanFolderEntries_ops : ∀ (N : Nat) (es : List (String × FsNode)),
    sizeOf es ≤ N → ∀ (p : Path) (s : St) (b : Option Nat),
    ∃ rest, (scanFolderEntries es p s b).1.ops = s.ops ++ rest
      ∧ ∀ o ∈ rest, ∃ im, o = DbOp.insertImage im := by
  intro N
  induction N with
  | zero =>
    intro es hN
    have := sizeOf_entries_pos es
    omega
  | succ N ih =>
    intro es hN p s b
    cases es with
    | nil => exact ⟨[], by simp [scanFolderEntries], by simp⟩
    | cons e rest =>
      rcases e with ⟨name, child⟩
      rw [scanFolderEntries]
      rcases hc : checkCancel b with ⟨c, b2⟩
      simp only [hc]
      cases c with
      | true => exact ⟨[], by simp, by simp⟩
      | false =>
        have hrestN : sizeOf rest ≤ N := by
          have := sizeOf_rest_lt (name, child) rest
          omega
        by_cases hhid : (strStarts "." name) = true
        · simp only [hhid, if_true]
          exact ih rest hrestN p s b2
        · have hhid2 : strStarts "." name = false := by
            rw [Bool.not_eq_true] at hhid; exact hhid
          simp only [hhid2, Bool.false_eq_true, if_false]
          cases child with
          | file sz mt =>
            obtain ⟨r1, hr1, hr1i⟩ := scanFile_ops name sz mt (p ++ [name]) s b2
            rcases hsf : scanFile name sz mt (p ++ [name]) s b2 with ⟨s1, b3⟩
            simp only [hsf]
            rw [hsf] at hr1
            obtain ⟨r2, hr2, hr2i⟩ := ih rest hrestN p s1 b3
            refine ⟨r1 ++ r2, ?_, ?_⟩
            · rw [hr2, hr1, List.append_assoc]
            · intro o ho
              rcases List.mem_append.mp ho with h | h
              · exact hr1i o h
              · exact hr2i o h
          | dir ces =>
            have hcesN : sizeOf ces ≤ N := by
              have := sizeOf_child_lt name ces rest
              omega
            rw [scanFolder]
            rcases hc2 : checkCancel b2 with ⟨c2, b4⟩
            simp only [hc2]
            cases c2 with
            | true => exact ih rest hrestN p s b4
            | false =>
              simp only [Bool.false_eq_true, if_false]
              obtain ⟨r1, hr1, hr1i⟩ := ih ces hcesN (p ++ [name]) s b4
              rcases hin : scanFolderEntries ces (p ++ [name]) s b4 with ⟨s1, b5⟩
              simp only [hin]
              rw [hin] at hr1
              obtain ⟨r2, hr2, hr2i⟩ := ih rest hrestN p s1 b5
              refine ⟨r1 ++ r2, ?_, ?_⟩
              · rw [hr2, hr1, List.append_assoc]
              · intro o ho
                rcases List.mem_append.mp ho with h | h
                · exact hr1i o h
                · exact hr2i o h

end FilesSorter

namespace FilesSorter

/-- Every image row after a walk of `processFolder`'s entry loop was
already present or lies strictly below the folder. -/
theorem scanFolderEntries_images : ∀ (N : Nat) (es : List (String × FsNode)),
    sizeOf es ≤ N → ∀ (p : Path) (s : St) (b : Option Nat),
    ∀ i ∈ (scanFolderEntries es p s b).1.db.images,
      i ∈ s.db.images ∨ segStartsStrict p i.path = true := by
  intro N
  induction N with
  | zero =>
    intro es hN
    have := sizeOf_entries_pos es
    omega
  | succ N ih =>
    intro es hN p s b
    cases es with
    | nil =>
      intro i hi
      rw [scanFolderEntries] at hi
      exact Or.inl hi
    | cons e rest =>
      rcases e with ⟨name, child⟩
      rw [scanFolderEntries]
      rcases hc : checkCancel b with ⟨c, b2⟩
      simp only [hc]
      cases c with
      | true => intro i hi; exact Or.inl hi
      | false =>
        have hrestN : sizeOf rest ≤ N := by
          have := sizeOf_rest_lt (name, child) rest
          omega
        by_cases hhid : (strStarts "." name) = true
        · simp only [hhid, if_true]
          exact ih rest hrestN p s b2
        · have hhid2 : strStarts "." name = false := by
            rw [Bool.not_eq_true] at hhid; exact hhid
          simp only [hhid2, Bool.false_eq_true, if_false]
          cases child with
          | file sz mt =>
            rcases hsf : scanFile name sz mt (p ++ [name]) s b2 with ⟨s1, b3⟩
            simp only [hsf]
            intro i hi
            rcases ih rest hrestN p s1 b3 i hi with h1 | h1
            · have := scanFile_images name sz mt (p ++ [name]) s b2 i (by rw [hsf]; exact h1)
              rcases this with h2 | h2
              · exact Or.inl h2
              · right
                rw [h2]
                exact segStartsStrict_self_child p name
            · exact Or.inr h1
          | dir ces =>
            have hcesN : sizeOf ces ≤ N := by
              have := sizeOf_child_lt name ces rest
              omega
            rw [scanFolder]
            rcases hc2 : checkCancel b2 with ⟨c2, b4⟩
            simp only [hc2]
            cases c2 with
            | true => exact ih rest hrestN p s b4
            | false =>
              simp only [Bool.false_eq_true, if_false]
              rcases hin : scanFolderEntries ces (p ++ [name]) s b4 with ⟨s1, b5⟩
              simp only [hin]
              intro i hi
              rcases ih rest hrestN p s1 b5 i hi with h1 | h1
              · have := ih ces hcesN (p ++ [name]) s b4 i (by rw [hin]; exact h1)
                rcases this with h2 | h2
                · exact Or.inl h2
                · exact Or.inr (segStartsStrict_child name h2)
              · exact Or.inr h1

/-- The entry walk depends only on the image table, the uuid counter and
the budget (never on other catalog tables). -/
theorem scanFolderEntries_congr : ∀ (N : Nat) (es : List (String × FsNode)),
    sizeOf es ≤ N → ∀ (p : Path) (s s₂ : St) (b : Option Nat),
    s.db.images = s₂.db.images → s.uid = s₂.uid →
    (scanFolderEntries es p s b).1.db.images = (scanFolderEntries es p s₂ b).1.db.images
    ∧ (scanFolderEntries es p s b).1.uid = (scanFolderEntries es p s₂ b).1.uid
    ∧ (scanFolderEntries es p s b).2 = (scanFolderEntries es p s₂ b).2 := by
  intro N
  induction N with
  | zero =>
    intro es hN
    have := sizeOf_entries_pos es
    omega
  | succ N ih =>
    intro es hN p s s₂ b him hud
    cases es with
    | nil =>
      rw [scanFolderEntries, scanFolderEntries]
      exact ⟨him, hud, rfl⟩
    | cons e rest =>
      rcases e with ⟨name, child⟩
      rw [scanFolderEntries, scanFolderEntries]
      rcases hc : checkCancel b with ⟨c, b2⟩
      simp only [hc]
      cases c with
      | true => exact ⟨him, hud, rfl⟩
      | false =>
        have hrestN : sizeOf rest ≤ N := by
          have := sizeOf_rest_lt (name, child) rest
          omega
        by_cases hhid : (strStarts "." name) = true
        · simp only [hhid, if_true]
          exact ih rest hrestN p s s₂ b2 him hud
        · have hhid2 : strStarts "." name = false := by
            rw [Bool.not_eq_true] at hhid; exact hhid
          simp only [hhid2, Bool.false_eq_true, if_false]
          cases child with
          | file sz mt =>
            obtain ⟨h1, h2, h3⟩ := scanFile_congr name sz mt (p ++ [name]) s s₂ b2 him hud
            rcases hsf : scanFile name sz mt (p ++ [name]) s b2 with ⟨s1, b3⟩
            rcases hsf2 : scanFile name sz mt (p ++ [name]) s₂ b2 with ⟨s12, b32⟩
            rw [hsf, hsf2] at h1 h2 h3
            simp only [hsf, hsf2]
            have hb : b3 = b32 := h3
            rw [← hb]
            exact ih rest hrestN p s1 s12 b3 h1 h2
          | dir ces =>
            have hcesN : sizeOf ces ≤ N := by
              have := sizeOf_child_lt name ces rest
              omega
            rw [scanFolder, scanFolder]
            rcases hc2 : checkCancel b2 with ⟨c2, b4⟩
            simp only [hc2]
            cases c2 with
            | true => exact ih rest hrestN p s s₂ b4 him hud
            | false =>
              simp only [Bool.false_eq_true, if_false]
              obtain ⟨h1, h2, h3⟩ := ih ces hcesN (p ++ [name]) s s₂ b4 him hud
              rcases hin : scanFolderEntries ces (p ++ [name]) s b4 with ⟨s1, b5⟩
              rcases hin2 : scanFolderEntries ces (p ++ [name]) s₂ b4 with ⟨s12, b52⟩
              rw [hin, hin2] at h1 h2 h3
              simp only [hin, hin2]
              have hb : b5 = b52 := h3
              rw [← hb]
              exact ih rest hrestN p s1 s12 b5 h1 h2

end FilesSorter

namespace FilesSorter

/-- `processFolder` only appends image inserts to the op log. -/
theorem scanFolder_ops (t : FsNode) (p : Path) (s : St) (b : Option Nat) :
    ∃ rest, (scanFolder t p s b).1.ops = s.ops ++ rest
      ∧ ∀ o ∈ rest, ∃ im, o = DbOp.insertImage im := by
  rw [scanFolder]
  rcases hc : checkCancel b with ⟨c, b2⟩
  simp only [hc]
  cases c with
  | true => exact ⟨[], by simp, by simp⟩
  | false =>
    cases t with
    | file sz mt => exact ⟨[], by simp, by simp⟩
    | dir es =>
      simp only [Bool.false_eq_true, if_false]
      exact scanFolderEntries_ops (sizeOf es) es le_rfl p s b2

/-- Every image row after `processFolder` was present before or lies
strictly below the walked folder. -/
theorem scanFolder_images (t : FsNode) (p : Path) (s : St) (b : Option Nat) :
    ∀ i ∈ (scanFolder t p s b).1.db.images,
      i ∈ s.db.images ∨ segStartsStrict p i.path = true := by
  rw [scanFolder]
  rcases hc : checkCancel b with ⟨c, b2⟩
  simp only [hc]
  cases c with
  | true => intro i hi; exact Or.inl hi
  | false =>
    cases t with
    | file sz mt => intro i hi; exact Or.inl hi
    | dir es =>
      simp only [Bool.false_eq_true, if_false]
      exact scanFolderEntries_images (sizeOf es) es le_rfl p s b2

/-- `processFolder` depends only on the image table, the uuid counter and
the budget. -/
theorem scanFolder_congr (t : FsNode) (p : Path) (s s₂ : St) (b : Option Nat)
    (him : s.db.images = s₂.db.images) (hud : s.uid = s₂.uid) :
    (scanFolder t p s b).1.db.images = (scanFolder t p s₂ b).1.db.images := by
  rw [scanFolder, scanFolder]
  rcases hc : checkCancel b with ⟨c, b2⟩
  simp only [hc]
  cases c with
  | true => exact him
  | false =>
    cases t with
    | file sz mt => exact him
    | dir es =>
      simp only [Bool.false_eq_true, if_false]
      exact (scanFolderEntries_congr (sizeOf es) es le_rfl p s s₂ b2 him hud).1

/-- Claim C10: `scan(folderPath)` deletes every image row before the walk
begins (the first logged operation is the unconditional
`clearAllImages`, and everything after it is an insert of a discovered
file), so after any scan — cancelled or not, whatever the starting
catalog — the catalog contains only images discovered under the scanned
root during that walk: every surviving row's path lies strictly below
`folderPath`, and the result does not depend on the previous image
table at all. -/
theorem scan_clears_catalog_first (p : Path) (b : Option Nat) (s : St) :
    (∃ rest, (scan p b s).ops = s.ops ++ DbOp.clearAllImages :: rest
      ∧ ∀ o ∈ rest, ∃ im, o = DbOp.insertImage im)
    ∧ (∀ i ∈ (scan p b s).db.images, segStartsStrict p i.path = true)
    ∧ (∀ s₂, s.fs = s₂.fs → s.uid = s₂.uid →
        (scan p b s).db.images = (scan p b s₂).db.images) := by
  refine ⟨?_, ?_, ?_⟩
  · rw [scan]
    simp only [dbClearAllImages]
    rcases hl : lookupFs s.fs p with _ | n
    · exact ⟨[], by simp, by simp⟩
    · obtain ⟨rest, hr, hri⟩ := scanFolder_ops n p (dbClearAllImages s) b
      refine ⟨rest, ?_, hri⟩
      simp only [dbClearAllImages] at hr
      rw [hr]
      simp
  · rw [scan]
    simp only [dbClearAllImages]
    rcases hl : lookupFs s.fs p with _ | n
    · intro i hi
      simp at hi
    · intro i hi
      have := scanFolder_images n p (dbClearAllImages s) b i
        (by simpa [dbClearAllImages] using hi)
      rcases this with h | h
      · simp [dbClearAllImages] at h
      · exact h
  · intro s₂ hfs hud
    rw [scan, scan]
    simp only [dbClearAllImages]
    have hlk : lookupFs s₂.fs p = lookupFs s.fs p := by rw [hfs]
    rw [hlk]
    rcases hl : lookupFs s.fs p with _ | n
    · rfl
    · have := scanFolder_congr n p (dbClearAllImages s) (dbClearAllImages s₂) b
        (by simp [dbClearAllImages]) (by simp [dbClearAllImages, hud])
      simpa [dbClearAllImages] using this

/-- C10 witness state: an old catalog row under another root, and a walk
cancelled after three checks. -/
def scSt10 : St :=
  { db := { vaults := []
            albums := []
            images := [{ id := "old1", path := ["Other", "o.jpg"], filename := "o.jpg",
                         fileSize := 1, width := none, height := none, modifiedDate := "t",
                         thumbnailPath := none, isSupported := true, format := "jpg",
                         albumId := none, vaultId := none, status := ImgStatus.normal }]
            settings := { vaultFolder := none, trashHandling := TrashHandling.vault } }
    fs := FsNode.dir
      [("R", FsNode.dir [("p.jpg", FsNode.file 1 "t"), ("q.jpg", FsNode.file 1 "t"),
        ("sub", FsNode.dir [("r.png", FsNode.file 1 "t")])]),
       ("Other", FsNode.dir [("o.jpg", FsNode.file 1 "t")])]
    uid := 0
    ops := []
    audit := [] }

/-- The same state with an empty image table. -/
def scSt10b : St := { scSt10 with db.images := [] }

/-- Witness for C10: the theorem applies at the concrete cancelled scan,
and the two runs from different starting catalogs coincide. -/
theorem scan_clears_catalog_first_witness :
    (scSt10.fs = scSt10b.fs ∧ scSt10.uid = scSt10b.uid)
    ∧ ((∃ rest, (scan ["R"] (some 3) scSt10).ops = scSt10.ops ++ DbOp.clearAllImages :: rest
        ∧ ∀ o ∈ rest, ∃ im, o = DbOp.insertImage im)
      ∧ (∀ i ∈ (scan ["R"] (some 3) scSt10).db.images, segStartsStrict ["R"] i.path = true)
      ∧ (∀ s₂, scSt10.fs = s₂.fs → scSt10.uid = s₂.uid →
          (scan ["R"] (some 3) scSt10).db.images = (scan ["R"] (some 3) s₂).db.images))
    ∧ (scan ["R"] (some 3) scSt10).db.images = (scan ["R"] (some 3) scSt10b).db.images :=
  ⟨⟨rfl, rfl⟩, scan_clears_catalog_first ["R"] (some 3) scSt10,
   (scan_clears_catalog_first ["R"] (some 3) scSt10).2.2 scSt10b rfl rfl⟩

end FilesSorter

namespace FilesSorter

/-! ## Claim C9: the organize loop -/

/-- Membership is invariant under the insertion step of the sort model. -/
theorem mem_insSortBy {α : Type} (le : α → α → Bool) (x y : α) :
    ∀ l : List α, y ∈ insSortBy le x l ↔ y = x ∨ y ∈ l := by
  intro l
  induction l with
  | nil => simp [insSortBy]
  | cons z zs ih =>
    rw [insSortBy]
    by_cases h : le z x = true
    · simp only [h, if_true, List.mem_cons, ih]
      tauto
    · have h2 : le z x = false := by rw [Bool.not_eq_true] at h; exact h
      simp only [h2, Bool.false_eq_true, if_false, List.mem_cons]

/-- Membership is invariant under the `ORDER BY` model. -/
theorem mem_sortBy {α : Type} (le : α → α → Bool) (y : α) :
    ∀ l : List α, y ∈ sortBy le l ↔ y ∈ l := by
  intro l
  induction l with
  | nil => simp [sortBy]
  | cons z zs ih =>
    rw [sortBy, List.foldr_cons]
    rw [show List.foldr (insSortBy le) [] zs = sortBy le zs from rfl]
    rw [mem_insSortBy]
    simp only [List.mem_cons, ih]

/-- The organize loop (uncancelled) gives every item exactly one verdict:
its id is collected on success, or one `(path, reason)` entry is appended
on failure, and the loop continues either way. -/
theorem organizeLoop_spec (deleteOriginals : Bool) (vf : Path)
    (th : TrashHandling) (albums : List Album) :
    ∀ (items : List Image) (idx : Nat) (t : FsNode)
      (errs : List (Path × String)) (done : List String),
      ∃ e2 d2,
        (organizeLoop deleteOriginals vf th albums none items idx t errs done).2.1
            = errs ++ e2
        ∧ (organizeLoop deleteOriginals vf th albums none items idx t errs done).2.2
            = done ++ d2
        ∧ e2.length + d2.length = items.length
        ∧ (∀ img ∈ items, img.id ∈ d2 ∨ ∃ reason, (img.path, reason) ∈ e2)
        ∧ (∀ en ∈ e2, ∃ img ∈ items, en.1 = img.path) := by
  intro items
  induction items with
  | nil =>
    intro idx t errs done
    exact ⟨[], [], by simp [organizeLoop], by simp [organizeLoop], by simp, by simp, by simp⟩
  | cons image rest ih =>
    intro idx t errs done
    rcases hit : organizeItem deleteOriginals vf th albums image t with e | t2
    all_goals simp only [organizeLoop, hit, Bool.false_eq_true, if_false]
    · obtain ⟨e2, d2, h1, h2, h3, h4, h5⟩ :=
        ih (idx + 1) t (errs ++ [(image.path, fsErrMsg e)]) done
      refine ⟨(image.path, fsErrMsg e) :: e2, d2, ?_, ?_, ?_, ?_, ?_⟩
      · rw [h1]; simp
      · rw [h2]
      · simp only [List.length_cons]; omega
      · intro img hmem
        rcases List.mem_cons.mp hmem with hmem | hmem
        · right
          exact ⟨fsErrMsg e, by rw [hmem]; simp⟩
        · rcases h4 img hmem with h | ⟨reason, h⟩
          · exact Or.inl h
          · exact Or.inr ⟨reason, by simp [h]⟩
      · intro en hen
        rcases List.mem_cons.mp hen with hen | hen
        · exact ⟨image, by simp, by rw [hen]⟩
        · obtain ⟨img, hm, hp⟩ := h5 en hen
          exact ⟨img, by simp [hm], hp⟩
    · obtain ⟨e2, d2, h1, h2, h3, h4, h5⟩ :=
        ih (idx + 1) t2 errs (done ++ [image.id])
      refine ⟨e2, image.id :: d2, ?_, ?_, ?_, ?_, ?_⟩
      · rw [h1]
      · rw [h2]; simp
      · simp only [List.length_cons]; omega
      · intro img hmem
        rcases List.mem_cons.mp hmem with hmem | hmem
        · left; rw [hmem]; simp
        · rcases h4 img hmem with h | ⟨reason, h⟩
          · exact Or.inl (by simp [h])
          · exact Or.inr ⟨reason, h⟩
      · intro en hen
        obtain ⟨img, hm, hp⟩ := h5 en hen
        exact ⟨img, by simp [hm], hp⟩

end FilesSorter

namespace FilesSorter

/-- Claim C9: `organize` (uncancelled, with a vault folder configured)
returns ok; every selected image either has its id collected as
successfully disposed or contributes exactly one `(path, reason)` error
entry (their counts add up to the whole worklist); every error entry names
a selected image's path; the surviving catalog rows are exactly the rows
whose id was not collected — so a failed image keeps its catalog row and a
succeeded one is removed; and when the first selected image's source file
is missing, the published errors contain its `(path, "ENOENT")` entry. -/
theorem organize_spec (deleteOriginals : Bool) (s : St) (vf : Path)
    (hvf : s.db.settings.vaultFolder = some vf) :
    ∃ (errs : List (Path × String)) (done : List String),
      (organize deleteOriginals none s).1 = Except.ok ()
      ∧ (organize deleteOriginals none s).2.2 = errs
      ∧ (organize deleteOriginals none s).2.1.db.images
          = s.db.images.filter (fun i => !(done.contains i.id))
      ∧ errs.length + done.length
          = ((dbGetAllImages s).filter (fun img =>
              img.albumId.isSome || img.status == ImgStatus.trash
                || img.status == ImgStatus.notSure)).length
      ∧ (∀ img ∈ (dbGetAllImages s).filter (fun img =>
            img.albumId.isSome || img.status == ImgStatus.trash
              || img.status == ImgStatus.notSure),
          img.id ∈ done ∨ ∃ reason, (img.path, reason) ∈ errs)
      ∧ (∀ en ∈ errs, ∃ img ∈ (dbGetAllImages s).filter (fun img =>
            img.albumId.isSome || img.status == ImgStatus.trash
              || img.status == ImgStatus.notSure), en.1 = img.path)
      ∧ (∀ img ∈ s.db.images, ¬ img.id ∈ done →
          img ∈ (organize deleteOriginals none s).2.1.db.images)
      ∧ (∀ img rest2,
          (dbGetAllImages s).filter (fun img =>
            img.albumId.isSome || img.status == ImgStatus.trash
              || img.status == ImgStatus.notSure) = img :: rest2 →
          existsAt s.fs img.path = false →
          (img.path, "ENOENT") ∈ errs) := by
  obtain ⟨e2, d2, h1, h2, h3, h4, h5⟩ :=
    organizeLoop_spec deleteOriginals vf s.db.settings.trashHandling
      (dbGetAllAlbums s)
      ((dbGetAllImages s).filter (fun img =>
        img.albumId.isSome || img.status == ImgStatus.trash
          || img.status == ImgStatus.notSure)) 0 s.fs [] []
  simp only [List.nil_append] at h1 h2
  refine ⟨e2, d2, ?_⟩
  rcases hX : organizeLoop deleteOriginals vf s.db.settings.trashHandling
      (dbGetAllAlbums s) none
      ((dbGetAllImages s).filter (fun img =>
        img.albumId.isSome || img.status == ImgStatus.trash
          || img.status == ImgStatus.notSure)) 0 s.fs [] [] with ⟨t2, errs0, done0⟩
  have he : errs0 = e2 := by rw [hX] at h1; exact h1
  have hd : done0 = d2 := by rw [hX] at h2; exact h2
  subst he; subst hd
  have hgoal : organize deleteOriginals none s =
      (Except.ok (),
       if done0.length > 0
       then dbDeleteImages { s with fs := t2 } done0
       else { s with fs := t2 },
       errs0) := by
    simp only [organize, hvf, hX]
  have hImages : (organize deleteOriginals none s).2.1.db.images
      = s.db.images.filter (fun i => !(done0.contains i.id)) := by
    rw [hgoal]
    by_cases hlen : done0.length > 0
    · rw [if_pos hlen]; rfl
    · rw [if_neg hlen]
      have hnil : done0 = [] := List.length_eq_zero.mp (by omega)
      subst hnil
      exact (List.filter_eq_self.mpr (fun a _ => rfl)).symm
  refine ⟨by rw [hgoal], by rw [hgoal], hImages, h3, h4, h5, ?_, ?_⟩
  · intro img hm hnd
    rw [hImages]
    refine List.mem_filter.mpr ⟨hm, ?_⟩
    have hc : done0.contains img.id = false := by
      by_contra hcc
      rw [Bool.not_eq_false] at hcc
      exact hnd (by simpa using hcc)
    rw [hc]; rfl
  · intro img rest2 hT hex
    have hitem : organizeItem deleteOriginals vf s.db.settings.trashHandling
        (dbGetAllAlbums s) img s.fs = Except.error FsErr.enoent := by
      simp only [organizeItem, hex, Bool.not_false, if_true]
    obtain ⟨e2x, d2x, h1x, h2x, h3x, h4x, h5x⟩ :=
      organizeLoop_spec deleteOriginals vf s.db.settings.trashHandling
        (dbGetAllAlbums s) rest2 1 s.fs [(img.path, "ENOENT")] []
    rw [hT] at hX
    have hstep : organizeLoop deleteOriginals vf s.db.settings.trashHandling
        (dbGetAllAlbums s) none (img :: rest2) 0 s.fs [] []
        = organizeLoop deleteOriginals vf s.db.settings.trashHandling
            (dbGetAllAlbums s) none rest2 1 s.fs [(img.path, "ENOENT")] [] := by
      simp only [organizeLoop, hitem, Bool.false_eq_true, if_false, fsErrMsg,
        List.nil_append, Nat.zero_add]
    rw [hstep] at hX
    have hcongr : (organizeLoop deleteOriginals vf s.db.settings.trashHandling
        (dbGetAllAlbums s) none rest2 1 s.fs [(img.path, "ENOENT")] []).2.1 = errs0 := by
      rw [hX]
    rw [h1x] at hcongr
    rw [← hcongr]
    simp

end FilesSorter

namespace FilesSorter

/-- State for the C9 witness: a configured vault `V` and two pending
(`notSure`) images under `S`, of which only `a.jpg` exists on disk. -/
def ogSt : St :=
  { db := { vaults := [{ id := "v1", path := ["V"], displayName := "V",
                         isVisible := true, order := 0 }]
            albums := []
            images :=
              [{ id := "i1", path := ["S", "a.jpg"], filename := "a.jpg",
                 fileSize := 1, width := none, height := none,
                 modifiedDate := "t", thumbnailPath := none,
                 isSupported := true, format := "jpg", albumId := none,
                 vaultId := none, status := ImgStatus.notSure },
               { id := "i2", path := ["S", "b.jpg"], filename := "b.jpg",
                 fileSize := 1, width := none, height := none,
                 modifiedDate := "t", thumbnailPath := none,
                 isSupported := true, format := "jpg", albumId := none,
                 vaultId := none, status := ImgStatus.notSure }]
            settings := { vaultFolder := some ["V"],
                          trashHandling := TrashHandling.vault } }
    fs := FsNode.dir [("V", FsNode.dir []),
                      ("S", FsNode.dir [("a.jpg", FsNode.file 1 "t")])]
    uid := 0
    ops := []
    audit := [] }

/-- Witness for C9 at `ogSt`, the vault-folder hypothesis holding by
computation. -/
theorem organize_spec_witness :
    ∃ (errs : List (Path × String)) (done : List String),
      (organize true none ogSt).1 = Except.ok ()
      ∧ (organize true none ogSt).2.2 = errs
      ∧ (organize true none ogSt).2.1.db.images
          = ogSt.db.images.filter (fun i => !(done.contains i.id))
      ∧ errs.length + done.length
          = ((dbGetAllImages ogSt).filter (fun img =>
              img.albumId.isSome || img.status == ImgStatus.trash
                || img.status == ImgStatus.notSure)).length
      ∧ (∀ img ∈ (dbGetAllImages ogSt).filter (fun img =>
            img.albumId.isSome || img.status == ImgStatus.trash
              || img.status == ImgStatus.notSure),
          img.id ∈ done ∨ ∃ reason, (img.path, reason) ∈ errs)
      ∧ (∀ en ∈ errs, ∃ img ∈ (dbGetAllImages ogSt).filter (fun img =>
            img.albumId.isSome || img.status == ImgStatus.trash
              || img.status == ImgStatus.notSure), en.1 = img.path)
      ∧ (∀ img ∈ ogSt.db.images, ¬ img.id ∈ done →
          img ∈ (organize true none ogSt).2.1.db.images)
      ∧ (∀ img rest2,
          (dbGetAllImages ogSt).filter (fun img =>
            img.albumId.isSome || img.status == ImgStatus.trash
              || img.status == ImgStatus.notSure) = img :: rest2 →
          existsAt ogSt.fs img.path = false →
          (img.path, "ENOENT") ∈ errs) :=
  organize_spec true ogSt ["V"] rfl

end FilesSorter

namespace FilesSorter

/-! ## Claim C3: orphan reclamation -/

/-- A path is a segment-prefix of itself. -/
theorem segStarts_refl : ∀ p : Path, segStarts p p = true := by
  intro p
  induction p with
  | nil => rfl
  | cons a as ih => simp [segStarts, ih]

/-- Two segment-prefixes of one path are comparable. -/
theorem segStarts_comparable : ∀ p1 p2 q : Path, segStarts p1 q = true →
    segStarts p2 q = true → segStarts p1 p2 = true ∨ segStarts p2 p1 = true := by
  intro p1
  induction p1 with
  | nil => intro p2 q _ _; left; rfl
  | cons a as ih =>
    intro p2 q h1 h2
    cases q with
    | nil => simp [segStarts] at h1
    | cons c cs =>
      cases p2 with
      | nil => right; rfl
      | cons b bs =>
        simp only [segStarts, Bool.and_eq_true, beq_iff_eq] at h1 h2
        rcases ih bs cs h1.2 h2.2 with h | h
        · left; simp [segStarts, h1.1, h2.1, h]
        · right; simp [segStarts, h1.1, h2.1, h]

/-- Cancelling a common leading directory from a segment-prefix pair. -/
theorem segStarts_append_cancel : ∀ v a b : Path,
    segStarts (v ++ a) (v ++ b) = true → segStarts a b = true := by
  intro v
  induction v with
  | nil => intro a b h; exact h
  | cons x xs ih =>
    intro a b h
    simp only [List.cons_append, segStarts, Bool.and_eq_true] at h
    exact ih a b h.2

/-- Two folders both holding a common image strictly below them: the one
not below the other is at most as deep. -/
theorem matchingKeys_le {vp ip e1 e2 : Path}
    (h1 : segStartsStrict (vp ++ e1) ip = true)
    (h2 : segStartsStrict (vp ++ e2) ip = true)
    (hno : ¬ segStarts e2 e1 = true) : e1.length ≤ e2.length := by
  simp only [segStartsStrict, Bool.and_eq_true] at h1 h2
  rcases segStarts_comparable (vp ++ e1) (vp ++ e2) ip h1.1 h2.1 with h | h
  · have := segStarts_length_le _ _ (segStarts_append_cancel vp e1 e2 h)
    exact this
  · exact absurd (segStarts_append_cancel vp e2 e1 h) hno

/-- The last entry of the map whose directory holds the image: the
reference the orphan fold effectively computes. -/
def lastMatch (vp ip : Path) : List (Path × Album) → Option (Path × Album)
  | [] => none
  | e :: rest =>
    match lastMatch vp ip rest with
    | some e' => some e'
    | none => if segStartsStrict (vp ++ e.1) ip then some e else none

/-- A produced `lastMatch` entry is a matching member of the map. -/
theorem lastMatch_mem {vp ip : Path} :
    ∀ {m : List (Path × Album)} {e : Path × Album},
      lastMatch vp ip m = some e →
      e ∈ m ∧ segStartsStrict (vp ++ e.1) ip = true := by
  intro m
  induction m with
  | nil => intro e h; simp [lastMatch] at h
  | cons a rest ih =>
    intro e h
    rw [lastMatch] at h
    rcases hr : lastMatch vp ip rest with _ | e'
    · rw [hr] at h
      by_cases hm : segStartsStrict (vp ++ a.1) ip = true
      · rw [if_pos hm] at h
        obtain rfl : a = e := by injection h
        exact ⟨List.mem_cons_self a rest, hm⟩
      · rw [if_neg hm] at h; cases h
    · rw [hr] at h
      obtain rfl : e' = e := by injection h
      obtain ⟨hmem, hmatch⟩ := ih hr
      exact ⟨List.mem_cons_of_mem a hmem, hmatch⟩

/-- `lastMatch` misses exactly when no entry matches. -/
theorem lastMatch_none {vp ip : Path} :
    ∀ {m : List (Path × Album)},
      lastMatch vp ip m = none ↔
        ∀ e ∈ m, segStartsStrict (vp ++ e.1) ip = false := by
  intro m
  induction m with
  | nil => simp [lastMatch]
  | cons a rest ih =>
    rw [lastMatch]
    rcases hr : lastMatch vp ip rest with _ | e'
    · simp only [hr]
      by_cases hm : segStartsStrict (vp ++ a.1) ip = true
      · rw [if_pos hm]
        constructor
        · intro h; cases h
        · intro h
          have hfa := h a (List.mem_cons_self a rest)
          rw [hm] at hfa; cases hfa
      · rw [if_neg hm]
        constructor
        · intro _ e he
          rcases List.mem_cons.mp he with heq | he2
          · rw [heq]; simpa using hm
          · exact (ih.mp hr) e he2
        · intro _; rfl
    · simp only [hr]
      constructor
      · intro h; cases h
      · intro h
        have hnone := ih.mpr (fun e he => h e (List.mem_cons_of_mem a he))
        rw [hr] at hnone; cases hnone

/-- From a pairwise hypothesis, any two members are equal or related one
way or the other. -/
theorem pairwise_mem_or {α : Type} {r : α → α → Prop} :
    ∀ {l : List α}, l.Pairwise r → ∀ {a b : α}, a ∈ l → b ∈ l →
      a = b ∨ r a b ∨ r b a := by
  intro l
  induction l with
  | nil => intro _ a b ha; cases ha
  | cons x xs ih =>
    intro hp a b ha hb
    obtain ⟨hx, hxs⟩ := List.pairwise_cons.mp hp
    rcases List.mem_cons.mp ha with ha1 | ha2
    · rcases List.mem_cons.mp hb with hb1 | hb2
      · exact Or.inl (ha1.trans hb1.symm)
      · exact Or.inr (Or.inl (ha1 ▸ hx b hb2))
    · rcases List.mem_cons.mp hb with hb1 | hb2
      · exact Or.inr (Or.inr (hb1 ▸ hx a ha2))
      · exact ih hxs ha2 hb2

/-- Under a descendants-never-before-ancestors map order, `lastMatch`
returns a deepest matching entry. -/
theorem lastMatch_deepest {vp ip : Path} :
    ∀ {m : List (Path × Album)},
      m.Pairwise (fun e1 e2 => ¬ (segStarts e2.1 e1.1 = true)) →
      ∀ {e' : Path × Album}, lastMatch vp ip m = some e' →
      ∀ e ∈ m, segStartsStrict (vp ++ e.1) ip = true →
        e.1.length ≤ e'.1.length := by
  intro m
  induction m with
  | nil => intro _ e' h; simp [lastMatch] at h
  | cons a rest ih =>
    intro hp e' h e he hme
    obtain ⟨hx, hxs⟩ := List.pairwise_cons.mp hp
    rw [lastMatch] at h
    rcases hr : lastMatch vp ip rest with _ | e''
    · rw [hr] at h
      by_cases hm : segStartsStrict (vp ++ a.1) ip = true
      · rw [if_pos hm] at h
        obtain rfl : a = e' := by injection h
        rcases List.mem_cons.mp he with rfl | he
        · exact le_refl _
        · have := (lastMatch_none.mp hr) e he
          rw [hme] at this; cases this
      · rw [if_neg hm] at h; cases h
    · rw [hr] at h
      have heq : e'' = e' := by injection h
      subst heq
      rcases List.mem_cons.mp he with heq2 | he2
      · obtain ⟨hmem', hmatch'⟩ := lastMatch_mem hr
        exact matchingKeys_le hme hmatch' (heq2 ▸ hx e'' hmem')
      · exact ih hxs hr e he2 hme

/-- The orphan fold computes `lastMatch` whenever the incumbent-by-id
lookup always misses (no key's joined path equals an album id) and every
key joins to a nonempty string. -/
theorem orphanMatch_eq_lastMatch (m : List (Path × Album)) (vp ip : Path)
    (hkeys : ∀ e ∈ m, 0 < (pathStr e.1).length)
    (hids : ∀ x ∈ m, ∀ e ∈ m, pathStr x.1 ≠ e.2.id) :
    orphanMatch m vp ip = (lastMatch vp ip m).map (fun e => e.2.id) := by
  have key : ∀ (m' : List (Path × Album)) (acc : Option String),
      (∀ e ∈ m', e ∈ m) →
      (acc = none ∨ ∃ e ∈ m, acc = some e.2.id) →
      m'.foldl
        (fun matched e =>
          if segStartsStrict (vp ++ e.1) ip then
            if matched.isNone
                || decide ((pathStr e.1).length >
                    (((m.find? (fun x => pathStr x.1 == matched.getD "")).map
                      (fun x => x.2.name.length)).getD 0)) then
              some e.2.id
            else matched
          else matched)
        acc
      = match lastMatch vp ip m' with
        | some e => some e.2.id
        | none => acc := by
    intro m'
    induction m' with
    | nil => intro acc _ _; simp [lastMatch]
    | cons e rest ih =>
      intro acc hsub hinv
      rw [List.foldl_cons, lastMatch]
      by_cases hm : segStartsStrict (vp ++ e.1) ip = true
      · have hstep :
            (if segStartsStrict (vp ++ e.1) ip then
              if acc.isNone
                  || decide ((pathStr e.1).length >
                      (((m.find? (fun x => pathStr x.1 == acc.getD "")).map
                        (fun x => x.2.name.length)).getD 0)) then
                some e.2.id
              else acc
            else acc) = some e.2.id := by
          rw [if_pos hm]
          rcases hinv with rfl | ⟨e0, he0, rfl⟩
          · rfl
          · have hfind : m.find? (fun x => pathStr x.1 == (some e0.2.id).getD "") = none := by
              apply List.find?_eq_none.mpr
              intro x hx
              simp only [Option.getD_some, beq_iff_eq]
              exact hids x hx e0 he0
            rw [hfind]
            have hlen := hkeys e (hsub e (List.mem_cons_self e rest))
            have : decide ((pathStr e.1).length > 0) = true := by
              simp only [decide_eq_true_eq]; omega
            simp [this]
        rw [hstep]
        rw [ih (some e.2.id) (fun x hx => hsub x (List.mem_cons_of_mem e hx))
          (Or.inr ⟨e, hsub e (List.mem_cons_self e rest), rfl⟩)]
        rcases hr : lastMatch vp ip rest with _ | e'
        · simp [hm]
        · rfl
      · have hm' : segStartsStrict (vp ++ e.1) ip = false := by
          rw [← Bool.not_eq_true]; exact hm
        rw [if_neg hm]
        rw [ih acc (fun x hx => hsub x (List.mem_cons_of_mem e hx)) hinv]
        rcases hr : lastMatch vp ip rest with _ | e'
        · simp [hm']
        · rfl
  have := key m none (fun _ he => he) (Or.inl rfl)
  rw [orphanMatch, this]
  rcases lastMatch vp ip m with _ | e
  · rfl
  · rfl

/-- The per-orphan update fold appends exactly one updateImages op per
image. -/
theorem foldl_updateImages_ops (updOf : Image → ImageUpd) :
    ∀ (l : List Image) (s : St),
      (l.foldl (fun s img => dbUpdateImages s [img.id] (updOf img)) s).ops
        = s.ops ++ l.map (fun img => DbOp.updateImages [img.id] (updOf img)) := by
  intro l
  induction l with
  | nil => intro s; simp
  | cons img rest ih =>
    intro s
    rw [List.foldl_cons, ih]
    simp [dbUpdateImages]

end FilesSorter

namespace FilesSorter

/-- Claim C3: `syncVault`'s orphan reclamation.  Provided the path-keyed
map's keys join to nonempty strings, no key's joined path collides with an
album id (so the incumbent lookup by id misses, as it does for uuid ids),
and no key is preceded by one of its descendants (the scan's preorder),
then: every snapshot image with no vault whose path starts at the vault
root receives exactly one update attaching it to
`orphanMatch`'s album (or none); a path matched by no map entry gets
none; a path matched by some entry is attached to a deepest matching
entry's album; and two matching entries of equal depth are the same entry,
so the name-length tie-break never has a tie to break. -/
theorem syncOrphans_attaches_deepest
    (vaultRecord : Vault) (vaultId : String) (existingImages : List Image)
    (m : List (Path × Album)) (s : St)
    (hkeys : ∀ e ∈ m, 0 < (pathStr e.1).length)
    (hids : ∀ x ∈ m, ∀ e ∈ m, pathStr x.1 ≠ e.2.id)
    (horder : m.Pairwise (fun e1 e2 => ¬ (segStarts e2.1 e1.1 = true))) :
    (syncOrphans vaultRecord vaultId existingImages m s).ops
      = s.ops ++ (existingImages.filter (fun img =>
          img.vaultId == none && segStarts vaultRecord.path img.path)).map
            (fun img => DbOp.updateImages [img.id]
              { vaultId := some (some vaultId)
                albumId := some (orphanMatch m vaultRecord.path img.path) })
    ∧ (∀ ip : Path, (∀ e ∈ m, segStartsStrict (vaultRecord.path ++ e.1) ip = false) →
        orphanMatch m vaultRecord.path ip = none)
    ∧ (∀ (ip : Path) (e : Path × Album), e ∈ m →
        segStartsStrict (vaultRecord.path ++ e.1) ip = true →
        ∃ e', e' ∈ m ∧ segStartsStrict (vaultRecord.path ++ e'.1) ip = true
          ∧ orphanMatch m vaultRecord.path ip = some e'.2.id
          ∧ ∀ e2 ∈ m, segStartsStrict (vaultRecord.path ++ e2.1) ip = true →
              e2.1.length ≤ e'.1.length)
    ∧ (∀ (ip : Path) (e1 e2 : Path × Album), e1 ∈ m → e2 ∈ m →
        segStartsStrict (vaultRecord.path ++ e1.1) ip = true →
        segStartsStrict (vaultRecord.path ++ e2.1) ip = true →
        e1.1.length = e2.1.length → e1 = e2) := by
  refine ⟨?_, ?_, ?_, ?_⟩
  · exact foldl_updateImages_ops
      (fun img => { vaultId := some (some vaultId)
                    albumId := some (orphanMatch m vaultRecord.path img.path) })
      (existingImages.filter (fun img =>
        img.vaultId == none && segStarts vaultRecord.path img.path)) s
  · intro ip hnone
    rw [orphanMatch_eq_lastMatch m vaultRecord.path ip hkeys hids]
    rw [lastMatch_none.mpr hnone]
    rfl
  · intro ip e he hme
    rcases hl : lastMatch vaultRecord.path ip m with _ | e'
    · have := (lastMatch_none.mp hl) e he
      rw [hme] at this; cases this
    · obtain ⟨hmem', hmatch'⟩ := lastMatch_mem hl
      refine ⟨e', hmem', hmatch', ?_, ?_⟩
      · rw [orphanMatch_eq_lastMatch m vaultRecord.path ip hkeys hids, hl]
        rfl
      · intro e2 he2 hme2
        exact lastMatch_deepest horder hl e2 he2 hme2
  · intro ip e1 e2 he1 he2 hm1 hm2 hlen
    simp only [segStartsStrict, Bool.and_eq_true, decide_eq_true_eq] at hm1 hm2
    rcases pairwise_mem_or horder he1 he2 with heq | hno | hno
    · exact heq
    · exfalso
      rcases segStarts_comparable _ _ ip hm1.1 hm2.1 with hc | hc
      · have hkey : e1.1 = e2.1 :=
          segStarts_eq_of_length _ _ (segStarts_append_cancel _ _ _ hc) hlen
        exact hno (hkey ▸ segStarts_refl e1.1)
      · exact hno (segStarts_append_cancel _ _ _ hc)
    · exfalso
      rcases segStarts_comparable _ _ ip hm2.1 hm1.1 with hc | hc
      · have hkey : e2.1 = e1.1 :=
          segStarts_eq_of_length _ _ (segStarts_append_cancel _ _ _ hc) hlen.symm
        exact hno (hkey ▸ segStarts_refl e2.1)
      · exact hno (segStarts_append_cancel _ _ _ hc)

end FilesSorter

namespace FilesSorter

/-- Albums of the C3 witness map. -/
def c3AlbumA : Album :=
  { id := "a1", name := "A", parentId := none, vaultId := "v1", order := 0 }

/-- Child album of the C3 witness map. -/
def c3AlbumB : Album :=
  { id := "b1", name := "B", parentId := some "a1", vaultId := "v1", order := 1 }

/-- Path-keyed album map of the C3 witness, ancestors first. -/
def c3M : List (Path × Album) := [(["A"], c3AlbumA), (["A", "B"], c3AlbumB)]

/-- Vault record of the C3 witness. -/
def c3V : Vault :=
  { id := "v1", path := ["V"], displayName := "V", isVisible := true, order := 0 }

/-- The orphan of the C3 witness: no vault, path under the vault root and
strictly below both albums. -/
def c3Img : Image :=
  { id := "i3", path := ["V", "A", "B", "c.jpg"], filename := "c.jpg",
    fileSize := 1, width := none, height := none, modifiedDate := "t",
    thumbnailPath := none, isSupported := true, format := "jpg",
    albumId := none, vaultId := none, status := ImgStatus.normal }

/-- State of the C3 witness. -/
def c3St : St :=
  { db := { vaults := [c3V], albums := [c3AlbumA, c3AlbumB], images := [c3Img]
            settings := { vaultFolder := none, trashHandling := TrashHandling.vault } }
    fs := FsNode.dir []
    uid := 0
    ops := []
    audit := [] }

/-- Witness for C3 at the concrete map and orphan, the three hypotheses
holding by computation. -/
theorem syncOrphans_attaches_deepest_witness :
    (syncOrphans c3V "v1" [c3Img] c3M c3St).ops
      = c3St.ops ++ ([c3Img].filter (fun img =>
          img.vaultId == none && segStarts c3V.path img.path)).map
            (fun img => DbOp.updateImages [img.id]
              { vaultId := some (some "v1")
                albumId := some (orphanMatch c3M c3V.path img.path) })
    ∧ (∀ ip : Path, (∀ e ∈ c3M, segStartsStrict (c3V.path ++ e.1) ip = false) →
        orphanMatch c3M c3V.path ip = none)
    ∧ (∀ (ip : Path) (e : Path × Album), e ∈ c3M →
        segStartsStrict (c3V.path ++ e.1) ip = true →
        ∃ e', e' ∈ c3M ∧ segStartsStrict (c3V.path ++ e'.1) ip = true
          ∧ orphanMatch c3M c3V.path ip = some e'.2.id
          ∧ ∀ e2 ∈ c3M, segStartsStrict (c3V.path ++ e2.1) ip = true →
              e2.1.length ≤ e'.1.length)
    ∧ (∀ (ip : Path) (e1 e2 : Path × Album), e1 ∈ c3M → e2 ∈ c3M →
        segStartsStrict (c3V.path ++ e1.1) ip = true →
        segStartsStrict (c3V.path ++ e2.1) ip = true →
        e1.1.length = e2.1.length → e1 = e2) :=
  syncOrphans_attaches_deepest c3V "v1" [c3Img] c3M c3St
    (by decide) (by decide) (by decide)

end FilesSorter

namespace FilesSorter

/-! ## Claim C2: sync idempotence.  First: minted uuids are distinct. -/

/-- Value of a decimal digit character. -/
def digitVal (c : Char) : Nat :=
  if c = '1' then 1 else if c = '2' then 2 else if c = '3' then 3
  else if c = '4' then 4 else if c = '5' then 5 else if c = '6' then 6
  else if c = '7' then 7 else if c = '8' then 8 else if c = '9' then 9
  else 0

/-- Horner evaluation of a decimal digit string continuing a prefix value. -/
def evalFrom (a : Nat) (l : List Char) : Nat :=
  l.foldl (fun acc c => acc * 10 + digitVal c) a

/-- Concatenation of decimal expansions on values. -/
def comb (a n : Nat) : Nat :=
  if h : n < 10 then a * 10 + n else comb a (n / 10) * 10 + n % 10
decreasing_by exact Nat.div_lt_self (by omega) (by omega)

/-- Prefixing zero digits is the identity. -/
theorem comb_zero (n : Nat) : comb 0 n = n := by
  induction n using Nat.strong_induction_on with
  | _ n ih =>
    rw [comb]
    by_cases h : n < 10
    · simp [h]
    · rw [dif_neg h, ih (n / 10) (Nat.div_lt_self (by omega) (by omega))]
      omega

/-- The digit characters decode to their values. -/
theorem digitVal_digitChar (d : Nat) (hd : d < 10) :
    digitVal (Nat.digitChar d) = d := by
  interval_cases d <;> decide

/-- The core of `Nat.repr` emits exactly the decimal expansion. -/
theorem evalFrom_toDigitsCore :
    ∀ (fuel n : Nat) (ds : List Char) (a : Nat), n < fuel →
      evalFrom a (Nat.toDigitsCore 10 fuel n ds) = evalFrom (comb a n) ds := by
  intro fuel
  induction fuel with
  | zero => intro n ds a h; omega
  | succ f ih =>
    intro n ds a h
    rw [Nat.toDigitsCore]
    by_cases h0 : n / 10 = 0
    · have hn : n < 10 := by omega
      simp only [h0, if_true]
      have : evalFrom a (Nat.digitChar (n % 10) :: ds)
          = evalFrom (a * 10 + digitVal (Nat.digitChar (n % 10))) ds := rfl
      rw [this, digitVal_digitChar (n % 10) (by omega)]
      rw [comb]
      rw [dif_pos hn]
      have : n % 10 = n := Nat.mod_eq_of_lt hn
      rw [this]
    · simp only [h0, if_false]
      have h10 : 10 ≤ n := by omega
      have hlt : n / 10 < f := by
        have h1 : n / 10 < n := Nat.div_lt_self (by omega) (by omega)
        omega
      rw [ih (n / 10) (Nat.digitChar (n % 10) :: ds) a hlt]
      have : evalFrom (comb a (n / 10)) (Nat.digitChar (n % 10) :: ds)
          = evalFrom (comb a (n / 10) * 10 + digitVal (Nat.digitChar (n % 10))) ds := rfl
      rw [this, digitVal_digitChar (n % 10) (by omega)]
      rw [show comb a n = comb a (n / 10) * 10 + n % 10 from by rw [comb]; rw [dif_neg (by omega)]]

/-- Distinct numbers print distinctly. -/
theorem nat_repr_inj (m n : Nat) (h : Nat.repr m = Nat.repr n) : m = n := by
  have hm : evalFrom 0 (Nat.toDigits 10 m) = m := by
    have := evalFrom_toDigitsCore (m + 1) m [] 0 (by omega)
    rw [Nat.toDigits]
    rw [this]
    exact comb_zero m
  have hn : evalFrom 0 (Nat.toDigits 10 n) = n := by
    have := evalFrom_toDigitsCore (n + 1) n [] 0 (by omega)
    rw [Nat.toDigits]
    rw [this]
    exact comb_zero n
  have hdata : Nat.toDigits 10 m = Nat.toDigits 10 n := congrArg String.data h
  rw [← hm, ← hn, hdata]

/-- Minted uuids are injective in the counter. -/
theorem mkUid_inj (i j : Nat) (h : mkUid i = mkUid j) : i = j := by
  have hdata : ('u' :: (Nat.repr i).data) = ('u' :: (Nat.repr j).data) :=
    congrArg String.data h
  have : (Nat.repr i).data = (Nat.repr j).data := by injection hdata
  exact nat_repr_inj i j (by
    cases hri : Nat.repr i
    cases hrj : Nat.repr j
    rw [hri, hrj] at this
    simp only [] at this
    rw [this])

end FilesSorter

namespace FilesSorter

/-- Per-entry freshness: a folder's name must be invariant under
`sanitizeFilename` (so the derived album path reproduces the folder
path); a file may carry any name. -/
def entryOk (n : String) : FsNode → Bool
  | FsNode.dir _ => sanitizeFilename n == n
  | FsNode.file _ _ => true

mutual

/-- A "fresh-start friendly" vault tree: per-directory distinct entry
names, and every folder name invariant under `sanitizeFilename`.  Files
are allowed anywhere. -/
def treeFresh : FsNode → Bool
  | FsNode.file _ _ => true
  | FsNode.dir es => treeFreshEntries es

/-- `treeFresh` of an entry list. -/
def treeFreshEntries : List (String × FsNode) → Bool
  | [] => true
  | (n, c) :: rest =>
    entryOk n c
      && !((rest.map Prod.fst).contains n)
      && treeFresh c
      && treeFreshEntries rest

end

/-- Each path's parent directory was seen before it (the `done` list grows
front-first). -/
def chainOkP : List Path → List Path → Prop
  | _, [] => True
  | done, p :: rest => p.dropLast ∈ done ∧ chainOkP (p :: done) rest

/-- `chainOkP` tolerates a larger seen-set. -/
theorem chainOkP_mono : ∀ (l : List Path) (done done' : List Path),
    (∀ x ∈ done, x ∈ done') → chainOkP done l → chainOkP done' l := by
  intro l
  induction l with
  | nil => intro _ _ _ _; trivial
  | cons p rest ih =>
    intro done done' hsub h
    exact ⟨hsub _ h.1, ih (p :: done) (p :: done')
      (by intro x hx; rcases List.mem_cons.mp hx with h1 | h2
          · exact h1 ▸ List.mem_cons_self p done'
          · exact List.mem_cons_of_mem p (hsub x h2)) h.2⟩

/-- `chainOkP` composes over append. -/
theorem chainOkP_append : ∀ (l1 l2 : List Path) (done : List Path),
    chainOkP done l1 → chainOkP (l1.reverse ++ done) l2 →
    chainOkP done (l1 ++ l2) := by
  intro l1
  induction l1 with
  | nil => intro l2 done _ h2; simpa using h2
  | cons p l1' ih =>
    intro l2 done h1 h2
    refine ⟨h1.1, ih l2 (p :: done) h1.2 ?_⟩
    have : (p :: l1').reverse ++ done = l1'.reverse ++ (p :: done) := by
      simp
    rw [this] at h2
    exact h2

end FilesSorter

namespace FilesSorter

/-- Counter advance, id freshness and order growth of the vault folder
scan: the uuid and order counters each advance by one per discovered
folder, every discovered folder carries a uuid minted in the consumed
counter window and an order in the consumed order window, the minted ids
are distinct and the orders strictly increase in traversal order. -/
theorem scanVAEntries_counts : ∀ (N : Nat) (es : List (String × FsNode)),
    sizeOf es ≤ N → ∀ (vid : String) (pid : Option String) (rel : Path) (uid ord : Nat),
      (scanVAEntries es vid pid rel uid ord).2.1
          = uid + (scanVAEntries es vid pid rel uid ord).1.length
      ∧ (scanVAEntries es vid pid rel uid ord).2.2
          = ord + (scanVAEntries es vid pid rel uid ord).1.length
      ∧ (∀ va ∈ (scanVAEntries es vid pid rel uid ord).1,
          (∃ j, uid ≤ j ∧ j < (scanVAEntries es vid pid rel uid ord).2.1
            ∧ va.id = mkUid j)
          ∧ ord ≤ va.order
          ∧ va.order < (scanVAEntries es vid pid rel uid ord).2.2)
      ∧ ((scanVAEntries es vid pid rel uid ord).1.map (fun va => va.id)).Nodup
      ∧ (scanVAEntries es vid pid rel uid ord).1.Pairwise
          (fun v1 v2 => v1.order < v2.order) := by
  intro N
  induction N with
  | zero =>
    intro es hN
    have := sizeOf_entries_pos es
    omega
  | succ N ih =>
    intro es hN vid pid rel uid ord
    cases es with
    | nil =>
      refine ⟨?_, ?_, ?_, ?_, ?_⟩ <;> simp [scanVAEntries]
    | cons e rest =>
      rcases e with ⟨name, child⟩
      have hrestN : sizeOf rest ≤ N := by
        have := sizeOf_rest_lt (name, child) rest
        omega
      by_cases hacc : scanAccept name child = true
      · cases child with
        | file sz mt => simp [scanAccept] at hacc
        | dir ces =>
          have hcesN : sizeOf ces ≤ N := by
            have := sizeOf_child_lt name ces rest
            omega
          rcases hsub : scanVAEntries ces vid (some (mkUid uid)) (rel ++ [name])
              (uid + 1) (ord + 1) with ⟨sub, uid2, ord2⟩
          rcases hrest : scanVAEntries rest vid pid rel uid2 ord2
              with ⟨restOut, uid3, ord3⟩
          have hred : scanVAEntries ((name, FsNode.dir ces) :: rest) vid pid rel uid ord
              = ({ id := mkUid uid, name := name, parentId := pid, vaultId := vid,
                   path := rel ++ [name], order := ord } :: (sub ++ restOut),
                 uid3, ord3) := by
            rw [scanVAEntries]
            simp only [hacc, if_true, scanVA, hsub, hrest]
          obtain ⟨hs1, hs2, hs3, hs4, hs5⟩ :=
            ih ces hcesN vid (some (mkUid uid)) (rel ++ [name]) (uid + 1) (ord + 1)
          rw [hsub] at hs1 hs2 hs3 hs4 hs5
          simp only [] at hs1 hs2 hs3 hs4 hs5
          obtain ⟨hr1, hr2, hr3, hr4, hr5⟩ := ih rest hrestN vid pid rel uid2 ord2
          rw [hrest] at hr1 hr2 hr3 hr4 hr5
          simp only [] at hr1 hr2 hr3 hr4 hr5
          rw [hred]
          simp only [List.length_cons, List.length_append]
          refine ⟨?_, ?_, ?_, ?_, ?_⟩
          · omega
          · omega
          · intro va hva
            rcases List.mem_cons.mp hva with heq | hva2
            · subst heq
              exact ⟨⟨uid, le_refl _, by omega, rfl⟩, by simp, by simp; omega⟩
            · rcases List.mem_append.mp hva2 with hin | hin
              · obtain ⟨⟨j, hj1, hj2, hj3⟩, ho1, ho2⟩ := hs3 va hin
                exact ⟨⟨j, by omega, by omega, hj3⟩, by omega, by omega⟩
              · obtain ⟨⟨j, hj1, hj2, hj3⟩, ho1, ho2⟩ := hr3 va hin
                exact ⟨⟨j, by omega, by omega, hj3⟩, by omega, by omega⟩
          · rw [List.map_cons, List.map_append, List.nodup_cons]
            constructor
            · intro hmem
              rcases List.mem_append.mp hmem with hin | hin
              · obtain ⟨va, hva, hid⟩ := List.mem_map.mp hin
                obtain ⟨⟨j, hj1, hj2, hj3⟩, _, _⟩ := hs3 va hva
                rw [hj3] at hid
                have := mkUid_inj uid j hid.symm
                omega
              · obtain ⟨va, hva, hid⟩ := List.mem_map.mp hin
                obtain ⟨⟨j, hj1, hj2, hj3⟩, _, _⟩ := hr3 va hva
                rw [hj3] at hid
                have := mkUid_inj uid j hid.symm
                omega
            · refine List.Nodup.append hs4 hr4 ?_
              intro x hx1 hx2
              obtain ⟨va1, hva1, hid1⟩ := List.mem_map.mp hx1
              obtain ⟨va2, hva2, hid2⟩ := List.mem_map.mp hx2
              obtain ⟨⟨j1, ha1, ha2, ha3⟩, _, _⟩ := hs3 va1 hva1
              obtain ⟨⟨j2, hb1, hb2, hb3⟩, _, _⟩ := hr3 va2 hva2
              rw [← hid1] at hid2
              rw [ha3, hb3] at hid2
              have := mkUid_inj j2 j1 hid2
              omega
          · rw [List.pairwise_cons]
            constructor
            · intro va hva
              rcases List.mem_append.mp hva with hin | hin
              · obtain ⟨_, ho1, _⟩ := hs3 va hin
                simp only []
                omega
              · obtain ⟨_, ho1, _⟩ := hr3 va hin
                simp only []
                omega
            · rw [List.pairwise_append]
              refine ⟨hs5, hr5, ?_⟩
              intro v1 hv1 v2 hv2
              obtain ⟨_, _, hu2⟩ := hs3 v1 hv1
              obtain ⟨_, hl2, _⟩ := hr3 v2 hv2
              omega
      · have hacc2 : scanAccept name child = false := by
          rw [Bool.not_eq_true] at hacc; exact hacc
        have hred : scanVAEntries ((name, child) :: rest) vid pid rel uid ord
            = scanVAEntries rest vid pid rel uid ord := by
          rw [scanVAEntries]
          simp only [hacc2, Bool.false_eq_true, if_false]
        rw [hred]
        exact ih rest hrestN vid pid rel uid ord

end FilesSorter

namespace FilesSorter

/-- Resolving below a directory's first entry. -/
theorem lookupFs_cons_head (name : String) (c : FsNode)
    (rest : List (String × FsNode)) (q : Path) :
    lookupFs (FsNode.dir ((name, c) :: rest)) (name :: q) = lookupFs c q := by
  rw [lookupFs]
  simp [findEntry, List.find?_cons]

/-- Resolving below a directory skips entries of other names. -/
theorem lookupFs_cons_ne (name : String) (c : FsNode)
    (rest : List (String × FsNode)) (n' : String) (q : Path) (h : n' ≠ name) :
    lookupFs (FsNode.dir ((name, c) :: rest)) (n' :: q)
      = lookupFs (FsNode.dir rest) (n' :: q) := by
  rw [lookupFs, lookupFs]
  have : ((name, c).1 == n') = false := by
    simp only [beq_eq_false_iff_ne]
    exact fun hc => h hc.symm
  simp [findEntry, List.find?_cons, this]

end FilesSorter

namespace FilesSorter

/-- Path facts of the vault folder scan over a fresh tree: every
discovered folder's path ends in its (sanitize-invariant) name, starts at
the scan root with a first segment naming a root entry, resolves to a
fresh subdirectory of the scanned tree; the discovered paths are distinct;
and every discovered path is preceded by its parent (preorder). -/
theorem scanVAEntries_paths : ∀ (N : Nat) (es : List (String × FsNode)),
    sizeOf es ≤ N → ∀ (vid : String) (pid : Option String) (rel : Path) (uid ord : Nat),
      treeFreshEntries es = true →
      (∀ va ∈ (scanVAEntries es vid pid rel uid ord).1,
          va.path = va.path.dropLast ++ [va.name]
          ∧ sanitizeFilename va.name = va.name
          ∧ (∃ n' q, va.path = rel ++ (n' :: q) ∧ n' ∈ es.map Prod.fst)
          ∧ (∃ q es2, va.path = rel ++ q
              ∧ lookupFs (FsNode.dir es) q = some (FsNode.dir es2)
              ∧ treeFreshEntries es2 = true))
      ∧ ((scanVAEntries es vid pid rel uid ord).1.map (fun va => va.path)).Nodup
      ∧ (∀ done, rel ∈ done →
          chainOkP done ((scanVAEntries es vid pid rel uid ord).1.map (fun va => va.path))) := by
  intro N
  induction N with
  | zero =>
    intro es hN
    have := sizeOf_entries_pos es
    omega
  | succ N ih =>
    intro es hN vid pid rel uid ord hf
    cases es with
    | nil =>
      refine ⟨?_, ?_, ?_⟩ <;> simp [scanVAEntries, chainOkP]
    | cons e rest =>
      rcases e with ⟨name, child⟩
      have hrestN : sizeOf rest ≤ N := by
        have := sizeOf_rest_lt (name, child) rest
        omega
      rw [treeFreshEntries] at hf
      simp only [Bool.and_eq_true, Bool.not_eq_true'] at hf
      obtain ⟨⟨⟨hf1, hf2⟩, hf3⟩, hf4⟩ := hf
      have hnmem : name ∉ rest.map Prod.fst := by
        intro hmem
        have : (rest.map Prod.fst).contains name = true := by
          simpa using hmem
        rw [hf2] at this
        cases this
      by_cases hacc : scanAccept name child = true
      · cases child with
        | file sz mt => simp [scanAccept] at hacc
        | dir ces =>
          have hcesN : sizeOf ces ≤ N := by
            have := sizeOf_child_lt name ces rest
            omega
          have hfces : treeFreshEntries ces = true := by
            rw [treeFresh] at hf3; exact hf3
          have hf1' : sanitizeFilename name = name := by
            rw [entryOk] at hf1
            exact beq_iff_eq.mp hf1
          rcases hsub : scanVAEntries ces vid (some (mkUid uid)) (rel ++ [name])
              (uid + 1) (ord + 1) with ⟨sub, uid2, ord2⟩
          rcases hrest : scanVAEntries rest vid pid rel uid2 ord2
              with ⟨restOut, uid3, ord3⟩
          have hred : scanVAEntries ((name, FsNode.dir ces) :: rest) vid pid rel uid ord
              = ({ id := mkUid uid, name := name, parentId := pid, vaultId := vid,
                   path := rel ++ [name], order := ord } :: (sub ++ restOut),
                 uid3, ord3) := by
            rw [scanVAEntries]
            simp only [hacc, if_true, scanVA, hsub, hrest]
          obtain ⟨hsA, hsB, hsC⟩ :=
            ih ces hcesN vid (some (mkUid uid)) (rel ++ [name]) (uid + 1) (ord + 1) hfces
          rw [hsub] at hsA hsB hsC
          simp only [] at hsA hsB hsC
          obtain ⟨hrA, hrB, hrC⟩ := ih rest hrestN vid pid rel uid2 ord2 hf4
          rw [hrest] at hrA hrB hrC
          simp only [] at hrA hrB hrC
          rw [hred]
          have hsubform : ∀ va ∈ sub, ∃ n2 q2, va.path = rel ++ (name :: n2 :: q2) := by
            intro va hva
            obtain ⟨n', nq, hq, _⟩ := (hsA va hva).2.2.1
            exact ⟨n', nq, by rw [hq]; simp⟩
          refine ⟨?_, ?_, ?_⟩
          · intro va hva
            rcases List.mem_cons.mp hva with heq | hva2
            · subst heq
              refine ⟨?_, ?_, ?_, ?_⟩
              · simp
              · exact hf1'
              · exact ⟨name, [], rfl, by simp⟩
              · refine ⟨[name], ces, rfl, ?_, hfces⟩
                rw [lookupFs_cons_head]
                rfl
            · rcases List.mem_append.mp hva2 with hin | hin
              · obtain ⟨p1, p2, ⟨n', nq, hq, _⟩, ⟨q, es2, hq2, hlk, hfr⟩⟩ := hsA va hin
                refine ⟨p1, p2, ?_, ?_⟩
                · exact ⟨name, n' :: nq, by rw [hq]; simp, by simp⟩
                · refine ⟨name :: q, es2, by rw [hq2]; simp, ?_, hfr⟩
                  rw [lookupFs_cons_head]
                  exact hlk
              · obtain ⟨p1, p2, ⟨n', q, hq, hn'⟩, ⟨q2, es2, hq2, hlk, hfr⟩⟩ := hrA va hin
                have hn'ne : n' ≠ name := by
                  intro hc; rw [hc] at hn'; exact hnmem hn'
                refine ⟨p1, p2, ?_, ?_⟩
                · exact ⟨n', q, hq, List.mem_cons_of_mem name hn'⟩
                · have hq2form : q2 = n' :: q := by
                    rw [hq2] at hq
                    exact List.append_cancel_left hq
                  refine ⟨q2, es2, hq2, ?_, hfr⟩
                  rw [hq2form]
                  rw [hq2form] at hlk
                  rw [lookupFs_cons_ne name (FsNode.dir ces) rest n' q hn'ne]
                  exact hlk
          · rw [List.map_cons, List.map_append, List.nodup_cons]
            constructor
            · intro hmem
              rcases List.mem_append.mp hmem with hin | hin
              · obtain ⟨va, hva, hid⟩ := List.mem_map.mp hin
                obtain ⟨n2, q2, hq1⟩ := hsubform va hva
                rw [hq1] at hid
                have hid2 : rel ++ (name :: n2 :: q2) = rel ++ [name] := hid
                have := congrArg List.length hid2
                simp only [List.length_append, List.length_cons, List.length_nil] at this
                omega
              · obtain ⟨va, hva, hid⟩ := List.mem_map.mp hin
                obtain ⟨n', q, hq, hn'⟩ := (hrA va hva).2.2.1
                rw [hq] at hid
                have : ([name] : List String) = n' :: q := List.append_cancel_left hid.symm
                have hn'eq : n' = name := by injection this with h1 _; exact h1.symm
                rw [hn'eq] at hn'
                exact hnmem hn'
            · refine List.Nodup.append hsB hrB ?_
              intro x hx1 hx2
              obtain ⟨va1, hva1, hid1⟩ := List.mem_map.mp hx1
              obtain ⟨va2, hva2, hid2⟩ := List.mem_map.mp hx2
              obtain ⟨n2, q2x, hq1⟩ := hsubform va1 hva1
              obtain ⟨n', q, hq, hn'⟩ := (hrA va2 hva2).2.2.1
              rw [← hid1] at hid2
              rw [hq1] at hid2
              rw [hq] at hid2
              have : (name :: n2 :: q2x : List String) = n' :: q := List.append_cancel_left hid2.symm
              have hn'eq : n' = name := by injection this with h1 _; exact h1.symm
              rw [hn'eq] at hn'
              exact hnmem hn'
          · intro done hrel
            rw [List.map_cons, List.map_append]
            refine ⟨?_, ?_⟩
            · simp only []
              rw [List.dropLast_concat]
              exact hrel
            · refine chainOkP_append _ _ _ ?_ ?_
              · exact hsC ((rel ++ [name]) :: done) (List.mem_cons_self _ _)
              · refine hrC _ ?_
                refine List.mem_append_right _ ?_
                exact List.mem_cons_of_mem _ hrel
      · have hacc2 : scanAccept name child = false := by
          rw [Bool.not_eq_true] at hacc; exact hacc
        have hred : scanVAEntries ((name, child) :: rest) vid pid rel uid ord
            = scanVAEntries rest vid pid rel uid ord := by
          rw [scanVAEntries]
          simp only [hacc2, Bool.false_eq_true, if_false]
        rw [hred]
        obtain ⟨hrA, hrB, hrC⟩ := ih rest hrestN vid pid rel uid ord hf4
        refine ⟨?_, hrB, hrC⟩
        intro va hva
        obtain ⟨p1, p2, ⟨n', q, hq, hn'⟩, ⟨q2, es2, hq2, hlk, hfr⟩⟩ := hrA va hva
        have hn'ne : n' ≠ name := by
          intro hc; rw [hc] at hn'; exact hnmem hn'
        refine ⟨p1, p2, ⟨n', q, hq, List.mem_cons_of_mem name hn'⟩, ?_⟩
        have hq2form : q2 = n' :: q := by
          rw [hq2] at hq
          exact List.append_cancel_left hq
        refine ⟨q2, es2, hq2, ?_, hfr⟩
        rw [hq2form]
        rw [hq2form] at hlk
        rw [lookupFs_cons_ne name child rest n' q hn'ne]
        exact hlk

end FilesSorter

namespace FilesSorter

/-- `Forall₂` distributes over appends of matched pairs. -/
theorem forall₂_append_pair {α β : Type} {R : α → β → Prop} :
    ∀ {l1 : List α} {l2 : List β} {l3 : List α} {l4 : List β},
      List.Forall₂ R l1 l2 → List.Forall₂ R l3 l4 →
      List.Forall₂ R (l1 ++ l3) (l2 ++ l4) := by
  intro l1 l2 l3 l4 h1 h2
  induction h1 with
  | nil => exact h2
  | cons hab _ ih => exact List.Forall₂.cons hab ih

/-- Two scans of the same tree from the same root and order counter agree
on the discovered folders' paths, names and orders, whatever the uuid
counter and parent id (uuids are the only run-dependent output). -/
theorem scanVAEntries_align : ∀ (N : Nat) (es : List (String × FsNode)),
    sizeOf es ≤ N → ∀ (vid : String) (pid pid' : Option String) (rel : Path)
      (uid uid' ord : Nat),
      List.Forall₂
        (fun va1 va2 => va1.path = va2.path ∧ va1.name = va2.name
          ∧ va1.order = va2.order)
        (scanVAEntries es vid pid rel uid ord).1
        (scanVAEntries es vid pid' rel uid' ord).1 := by
  intro N
  induction N with
  | zero =>
    intro es hN
    have := sizeOf_entries_pos es
    omega
  | succ N ih =>
    intro es hN vid pid pid' rel uid uid' ord
    cases es with
    | nil => simp [scanVAEntries]
    | cons e rest =>
      rcases e with ⟨name, child⟩
      have hrestN : sizeOf rest ≤ N := by
        have := sizeOf_rest_lt (name, child) rest
        omega
      by_cases hacc : scanAccept name child = true
      · cases child with
        | file sz mt => simp [scanAccept] at hacc
        | dir ces =>
          have hcesN : sizeOf ces ≤ N := by
            have := sizeOf_child_lt name ces rest
            omega
          rcases hsub : scanVAEntries ces vid (some (mkUid uid)) (rel ++ [name])
              (uid + 1) (ord + 1) with ⟨sub, uid2, ord2⟩
          rcases hsub' : scanVAEntries ces vid (some (mkUid uid')) (rel ++ [name])
              (uid' + 1) (ord + 1) with ⟨sub', uid2', ord2'⟩
          rcases hrest : scanVAEntries rest vid pid rel uid2 ord2
              with ⟨restOut, uid3, ord3⟩
          rcases hrest' : scanVAEntries rest vid pid' rel uid2' ord2'
              with ⟨restOut', uid3', ord3'⟩
          have hred : scanVAEntries ((name, FsNode.dir ces) :: rest) vid pid rel uid ord
              = ({ id := mkUid uid, name := name, parentId := pid, vaultId := vid,
                   path := rel ++ [name], order := ord } :: (sub ++ restOut),
                 uid3, ord3) := by
            rw [scanVAEntries]
            simp only [hacc, if_true, scanVA, hsub, hrest]
          have hred' : scanVAEntries ((name, FsNode.dir ces) :: rest) vid pid' rel uid' ord
              = ({ id := mkUid uid', name := name, parentId := pid', vaultId := vid,
                   path := rel ++ [name], order := ord } :: (sub' ++ restOut'),
                 uid3', ord3') := by
            rw [scanVAEntries]
            simp only [hacc, if_true, scanVA, hsub', hrest']
          rw [hred, hred']
          have hsubal := ih ces hcesN vid (some (mkUid uid)) (some (mkUid uid'))
            (rel ++ [name]) (uid + 1) (uid' + 1) (ord + 1)
          rw [hsub, hsub'] at hsubal
          simp only [] at hsubal
          have hlen : sub.length = sub'.length := hsubal.length_eq
          have hc1 := (scanVAEntries_counts (sizeOf ces) ces (le_refl _) vid
            (some (mkUid uid)) (rel ++ [name]) (uid + 1) (ord + 1)).2.1
          rw [hsub] at hc1
          simp only [] at hc1
          have hc2 := (scanVAEntries_counts (sizeOf ces) ces (le_refl _) vid
            (some (mkUid uid')) (rel ++ [name]) (uid' + 1) (ord + 1)).2.1
          rw [hsub'] at hc2
          simp only [] at hc2
          have hord : ord2 = ord2' := by rw [hc1, hc2, hlen]
          have hrestal := ih rest hrestN vid pid pid' rel uid2 uid2' ord2
          rw [hrest] at hrestal
          rw [hord] at hrestal
          rw [hrest'] at hrestal
          simp only [] at hrestal
          exact List.Forall₂.cons ⟨rfl, rfl, rfl⟩ (forall₂_append_pair hsubal hrestal)
      · have hacc2 : scanAccept name child = false := by
          rw [Bool.not_eq_true] at hacc; exact hacc
        have hred : scanVAEntries ((name, child) :: rest) vid pid rel uid ord
            = scanVAEntries rest vid pid rel uid ord := by
          rw [scanVAEntries]
          simp only [hacc2, Bool.false_eq_true, if_false]
        have hred' : scanVAEntries ((name, child) :: rest) vid pid' rel uid' ord
            = scanVAEntries rest vid pid' rel uid' ord := by
          rw [scanVAEntries]
          simp only [hacc2, Bool.false_eq_true, if_false]
        rw [hred, hred']
        exact ih rest hrestN vid pid pid' rel uid uid' ord

end FilesSorter

namespace FilesSorter

/-- A hit of the path-keyed map is a member keyed by the queried path. -/
theorem alGet_mem {m : List (Path × Album)} {k : Path} {a : Album}
    (h : alGet m k = some a) : (k, a) ∈ m := by
  rw [alGet] at h
  rcases hf : m.find? (fun e => e.1 == k) with _ | e
  · rw [hf] at h; cases h
  · rw [hf] at h
    have hkey := List.find?_some hf
    have hmem : e ∈ m := List.mem_of_find?_eq_some hf
    have hk : e.1 = k := by simpa using hkey
    have ha : a = e.2 := by
      have h2 : some e.2 = some a := h
      injection h2 with h3
      exact h3.symm
    rw [ha, ← hk]
    exact hmem

/-- A present key is found. -/
theorem alGet_some_of_key {m : List (Path × Album)} {k : Path}
    (h : k ∈ m.map Prod.fst) : ∃ a, alGet m k = some a := by
  induction m with
  | nil => simp at h
  | cons e rest ih =>
    rw [alGet]
    by_cases hk : (e.1 == k) = true
    · exact ⟨e.2, by rw [List.find?_cons, hk]; rfl⟩
    · have hk2 : (e.1 == k) = false := by rw [Bool.not_eq_true] at hk; exact hk
      rw [List.map_cons] at h
      rcases List.mem_cons.mp h with heq | hmem
      · rw [heq] at hk2; simp at hk2
      · obtain ⟨a, ha⟩ := ih hmem
        refine ⟨a, ?_⟩
        rw [List.find?_cons, hk2]
        rw [alGet] at ha
        exact ha

/-- With distinct keys the found value is the member's. -/
theorem alGet_of_mem_nodup {m : List (Path × Album)} {k : Path} {a : Album}
    (hnd : (m.map Prod.fst).Nodup) (h : (k, a) ∈ m) : alGet m k = some a := by
  induction m with
  | nil => cases h
  | cons e rest ih =>
    rw [List.map_cons, List.nodup_cons] at hnd
    rcases List.mem_cons.mp h with heq | hmem
    · rw [← heq]
      rw [alGet, List.find?_cons]
      simp
    · have hk2 : (e.1 == k) = false := by
        simp only [beq_eq_false_iff_ne]
        intro hc
        exact hnd.1 (hc ▸ (List.mem_map.mpr ⟨(k, a), hmem, rfl⟩))
      rw [alGet, List.find?_cons, hk2]
      rw [← alGet]
      exact ih hnd.2 hmem

/-- Setting a fresh key appends. -/
theorem alSet_fresh {m : List (Path × Album)} {k : Path} (v : Album)
    (h : k ∉ m.map Prod.fst) : alSet m k v = m ++ [(k, v)] := by
  rw [alSet]
  have : m.any (fun e => e.1 == k) = false := by
    rw [← Bool.not_eq_true, List.any_eq_true]
    rintro ⟨e, he, hk⟩
    exact h (List.mem_map.mpr ⟨e, he, by simpa using hk⟩)
  rw [this]
  simp

/-- Mapped images of aligned lists agree. -/
theorem forall₂_map_eq {α β γ : Type} {R : α → β → Prop}
    (f : α → γ) (g : β → γ) (hfg : ∀ a b, R a b → f a = g b) :
    ∀ {l1 : List α} {l2 : List β}, List.Forall₂ R l1 l2 →
      l1.map f = l2.map g := by
  intro l1 l2 h
  induction h with
  | nil => rfl
  | cons hab _ ih => simp only [List.map_cons, ih, hfg _ _ hab]

/-- Structural facts of the album map built by `syncVault`, entry by
entry: each key ends in the entry's sanitized album name, the album
belongs to the synced vault, a root key's album has no parent, a deeper
key's album is linked to an album keyed by its parent directory among the
earlier entries, and key depth grows at most one per entry. -/
def albumFacts (vid : String) : List (Path × Album) → List (Path × Album) → Prop
  | _, [] => True
  | prev, ka :: rest =>
      (ka.1 = ka.1.dropLast ++ [sanitizeFilename ka.2.name]
       ∧ ka.2.vaultId = vid
       ∧ ka.1.length ≤ prev.length + 1
       ∧ (ka.1.length ≤ 1 → ka.2.parentId = none)
       ∧ (2 ≤ ka.1.length → ∃ a', (ka.1.dropLast, a') ∈ prev
            ∧ ka.2.parentId = some a'.id))
      ∧ albumFacts vid (prev ++ [ka]) rest

/-- Per-member consequences of `albumFacts`. -/
theorem albumFacts_mem {vid : String} :
    ∀ {mrest prev : List (Path × Album)}, albumFacts vid prev mrest →
      ∀ ka ∈ mrest,
        ka.1 = ka.1.dropLast ++ [sanitizeFilename ka.2.name]
        ∧ ka.2.vaultId = vid
        ∧ ka.1.length ≤ prev.length + mrest.length
        ∧ (ka.1.length ≤ 1 → ka.2.parentId = none)
        ∧ (2 ≤ ka.1.length → ∃ a', (ka.1.dropLast, a') ∈ prev ++ mrest
             ∧ ka.2.parentId = some a'.id) := by
  intro mrest
  induction mrest with
  | nil => intro prev _ ka hka; cases hka
  | cons e rest ih =>
    intro prev h ka hka
    obtain ⟨he, hrest⟩ := h
    rcases List.mem_cons.mp hka with heq | hmem
    · subst heq
      refine ⟨he.1, he.2.1, by simp; omega, he.2.2.2.1, ?_⟩
      intro h2
      obtain ⟨a', ha1, ha2⟩ := he.2.2.2.2 h2
      exact ⟨a', List.mem_append_left _ ha1, ha2⟩
    · obtain ⟨h1, h2, h3, h4, h5⟩ := ih hrest ka hmem
      refine ⟨h1, h2, by simp at h3 ⊢; omega, h4, ?_⟩
      intro hl
      obtain ⟨a', ha1, ha2⟩ := h5 hl
      refine ⟨a', ?_, ha2⟩
      rcases List.mem_append.mp ha1 with hin | hin
      · rcases List.mem_append.mp hin with hin2 | hin2
        · exact List.mem_append_left _ hin2
        · exact List.mem_append_right _ (by
            rcases List.mem_singleton.mp hin2 with rfl
            exact List.mem_cons_self _ _)
      · exact List.mem_append_right _ (List.mem_cons_of_mem _ hin)

end FilesSorter

namespace FilesSorter

/-- The album `syncBuild` constructs for one scanned folder. -/
def buildAlbum (pathToExisting : List (Path × Album)) (vaultId : String)
    (va : VaultAlbum) (m : List (Path × Album)) : Album :=
  { id := match alGet pathToExisting va.path with
      | some e => e.id
      | none => va.id
    name := va.name
    parentId := (if va.path.length ≤ 1 then none
      else alGet m va.path.dropLast).map (fun a => a.id)
    vaultId := vaultId
    order := va.order }

/-- One step of the album-construction loop. -/
theorem syncBuild_cons (pe : List (Path × Album)) (vid : String)
    (va : VaultAlbum) (rest : List VaultAlbum) (acc : List Album)
    (m : List (Path × Album)) :
    syncBuild pe vid (va :: rest) acc m
      = syncBuild pe vid rest (acc ++ [buildAlbum pe vid va m])
          (alSet m va.path (buildAlbum pe vid va m)) := rfl

/-- The first sync's album construction from an empty album table: every
scanned folder becomes a fresh album keyed by its scan path, reusing the
scan's minted id, name and order, linked to the album of its parent
directory, and the built map satisfies the structural `albumFacts`. -/
theorem syncBuild_run1 : ∀ (vas : List VaultAlbum) (vid : String)
    (mdone : List (Path × Album)),
    (∀ va ∈ vas, va.path = va.path.dropLast ++ [va.name]
        ∧ sanitizeFilename va.name = va.name) →
    chainOkP ((mdone.map Prod.fst).reverse ++ [([] : Path)])
      (vas.map (fun va => va.path)) →
    ((mdone.map Prod.fst) ++ vas.map (fun va => va.path)).Nodup →
    (∀ ka ∈ mdone, ka.1.length ≤ mdone.length) →
    ∃ mnew,
      syncBuild [] vid vas (mdone.map Prod.snd) mdone
        = ((mdone ++ mnew).map Prod.snd, mdone ++ mnew)
      ∧ mnew.map Prod.fst = vas.map (fun va => va.path)
      ∧ List.Forall₂ (fun va (ka : Path × Album) =>
          ka.1 = va.path ∧ ka.2.id = va.id ∧ ka.2.name = va.name
            ∧ ka.2.order = va.order ∧ ka.2.vaultId = vid) vas mnew
      ∧ albumFacts vid mdone mnew := by
  intro vas
  induction vas with
  | nil =>
    intro vid mdone _ _ _ _
    refine ⟨[], ?_, rfl, List.Forall₂.nil, trivial⟩
    rw [syncBuild]
    simp
  | cons va rest ih =>
    intro vid mdone hA hchain hnodup hL
    rw [List.map_cons] at hchain hnodup
    obtain ⟨hpar, hch'⟩ := hchain
    have hAh := hA va (List.mem_cons_self va rest)
    have hAt : ∀ v ∈ rest, v.path = v.path.dropLast ++ [v.name]
        ∧ sanitizeFilename v.name = v.name :=
      fun v hv => hA v (List.mem_cons_of_mem va hv)
    have hplen : va.path.length = va.path.dropLast.length + 1 := by
      have := congrArg List.length hAh.1
      simp only [List.length_append, List.length_cons, List.length_nil] at this
      omega
    have hnotin : va.path ∉ mdone.map Prod.fst := by
      have hdisj := List.disjoint_of_nodup_append hnodup
      exact fun hc => hdisj hc (List.mem_cons_self _ _)
    have halset : alSet mdone va.path (buildAlbum [] vid va mdone)
        = mdone ++ [(va.path, buildAlbum [] vid va mdone)] :=
      alSet_fresh _ hnotin
    have hid : (buildAlbum [] vid va mdone).id = va.id := rfl
    have hfacts : (va.path.length ≤ 1 → (buildAlbum [] vid va mdone).parentId = none)
        ∧ (2 ≤ va.path.length → ∃ a', (va.path.dropLast, a') ∈ mdone
            ∧ (buildAlbum [] vid va mdone).parentId = some a'.id)
        ∧ va.path.length ≤ mdone.length + 1 := by
      by_cases hlen : va.path.length ≤ 1
      · refine ⟨fun _ => ?_, fun h2 => by omega, by omega⟩
        simp [buildAlbum, if_pos hlen]
      · have hdlne : va.path.dropLast ≠ ([] : Path) := by
          intro hc
          rw [hc] at hplen
          simp at hplen
          omega
        have hmemk : va.path.dropLast ∈ mdone.map Prod.fst := by
          rcases List.mem_append.mp hpar with hin | hin
          · exact List.mem_reverse.mp hin
          · exact absurd (List.mem_singleton.mp hin) hdlne
        obtain ⟨a', ha'⟩ := alGet_some_of_key hmemk
        have hmem' : (va.path.dropLast, a') ∈ mdone := alGet_mem ha'
        refine ⟨fun h1 => by omega, fun _ => ⟨a', hmem', ?_⟩, ?_⟩
        · simp [buildAlbum, if_neg hlen, ha']
        · have := hL _ hmem'
          simp only [] at this
          omega
    obtain ⟨hp1, hp2, hp3⟩ := hfacts
    have hchain2 : chainOkP
        (((mdone ++ [(va.path, buildAlbum [] vid va mdone)]).map Prod.fst).reverse
          ++ [([] : Path)]) (rest.map (fun v => v.path)) := by
      have heq : ((mdone ++ [(va.path, buildAlbum [] vid va mdone)]).map Prod.fst).reverse
          ++ [([] : Path)]
          = va.path :: ((mdone.map Prod.fst).reverse ++ [([] : Path)]) := by
        simp
      rw [heq]
      exact hch'
    have hnodup2 : (((mdone ++ [(va.path, buildAlbum [] vid va mdone)]).map Prod.fst)
        ++ rest.map (fun v => v.path)).Nodup := by
      have heq : ((mdone ++ [(va.path, buildAlbum [] vid va mdone)]).map Prod.fst)
          ++ rest.map (fun v => v.path)
          = mdone.map Prod.fst ++ (va.path :: rest.map (fun v => v.path)) := by
        simp
      rw [heq]
      exact hnodup
    have hL2 : ∀ ka ∈ mdone ++ [(va.path, buildAlbum [] vid va mdone)],
        ka.1.length ≤ (mdone ++ [(va.path, buildAlbum [] vid va mdone)]).length := by
      intro ka hka
      rcases List.mem_append.mp hka with hin | hin
      · have := hL ka hin
        simp only [List.length_append, List.length_cons, List.length_nil]
        omega
      · have heq2 := List.mem_singleton.mp hin
        have hk1 : ka.1 = va.path := by rw [heq2]
        rw [hk1]
        simp only [List.length_append, List.length_cons, List.length_nil]
        omega
    obtain ⟨mnew', hrun, hkeys', hfa', halb'⟩ :=
      ih vid (mdone ++ [(va.path, buildAlbum [] vid va mdone)]) hAt hchain2 hnodup2 hL2
    refine ⟨(va.path, buildAlbum [] vid va mdone) :: mnew', ?_, ?_, ?_, ?_⟩
    · rw [syncBuild_cons, halset]
      have haccm : mdone.map Prod.snd ++ [buildAlbum [] vid va mdone]
          = (mdone ++ [(va.path, buildAlbum [] vid va mdone)]).map Prod.snd := by simp
      rw [haccm, hrun]
      simp
    · simp [hkeys']
    · exact List.Forall₂.cons ⟨rfl, rfl, rfl, rfl, rfl⟩ hfa'
    · have hname : sanitizeFilename (buildAlbum [] vid va mdone).name = va.name := hAh.2
      refine ⟨⟨?_, rfl, hp3, hp1, hp2⟩, halb'⟩
      rw [hname]
      exact hAh.1

end FilesSorter

namespace FilesSorter

/-- Find-by-id retrieves the member itself when ids are distinct. -/
theorem find_by_id_of_nodup : ∀ (albums : List Album),
    (albums.map (fun a => a.id)).Nodup → ∀ a ∈ albums,
      albums.find? (fun p => p.id == a.id) = some a := by
  intro albums
  induction albums with
  | nil => intro _ a ha; cases ha
  | cons b rest ih =>
    intro hnd a ha
    rw [List.map_cons, List.nodup_cons] at hnd
    rw [List.find?_cons]
    by_cases hb : (b.id == a.id) = true
    · rw [hb]
      rcases List.mem_cons.mp ha with heq | hmem
      · rw [heq]
      · exfalso
        have : a.id ∈ rest.map (fun a => a.id) := List.mem_map.mpr ⟨a, hmem, rfl⟩
        have hbid : b.id = a.id := by simpa using hb
        exact hnd.1 (hbid ▸ this)
    · have hb2 : (b.id == a.id) = false := by rw [Bool.not_eq_true] at hb; exact hb
      rw [hb2]
      rcases List.mem_cons.mp ha with heq | hmem
      · exfalso; rw [heq] at hb2; simp at hb2
      · exact ih hnd.2 a hmem

/-- The derived path of an album of the built map is its key: the parent
chain reconstructs the scan path segment by segment. -/
theorem getAlbumPath_of_albumFacts (vid : String) (m : List (Path × Album))
    (hfa : albumFacts vid [] m)
    (hids : (m.map (fun ka => ka.2.id)).Nodup) :
    ∀ (fuel : Nat) (k : Path) (a : Album), (k, a) ∈ m → k.length ≤ fuel →
      getAlbumPath (m.map Prod.snd) fuel a = k := by
  intro fuel
  induction fuel with
  | zero =>
    intro k a hmem hlen
    obtain ⟨h1, _, _, _, _⟩ := albumFacts_mem hfa (k, a) hmem
    have h1' : k = k.dropLast ++ [sanitizeFilename a.name] := h1
    have := congrArg List.length h1'
    simp only [List.length_append, List.length_cons, List.length_nil] at this
    omega
  | succ f ihf =>
    intro k a hmem hlen
    obtain ⟨h1, _, _, h4, h5⟩ := albumFacts_mem hfa (k, a) hmem
    have h1' : k = k.dropLast ++ [sanitizeFilename a.name] := h1
    have h4' : k.length ≤ 1 → a.parentId = none := h4
    have h5' : 2 ≤ k.length → ∃ a', (k.dropLast, a') ∈ ([] : List (Path × Album)) ++ m
        ∧ a.parentId = some a'.id := h5
    have hklen : k.length = k.dropLast.length + 1 := by
      have := congrArg List.length h1'
      simp only [List.length_append, List.length_cons, List.length_nil] at this
      omega
    by_cases hk1 : k.length ≤ 1
    · have hpn : a.parentId = none := h4' hk1
      rw [getAlbumPath]
      rw [hpn]
      have hdl : k.dropLast = [] := by
        have : k.dropLast.length = 0 := by omega
        exact List.length_eq_zero.mp this
      show [sanitizeFilename a.name] = k
      rw [show k = k.dropLast ++ [sanitizeFilename a.name] from h1']
      rw [hdl]
      rfl
    · obtain ⟨a', ha'mem, ha'pid⟩ := h5' (by omega)
      simp only [List.nil_append] at ha'mem
      have ha'alb : a' ∈ m.map Prod.snd :=
        List.mem_map.mpr ⟨(k.dropLast, a'), ha'mem, rfl⟩
      have hfind : (m.map Prod.snd).find? (fun p => p.id == a'.id) = some a' := by
        refine find_by_id_of_nodup (m.map Prod.snd) ?_ a' ha'alb
        have : (m.map Prod.snd).map (fun a => a.id)
            = m.map (fun ka => ka.2.id) := by
          rw [List.map_map]
          rfl
        rw [this]
        exact hids
      rw [getAlbumPath]
      simp only [ha'pid, hfind]
      have hrec : getAlbumPath (m.map Prod.snd) f a' = k.dropLast :=
        ihf k.dropLast a' ha'mem (by omega)
      rw [hrec]
      exact h1'.symm

/-- Mapping an identity-on-members function changes nothing. -/
theorem map_id_of {α : Type} (f : α → α) :
    ∀ l : List α, (∀ x ∈ l, f x = x) → l.map f = l := by
  intro l
  induction l with
  | nil => intro _; rfl
  | cons x xs ih =>
    intro h
    rw [List.map_cons, h x (List.mem_cons_self x xs),
      ih (fun y hy => h y (List.mem_cons_of_mem x hy))]

/-- A left fold whose body fixes every encountered element is the
identity. -/
theorem foldl_noop_on {α : Type} (f : St → α → St) :
    ∀ (es : List α) (acc : St),
      (∀ e ∈ es, ∀ t, f t e = t) → es.foldl f acc = acc := by
  intro es
  induction es with
  | nil => intro acc _; rfl
  | cons e rest ih =>
    intro acc h
    rw [List.foldl_cons, h e (List.mem_cons_self e rest) acc]
    exact ih acc (fun x hx t => h x (List.mem_cons_of_mem e hx) t)

/-- Inserting at the head of a strictly later-sorted list. -/
theorem insSortBy_eq_cons {α : Type} (le : α → α → Bool) (x : α) :
    ∀ l : List α, (∀ y ∈ l, le y x = false) → insSortBy le x l = x :: l := by
  intro l h
  cases l with
  | nil => rfl
  | cons y ys =>
    rw [insSortBy, h y (List.mem_cons_self y ys)]
    simp

/-- A strictly sorted list (no later element at or below an earlier one)
is fixed by the sort model. -/
theorem sortBy_eq_self {α : Type} (le : α → α → Bool) :
    ∀ l : List α, l.Pairwise (fun a b => le b a = false) → sortBy le l = l := by
  intro l
  induction l with
  | nil => intro _; rfl
  | cons x xs ih =>
    intro h
    rw [List.pairwise_cons] at h
    rw [sortBy, List.foldr_cons]
    rw [show List.foldr (insSortBy le) [] xs = sortBy le xs from rfl]
    rw [ih h.2]
    exact insSortBy_eq_cons le x xs h.1

/-- Entries of a fresh tree are fresh subdirectories or plain files. -/
theorem treeFreshEntries_mem : ∀ (es : List (String × FsNode)),
    treeFreshEntries es = true → ∀ e ∈ es,
      (∃ ces, e.2 = FsNode.dir ces ∧ treeFreshEntries ces = true)
      ∨ (∃ sz mt, e.2 = FsNode.file sz mt) := by
  intro es
  induction es with
  | nil => intro _ e he; cases he
  | cons hd rest ih =>
    intro hf e he
    rcases hd with ⟨n, c⟩
    rw [treeFreshEntries] at hf
    simp only [Bool.and_eq_true] at hf
    obtain ⟨⟨⟨_, _⟩, hf3⟩, hf4⟩ := hf
    rcases List.mem_cons.mp he with heq | hmem
    · subst heq
      cases c with
      | file sz mt => exact Or.inr ⟨sz, mt, rfl⟩
      | dir ces =>
        rw [treeFresh] at hf3
        exact Or.inl ⟨ces, rfl, hf3⟩
    · exact ih hf4 e hmem

/-- The entry names of a fresh directory are distinct. -/
theorem treeFreshEntries_nodup : ∀ (es : List (String × FsNode)),
    treeFreshEntries es = true → (es.map Prod.fst).Nodup := by
  intro es
  induction es with
  | nil => intro _; exact List.nodup_nil
  | cons hd rest ih =>
    intro hf
    rcases hd with ⟨n, c⟩
    rw [treeFreshEntries] at hf
    simp only [Bool.and_eq_true, Bool.not_eq_true'] at hf
    obtain ⟨⟨⟨_, hf2⟩, _⟩, hf4⟩ := hf
    rw [List.map_cons, List.nodup_cons]
    refine ⟨?_, ih hf4⟩
    intro hmem
    have : (rest.map Prod.fst).contains n = true := by simpa using hmem
    rw [hf2] at this
    cases this

/-- Path resolution decomposes over appended paths. -/
theorem lookupFs_append : ∀ (p q : Path) (t : FsNode),
    lookupFs t (p ++ q) = match lookupFs t p with
      | some n => lookupFs n q
      | none => none := by
  intro p
  induction p with
  | nil => intro q t; simp [lookupFs]
  | cons x xs ih =>
    intro q t
    cases t with
    | file sz mt => rw [List.cons_append, lookupFs, lookupFs]
    | dir es =>
      rw [List.cons_append, lookupFs, lookupFs]
      rcases findEntry es x with _ | c
      · rfl
      · exact ih q c

/-- The album-insertion fold appends the albums and logs one insert
each. -/
theorem foldl_dbInsertAlbum : ∀ (l : List Album) (s : St),
    l.foldl (fun acc album => dbInsertAlbum acc album) s
      = { s with db.albums := s.db.albums ++ l
                 ops := s.ops ++ l.map (fun a => DbOp.insertAlbum a) } := by
  intro l
  induction l with
  | nil =>
    intro s
    rcases s with ⟨⟨v, al, im, se⟩, fs, uid, ops, audit⟩
    simp
  | cons a rest ih =>
    intro s
    rw [List.foldl_cons, ih]
    rcases s with ⟨⟨v, al, im, se⟩, fs, uid, ops, audit⟩
    simp [dbInsertAlbum]

end FilesSorter

namespace FilesSorter

/-- Rebuilding the `pathToExisting` map from the synced album table
recovers the album map: each album is keyed by its derived path, which is
its original scan path. -/
theorem buildPathToExisting_of_map (m : List (Path × Album))
    (hkey : ∀ ka ∈ m, getAlbumPath (m.map Prod.snd) (m.map Prod.snd).length ka.2 = ka.1)
    (hnd : (m.map Prod.fst).Nodup) :
    buildPathToExisting (m.map Prod.snd) = m := by
  have key : ∀ (mrest macc : List (Path × Album)), m = macc ++ mrest →
      (mrest.map Prod.snd).foldl
        (fun mm a => alSet mm
          (getAlbumPath (m.map Prod.snd) (m.map Prod.snd).length a) a) macc
      = macc ++ mrest := by
    intro mrest
    induction mrest with
    | nil => intro macc _; simp
    | cons ka rest' ih =>
      intro macc hsplit
      rcases ka with ⟨k, a⟩
      rw [List.map_cons, List.foldl_cons]
      have hmem : (k, a) ∈ m := by
        rw [hsplit]
        exact List.mem_append_right _ (List.mem_cons_self _ _)
      have hk : getAlbumPath (m.map Prod.snd) (m.map Prod.snd).length a = k :=
        hkey (k, a) hmem
      rw [hk]
      have hfresh : k ∉ macc.map Prod.fst := by
        have hnd2 : ((macc ++ (k, a) :: rest').map Prod.fst).Nodup := by
          rw [← hsplit]; exact hnd
        rw [List.map_append] at hnd2
        have hdisj := List.disjoint_of_nodup_append hnd2
        intro hc
        exact hdisj hc (by rw [List.map_cons]; exact List.mem_cons_self _ _)
      rw [alSet_fresh a hfresh]
      have := ih (macc ++ [(k, a)]) (by rw [hsplit]; simp)
      rw [this]
      simp
  have := key m [] rfl
  rw [buildPathToExisting]
  simpa using this

/-- Composition of alignments through a common index list. -/
theorem forall₂_compose {α β γ : Type} {R1 : α → β → Prop} {R2 : α → γ → Prop} :
    ∀ {l1 : List α} {l2 : List β} {l3 : List γ},
      List.Forall₂ R1 l1 l2 → List.Forall₂ R2 l1 l3 →
      List.Forall₂ (fun b c => ∃ a, R1 a b ∧ R2 a c) l2 l3 := by
  intro l1 l2 l3 h1
  induction h1 generalizing l3 with
  | nil =>
    intro h2
    cases h2
    exact List.Forall₂.nil
  | cons hab hrest ih =>
    intro h2
    cases h2 with
    | cons hac hrest2 =>
      exact List.Forall₂.cons ⟨_, hab, hac⟩ (ih hrest2)

/-- The second sync's album construction: with the freshly built map as
`pathToExisting` and a scan aligned with the first, every album is rebuilt
identically — ids are reused from the map, so no insert can follow. -/
theorem syncBuild_run2 (vid : String) (m : List (Path × Album))
    (hnd : (m.map Prod.fst).Nodup) :
    ∀ (mrest : List (Path × Album)) (vas2 : List VaultAlbum)
      (mdone : List (Path × Album)),
      m = mdone ++ mrest →
      albumFacts vid mdone mrest →
      List.Forall₂ (fun (ka : Path × Album) va => va.path = ka.1
        ∧ va.name = ka.2.name ∧ va.order = ka.2.order) mrest vas2 →
      syncBuild m vid vas2 (mdone.map Prod.snd) mdone = (m.map Prod.snd, m) := by
  intro mrest
  induction mrest with
  | nil =>
    intro vas2 mdone hsplit _ hal
    cases hal
    rw [syncBuild]
    rw [hsplit]
    simp
  | cons ka rest' ih =>
    intro vas2 mdone hsplit hfa hal
    rcases ka with ⟨k, a⟩
    cases hal with
    | cons hhead hal' =>
      rename_i va vas2'
      obtain ⟨hpath, hname, horder⟩ := hhead
      obtain ⟨⟨hf1, hf2, hf3, hf4, hf5⟩, hfa'⟩ := hfa
      have hmem : (k, a) ∈ m := by
        rw [hsplit]
        exact List.mem_append_right _ (List.mem_cons_self _ _)
      have halget : alGet m k = some a := alGet_of_mem_nodup hnd hmem
      have hfresh : k ∉ mdone.map Prod.fst := by
        have hnd2 : ((mdone ++ (k, a) :: rest').map Prod.fst).Nodup := by
          rw [← hsplit]; exact hnd
        rw [List.map_append] at hnd2
        have hdisj := List.disjoint_of_nodup_append hnd2
        intro hc
        exact hdisj hc (by rw [List.map_cons]; exact List.mem_cons_self _ _)
      have hndm : (mdone.map Prod.fst).Nodup := by
        have hnd2 : ((mdone ++ (k, a) :: rest').map Prod.fst).Nodup := by
          rw [← hsplit]; exact hnd
        rw [List.map_append] at hnd2
        exact hnd2.of_append_left
      have hklen : k = k.dropLast ++ [sanitizeFilename a.name] := hf1
      have hba : buildAlbum m vid va mdone = a := by
        rw [buildAlbum]
        rw [hpath]
        by_cases hlen : k.length ≤ 1
        · have hpid : a.parentId = none := hf4 (by simpa using hlen)
          rw [if_pos (by simpa using hlen)]
          rw [halget]
          rw [show Option.map (fun (a : Album) => a.id) none = none from rfl]
          rw [hname, horder, ← hpid]
          rw [show vid = a.vaultId from hf2.symm]
        · obtain ⟨a', ha'mem, ha'pid⟩ := hf5 (by simp at hlen ⊢; omega)
          have halget' : alGet mdone k.dropLast = some a' :=
            alGet_of_mem_nodup hndm ha'mem
          rw [if_neg (by simpa using hlen)]
          rw [halget, halget']
          rw [show Option.map (fun (a : Album) => a.id) (some a') = some a'.id from rfl]
          rw [hname, horder, ← ha'pid]
          rw [show vid = a.vaultId from hf2.symm]
      rw [syncBuild_cons, hba, hpath]
      rw [alSet_fresh a hfresh]
      have haccm : mdone.map Prod.snd ++ [a] = (mdone ++ [(k, a)]).map Prod.snd := by
        simp
      rw [haccm]
      exact ih vas2' (mdone ++ [(k, a)]) (by rw [hsplit]; simp) hfa' hal'

end FilesSorter

namespace FilesSorter

/-- The all-fields update `syncVault` issues for a matched album. -/
def idUpd (a : Album) : AlbumUpd :=
  { name := some a.name, parentId := some a.parentId, vaultId := some a.vaultId, order := some a.order }

/-- Updating every album with its own current field values is the
identity on the album table. -/
theorem map_update_self : ∀ (L : List Album),
    (L.map (fun b => b.id)).Nodup → ∀ a ∈ L,
      L.map (fun b => if b.id == a.id then applyAlbumUpd (idUpd a) b else b) = L := by
  intro L
  induction L with
  | nil => intro _ a ha; cases ha
  | cons b rest ih =>
    intro hnd a ha
    rw [List.map_cons, List.nodup_cons] at hnd
    rw [List.map_cons]
    rcases List.mem_cons.mp ha with heq | hmem
    · have heq2 : b = a := heq.symm
      subst heq2
      rw [show (b.id == b.id) = true from by simp]
      rw [if_pos rfl]
      rw [show applyAlbumUpd (idUpd b) b = b from rfl]
      rw [map_id_of _ rest ?_]
      intro c hc
      have hne : (c.id == b.id) = false := by
        simp only [beq_eq_false_iff_ne]
        intro hcid
        exact hnd.1 (hcid ▸ List.mem_map.mpr ⟨c, hc, rfl⟩)
      rw [hne]
      simp
    · have hne : (b.id == a.id) = false := by
        simp only [beq_eq_false_iff_ne]
        intro hbid
        exact hnd.1 (hbid ▸ List.mem_map.mpr ⟨a, hmem, rfl⟩)
      rw [hne]
      simp only [Bool.false_eq_true, if_false]
      rw [ih hnd.2 a hmem]

/-- The matched-album pass of the second sync: when every processed album
id is already present, the fold issues one (field-identical) UPDATE per
album and nothing else; when the updates are identities the table is
untouched. -/
theorem foldl_sync_update (E : List Album) :
    ∀ (l : List Album) (s : St),
      (∀ a ∈ l, E.any (fun ea => ea.id == a.id) = true) →
      (∀ a ∈ l, s.db.albums.map
          (fun b => if b.id == a.id then applyAlbumUpd (idUpd a) b else b)
        = s.db.albums) →
      l.foldl (fun acc album =>
        if E.any (fun ea => ea.id == album.id) then
          dbUpdateAlbum acc album.id (idUpd album)
        else dbInsertAlbum acc album) s
      = { s with ops := s.ops ++ l.map (fun a => DbOp.updateAlbum a.id (idUpd a)) } := by
  intro l
  induction l with
  | nil =>
    intro s _ _
    rcases s with ⟨⟨v, al, im, se⟩, fs, uid, ops, audit⟩
    simp
  | cons a rest ih =>
    intro s hE hId
    rw [List.foldl_cons]
    rw [if_pos (hE a (List.mem_cons_self a rest))]
    have hs1 : dbUpdateAlbum s a.id (idUpd a)
        = { s with ops := s.ops ++ [DbOp.updateAlbum a.id (idUpd a)] } := by
      have hIdh := hId a (List.mem_cons_self a rest)
      rcases s with ⟨⟨v, al, im, se⟩, fs, uid, ops, audit⟩
      simp only [dbUpdateAlbum]
      simp only [] at hIdh
      rw [hIdh]
    rw [hs1]
    have hnext := ih { s with ops := s.ops ++ [DbOp.updateAlbum a.id (idUpd a)] }
      (fun x hx => hE x (List.mem_cons_of_mem a hx))
      (fun x hx => hId x (List.mem_cons_of_mem a hx))
    rw [hnext]
    rcases s with ⟨⟨v, al, im, se⟩, fs, uid, ops, audit⟩
    simp

/-- A folder holding only directories is untouched by the per-folder
image pass. -/
theorem syncImagesInFolder_noop (vr : Vault) (vid : String)
    (exI : List Image) (album : Album) (vaPath : Path) (s : St)
    (h : ∀ es, readdirAt s.fs (vr.path ++ vaPath) = some es →
      ∀ e ∈ es, ∃ nm ces, e = (nm, FsNode.dir ces)) :
    syncImagesInFolder vr vid exI album vaPath s = s := by
  rw [syncImagesInFolder]
  rcases hrd : readdirAt s.fs (vr.path ++ vaPath) with _ | entries
  · rfl
  · have hall := h entries hrd
    refine foldl_noop_on _ entries s ?_
    intro e he t
    obtain ⟨nm, ces, rfl⟩ := hall e he
    rfl

/-- Members on the right of an alignment have aligned partners. -/
theorem forall₂_mem_right {α β : Type} {R : α → β → Prop} :
    ∀ {l1 : List α} {l2 : List β}, List.Forall₂ R l1 l2 →
      ∀ b ∈ l2, ∃ a ∈ l1, R a b := by
  intro l1 l2 h
  induction h with
  | nil => intro b hb; cases hb
  | cons hab hrest ih =>
    intro b hb
    rcases List.mem_cons.mp hb with heq | hmem
    · exact ⟨_, List.mem_cons_self _ _, heq ▸ hab⟩
    · obtain ⟨a, ha, hr⟩ := ih b hmem
      exact ⟨a, List.mem_cons_of_mem _ ha, hr⟩

/-- Pairwise facts transfer along an alignment. -/
theorem pairwise_transfer {α β : Type} {R : α → β → Prop}
    {P : α → α → Prop} {Q : β → β → Prop}
    (himp : ∀ a b a' b', R a a' → R b b' → P a b → Q a' b') :
    ∀ {l1 : List α} {l2 : List β}, List.Forall₂ R l1 l2 →
      l1.Pairwise P → l2.Pairwise Q := by
  intro l1 l2 h
  induction h with
  | nil => intro _; exact List.Pairwise.nil
  | cons hab hrest ih =>
    intro hp
    rw [List.pairwise_cons] at hp
    refine List.Pairwise.cons ?_ (ih hp.2)
    intro b' hb'
    obtain ⟨b, hb, hr⟩ := forall₂_mem_right hrest b' hb'
    exact himp _ _ _ _ hab hr (hp.1 b hb)

end FilesSorter

namespace FilesSorter

/-- The whole per-folder image pass is the identity when every scanned
folder of the state holds only directories. -/
theorem foldl_syncImages_noop (vr : Vault) (vid : String)
    (m' : List (Path × Album)) :
    ∀ (vas : List VaultAlbum) (acc : St),
      (∀ va ∈ vas, ∀ es2, readdirAt acc.fs (vr.path ++ va.path) = some es2 →
        ∀ e ∈ es2, ∃ nm ces, e = (nm, FsNode.dir ces)) →
      vas.foldl (fun acc va => match alGet m' va.path with
        | none => acc
        | some album => syncImagesInFolder vr vid [] album va.path acc) acc
      = acc := by
  intro vas
  induction vas with
  | nil => intro acc _; rfl
  | cons va rest ih =>
    intro acc h
    rw [List.foldl_cons]
    have hstep : (match alGet m' va.path with
        | none => acc
        | some album => syncImagesInFolder vr vid [] album va.path acc) = acc := by
      rcases alGet m' va.path with _ | album
      · rfl
      · exact syncImagesInFolder_noop vr vid [] album va.path acc
          (h va (List.mem_cons_self va rest))
    rw [hstep]
    exact ih acc (fun x hx => h x (List.mem_cons_of_mem va hx))

end FilesSorter

namespace FilesSorter

/-- The per-entry body of the image pass fold of `syncImagesInFolder`,
with the folder path and the captured snapshot made explicit. -/
def imgBody (folderPath : Path) (existingImages : List Image) (album : Album)
    (vaultId : String) (s : St) (entry : String × FsNode) : St :=
  match entry with
  | (_, FsNode.dir _) => s
  | (name, FsNode.file sz mt) =>
    if !(isImageFile name) then s
    else
      let imagePath := folderPath ++ [name]
      match existingImages.find? (fun i => i.path == imagePath) with
      | some existingImage =>
        if existingImage.albumId != some album.id
            || existingImage.vaultId != some vaultId then
          dbUpdateImages s [existingImage.id]
            { albumId := some (some album.id)
              vaultId := some (some vaultId)
              status := some ImgStatus.normal }
        else s
      | none =>
        let ext := String.mk ((strLower (extname name)).data.drop 1)
        let row : Image :=
          { id := mkUid s.uid
            path := imagePath
            filename := name
            fileSize := sz
            width := none
            height := none
            modifiedDate := mt
            thumbnailPath := none
            isSupported := SUPPORTED_EXTENSIONS.contains ("." ++ ext)
            format := ext
            albumId := some album.id
            vaultId := some vaultId
            status := ImgStatus.normal }
        dbInsertImage { s with uid := s.uid + 1 } row

/-- `syncImagesInFolder` is the fold of its per-entry body. -/
theorem syncImagesInFolder_eq_fold (vr : Vault) (vid : String)
    (exI : List Image) (album : Album) (vaPath : Path) (s : St) :
    syncImagesInFolder vr vid exI album vaPath s =
      match readdirAt s.fs (vr.path ++ vaPath) with
      | none => s
      | some entries =>
        entries.foldl (imgBody (vr.path ++ vaPath) exI album vid) s := rfl

/-- The image row the sync inserts for a newly seen file. -/
def mkImgRow (folderPath : Path) (aid vid : String) (u : Nat)
    (name : String) (sz : Nat) (mt : String) : Image :=
  { id := mkUid u
    path := folderPath ++ [name]
    filename := name
    fileSize := sz
    width := none
    height := none
    modifiedDate := mt
    thumbnailPath := none
    isSupported := SUPPORTED_EXTENSIONS.contains
      ("." ++ String.mk ((strLower (extname name)).data.drop 1))
    format := String.mk ((strLower (extname name)).data.drop 1)
    albumId := some aid
    vaultId := some vid
    status := ImgStatus.normal }

/-- The rows a first sync inserts for one folder listing, threading the
uuid counter across the inserted files. -/
def imgRows (folderPath : Path) (aid vid : String) :
    Nat → List (String × FsNode) → List Image
  | _, [] => []
  | u, (_, FsNode.dir _) :: rest => imgRows folderPath aid vid u rest
  | u, (name, FsNode.file sz mt) :: rest =>
    if isImageFile name then
      mkImgRow folderPath aid vid u name sz mt
        :: imgRows folderPath aid vid (u + 1) rest
    else imgRows folderPath aid vid u rest

/-- `dbInsertImage` plainly appends when the row's id and path are fresh
(the uuid bump of the insert branch included). -/
theorem dbInsertImage_fresh (st : St) (u' : Nat) (r : Image)
    (h : ∀ i ∈ st.db.images,
      (!(i.id == r.id) && !(decide (i.path = r.path))) = true) :
    dbInsertImage { st with uid := u' } r
      = { st with uid := u'
                  db.images := st.db.images ++ [r]
                  ops := st.ops ++ [DbOp.insertImage r] } := by
  rcases st with ⟨⟨v, al, im, se⟩, fs, uid, ops, audit⟩
  simp only [] at h
  simp only [dbInsertImage]
  rw [List.filter_eq_self.mpr h]

/-- Appending one segment is injective on the directory part. -/
theorem append_singleton_inj {p q : Path} {a b : String}
    (h : p ++ [a] = q ++ [b]) : p = q := by
  have h2 := congrArg List.dropLast h
  rwa [List.dropLast_concat, List.dropLast_concat] at h2

/-- On an empty snapshot the per-folder image pass appends one fresh row
per image file of the listing, bumping the uuid counter once per row. -/
theorem imgBody_fold_run1 (fp : Path) (album : Album) (vid : String) :
    ∀ (es2 : List (String × FsNode)) (st : St),
      (es2.map Prod.fst).Nodup →
      (∀ i ∈ st.db.images, ∀ nm, nm ∈ es2.map Prod.fst → i.path ≠ fp ++ [nm]) →
      (∀ i ∈ st.db.images, ∃ j, j < st.uid ∧ i.id = mkUid j) →
      es2.foldl (imgBody fp [] album vid) st
        = { st with uid := st.uid + (imgRows fp album.id vid st.uid es2).length
                    db.images := st.db.images ++ imgRows fp album.id vid st.uid es2
                    ops := st.ops ++ (imgRows fp album.id vid st.uid es2).map
                      (fun r => DbOp.insertImage r) } := by
  intro es2
  induction es2 with
  | nil =>
    intro st _ _ _
    rw [List.foldl_nil]
    rw [show imgRows fp album.id vid st.uid [] = [] from rfl]
    rcases st with ⟨⟨v, al, im, se⟩, fs, uid, ops, audit⟩
    simp
  | cons e rest ih =>
    intro st hnd hfresh hid
    rcases e with ⟨name, c⟩
    rw [List.map_cons, List.nodup_cons] at hnd
    rw [List.foldl_cons]
    cases c with
    | dir ces =>
      rw [show imgBody fp [] album vid st (name, FsNode.dir ces) = st from rfl]
      rw [show imgRows fp album.id vid st.uid ((name, FsNode.dir ces) :: rest)
        = imgRows fp album.id vid st.uid rest from rfl]
      exact ih st hnd.2
        (fun i hi nm hnm => hfresh i hi nm (List.mem_cons_of_mem _ hnm)) hid
    | file sz mt =>
      by_cases himgf : isImageFile name = true
      · have hbody : imgBody fp [] album vid st (name, FsNode.file sz mt)
            = dbInsertImage { st with uid := st.uid + 1 }
                (mkImgRow fp album.id vid st.uid name sz mt) := by
          simp only [imgBody, himgf, Bool.not_true, Bool.false_eq_true, if_false]
          rfl
        have hrowfresh : ∀ i ∈ st.db.images,
            (!(i.id == (mkImgRow fp album.id vid st.uid name sz mt).id)
              && !(decide
                (i.path = (mkImgRow fp album.id vid st.uid name sz mt).path))) = true := by
          intro i hi
          obtain ⟨j, hj, hjid⟩ := hid i hi
          have hidne : (i.id == (mkImgRow fp album.id vid st.uid name sz mt).id)
              = false := by
            rw [show (mkImgRow fp album.id vid st.uid name sz mt).id
              = mkUid st.uid from rfl]
            rw [hjid]
            simp only [beq_eq_false_iff_ne, ne_eq]
            intro hc
            have := mkUid_inj j st.uid hc
            omega
          have hpne : (decide
              (i.path = (mkImgRow fp album.id vid st.uid name sz mt).path)) = false := by
            rw [show (mkImgRow fp album.id vid st.uid name sz mt).path
              = fp ++ [name] from rfl]
            simp only [decide_eq_false_iff_not]
            exact hfresh i hi name (List.mem_cons_self _ _)
          rw [hidne, hpne]
          rfl
        have hins := dbInsertImage_fresh st (st.uid + 1)
          (mkImgRow fp album.id vid st.uid name sz mt) hrowfresh
        rw [hbody, hins]
        have hcons : imgRows fp album.id vid st.uid ((name, FsNode.file sz mt) :: rest)
            = mkImgRow fp album.id vid st.uid name sz mt
              :: imgRows fp album.id vid (st.uid + 1) rest := by
          rw [imgRows]
          simp only [himgf, if_true]
        rw [hcons]
        have hfresh2 : ∀ i ∈ st.db.images ++ [mkImgRow fp album.id vid st.uid name sz mt],
            ∀ nm, nm ∈ rest.map Prod.fst → i.path ≠ fp ++ [nm] := by
          intro i hi nm hnm
          rcases List.mem_append.mp hi with hiold | hirow
          · exact hfresh i hiold nm (List.mem_cons_of_mem _ hnm)
          · have hieq : i = mkImgRow fp album.id vid st.uid name sz mt :=
              List.mem_singleton.mp hirow
            subst hieq
            rw [show (mkImgRow fp album.id vid st.uid name sz mt).path
              = fp ++ [name] from rfl]
            intro hc
            have h1 : ([name] : List String) = [nm] := List.append_cancel_left hc
            have h2 : name = nm := by injection h1
            rw [← h2] at hnm
            exact hnd.1 hnm
        have hid2 : ∀ i ∈ st.db.images ++ [mkImgRow fp album.id vid st.uid name sz mt],
            ∃ j, j < st.uid + 1 ∧ i.id = mkUid j := by
          intro i hi
          rcases List.mem_append.mp hi with hiold | hirow
          · obtain ⟨j, hj, hji⟩ := hid i hiold
            exact ⟨j, by omega, hji⟩
          · have hieq : i = mkImgRow fp album.id vid st.uid name sz mt :=
              List.mem_singleton.mp hirow
            subst hieq
            exact ⟨st.uid, by omega, rfl⟩
        rw [ih { st with uid := st.uid + 1
                         db.images := st.db.images
                           ++ [mkImgRow fp album.id vid st.uid name sz mt]
                         ops := st.ops ++ [DbOp.insertImage
                           (mkImgRow fp album.id vid st.uid name sz mt)] }
          hnd.2 hfresh2 hid2]
        rcases st with ⟨⟨v, al, im, se⟩, fs, uid, ops, audit⟩
        simp [List.append_assoc]
        omega
      · have himg2 : isImageFile name = false := by
          rw [Bool.not_eq_true] at himgf; exact himgf
        have hbody : imgBody fp [] album vid st (name, FsNode.file sz mt) = st := by
          simp [imgBody, himg2]
        have hcons : imgRows fp album.id vid st.uid ((name, FsNode.file sz mt) :: rest)
            = imgRows fp album.id vid st.uid rest := by
          rw [imgRows]
          simp only [himg2, Bool.false_eq_true, if_false]
        rw [hbody, hcons]
        exact ih st hnd.2
          (fun i hi nm hnm => hfresh i hi nm (List.mem_cons_of_mem _ hnm)) hid

/-- Field facts of the rows minted for one folder. -/
theorem imgRows_mem (fp : Path) (aid vid : String) :
    ∀ (es2 : List (String × FsNode)) (u : Nat), ∀ r ∈ imgRows fp aid vid u es2,
      (∃ nm, r.path = fp ++ [nm] ∧ nm ∈ es2.map Prod.fst)
      ∧ r.albumId = some aid ∧ r.vaultId = some vid
      ∧ ∃ j, u ≤ j ∧ j < u + (imgRows fp aid vid u es2).length ∧ r.id = mkUid j := by
  intro es2
  induction es2 with
  | nil =>
    intro u r hr
    rw [show imgRows fp aid vid u [] = [] from rfl] at hr
    cases hr
  | cons e rest ih =>
    intro u r hr
    rcases e with ⟨name, c⟩
    cases c with
    | dir ces =>
      rw [show imgRows fp aid vid u ((name, FsNode.dir ces) :: rest)
        = imgRows fp aid vid u rest from rfl] at hr
      obtain ⟨⟨nm, hp, hnm⟩, halb, hvv, j, hj1, hj2, hj3⟩ := ih u r hr
      refine ⟨⟨nm, hp, List.mem_cons_of_mem _ hnm⟩, halb, hvv, j, hj1, ?_, hj3⟩
      rw [show imgRows fp aid vid u ((name, FsNode.dir ces) :: rest)
        = imgRows fp aid vid u rest from rfl]
      exact hj2
    | file sz mt =>
      by_cases himgf : isImageFile name = true
      · have hcons : imgRows fp aid vid u ((name, FsNode.file sz mt) :: rest)
            = mkImgRow fp aid vid u name sz mt :: imgRows fp aid vid (u + 1) rest := by
          rw [imgRows]
          simp only [himgf, if_true]
        rw [hcons] at hr
        rcases List.mem_cons.mp hr with heq | hmem
        · subst heq
          refine ⟨⟨name, rfl, List.mem_cons_self _ _⟩, rfl, rfl, u, le_refl u, ?_, rfl⟩
          rw [hcons, List.length_cons]
          omega
        · obtain ⟨⟨nm, hp, hnm⟩, halb, hvv, j, hj1, hj2, hj3⟩ := ih (u + 1) r hmem
          refine ⟨⟨nm, hp, List.mem_cons_of_mem _ hnm⟩, halb, hvv, j, by omega, ?_, hj3⟩
          rw [hcons, List.length_cons]
          omega
      · have himg2 : isImageFile name = false := by
          rw [Bool.not_eq_true] at himgf; exact himgf
        have hcons : imgRows fp aid vid u ((name, FsNode.file sz mt) :: rest)
            = imgRows fp aid vid u rest := by
          rw [imgRows]
          simp only [himg2, Bool.false_eq_true, if_false]
        rw [hcons] at hr
        obtain ⟨⟨nm, hp, hnm⟩, halb, hvv, j, hj1, hj2, hj3⟩ := ih u r hr
        refine ⟨⟨nm, hp, List.mem_cons_of_mem _ hnm⟩, halb, hvv, j, hj1, ?_, hj3⟩
        rw [hcons]
        exact hj2

/-- Every image file of the listing gets a row. -/
theorem imgRows_cover (fp : Path) (aid vid : String) :
    ∀ (es2 : List (String × FsNode)) (u : Nat) (nm : String) (sz : Nat) (mt : String),
      (nm, FsNode.file sz mt) ∈ es2 → isImageFile nm = true →
      ∃ r, r ∈ imgRows fp aid vid u es2 ∧ r.path = fp ++ [nm] := by
  intro es2
  induction es2 with
  | nil => intro u nm sz mt hmem _; cases hmem
  | cons e rest ih =>
    intro u nm sz mt hmem himgf
    rcases e with ⟨name, c⟩
    rcases List.mem_cons.mp hmem with heq | hmem2
    · injection heq with h1 h2
      subst h1
      have hc : c = FsNode.file sz mt := h2.symm
      subst hc
      have hcons : imgRows fp aid vid u ((nm, FsNode.file sz mt) :: rest)
          = mkImgRow fp aid vid u nm sz mt :: imgRows fp aid vid (u + 1) rest := by
        rw [imgRows]
        simp only [himgf, if_true]
      refine ⟨mkImgRow fp aid vid u nm sz mt, ?_, rfl⟩
      rw [hcons]
      exact List.mem_cons_self _ _
    · cases c with
      | dir ces =>
        obtain ⟨r, hr, hp⟩ := ih u nm sz mt hmem2 himgf
        refine ⟨r, ?_, hp⟩
        rw [show imgRows fp aid vid u ((name, FsNode.dir ces) :: rest)
          = imgRows fp aid vid u rest from rfl]
        exact hr
      | file sz' mt' =>
        by_cases himgn : isImageFile name = true
        · obtain ⟨r, hr, hp⟩ := ih (u + 1) nm sz mt hmem2 himgf
          have hcons : imgRows fp aid vid u ((name, FsNode.file sz' mt') :: rest)
              = mkImgRow fp aid vid u name sz' mt'
                :: imgRows fp aid vid (u + 1) rest := by
            rw [imgRows]
            simp only [himgn, if_true]
          refine ⟨r, ?_, hp⟩
          rw [hcons]
          exact List.mem_cons_of_mem _ hr
        · have himg2 : isImageFile name = false := by
            rw [Bool.not_eq_true] at himgn; exact himgn
          obtain ⟨r, hr, hp⟩ := ih u nm sz mt hmem2 himgf
          have hcons : imgRows fp aid vid u ((name, FsNode.file sz' mt') :: rest)
              = imgRows fp aid vid u rest := by
            rw [imgRows]
            simp only [himg2, Bool.false_eq_true, if_false]
          refine ⟨r, ?_, hp⟩
          rw [hcons]
          exact hr

/-- First-run reconciliation of one scanned folder: with an empty
snapshot it inserts one row per image file, and nothing else. -/
theorem syncImagesInFolder_run1 (v : Vault) (vid : String) (a : Album)
    (vaPath : Path) (st : St) (es2 : List (String × FsNode))
    (hrd1 : readdirAt st.fs (v.path ++ vaPath) = some es2)
    (hnd2 : (es2.map Prod.fst).Nodup)
    (hfresh : ∀ i ∈ st.db.images, ∀ nm, i.path ≠ v.path ++ vaPath ++ [nm])
    (hid : ∀ i ∈ st.db.images, ∃ j, j < st.uid ∧ i.id = mkUid j) :
    ∃ R : List Image,
      syncImagesInFolder v vid [] a vaPath st
        = { st with uid := st.uid + R.length
                    db.images := st.db.images ++ R
                    ops := st.ops ++ R.map (fun r => DbOp.insertImage r) }
      ∧ (∀ r ∈ R, (∃ nm, r.path = v.path ++ vaPath ++ [nm] ∧ nm ∈ es2.map Prod.fst)
          ∧ r.albumId = some a.id ∧ r.vaultId = some vid
          ∧ ∃ j, st.uid ≤ j ∧ j < st.uid + R.length ∧ r.id = mkUid j)
      ∧ (∀ nm sz mt, (nm, FsNode.file sz mt) ∈ es2 → isImageFile nm = true →
          ∃ r, r ∈ R ∧ r.path = v.path ++ vaPath ++ [nm]) := by
  refine ⟨imgRows (v.path ++ vaPath) a.id vid st.uid es2, ?_, ?_, ?_⟩
  · rw [syncImagesInFolder_eq_fold]
    rcases hrdx : readdirAt st.fs (v.path ++ vaPath) with _ | es2x
    · rw [hrdx] at hrd1; cases hrd1
    · rw [hrdx] at hrd1
      have hes : es2x = es2 := by injection hrd1
      subst hes
      exact imgBody_fold_run1 (v.path ++ vaPath) a vid es2x st hnd2
        (fun i hi nm _ => hfresh i hi nm) hid
  · exact imgRows_mem (v.path ++ vaPath) a.id vid es2 st.uid
  · intro nm sz mt hm hif
    exact imgRows_cover (v.path ++ vaPath) a.id vid es2 st.uid nm sz mt hm hif

/-- First-run image pass over all scanned folders: appends fresh rows,
one per image file of each folder, each associated to that folder's album
and claimed for the synced vault, covering every image file on disk. -/
theorem foldl_syncImages_run1 (v : Vault) (vid : String)
    (m : List (Path × Album)) :
    ∀ (vasx : List VaultAlbum) (st : St),
      ((vasx.map (fun va => va.path)).Nodup) →
      (∀ va ∈ vasx, ∃ a, alGet m va.path = some a) →
      (∀ va ∈ vasx, ∃ es2, readdirAt st.fs (v.path ++ va.path) = some es2
        ∧ (es2.map Prod.fst).Nodup) →
      (∀ i ∈ st.db.images, ∀ va ∈ vasx, ∀ nm, i.path ≠ v.path ++ va.path ++ [nm]) →
      (∀ i ∈ st.db.images, ∃ j, j < st.uid ∧ i.id = mkUid j) →
      ∃ rows u2,
        vasx.foldl (fun acc va => match alGet m va.path with
          | none => acc
          | some album => syncImagesInFolder v vid [] album va.path acc) st
          = { st with uid := u2
                      db.images := st.db.images ++ rows
                      ops := st.ops ++ rows.map (fun r => DbOp.insertImage r) }
        ∧ st.uid ≤ u2
        ∧ (∀ i ∈ st.db.images ++ rows, ∃ j, j < u2 ∧ i.id = mkUid j)
        ∧ (∀ r ∈ rows, ∃ va, va ∈ vasx ∧ ∃ a, alGet m va.path = some a
            ∧ (∃ nm, r.path = v.path ++ va.path ++ [nm])
            ∧ r.albumId = some a.id ∧ r.vaultId = some vid)
        ∧ (∀ va ∈ vasx, ∀ es2, readdirAt st.fs (v.path ++ va.path) = some es2 →
            ∀ nm sz mt, (nm, FsNode.file sz mt) ∈ es2 → isImageFile nm = true →
            ∃ r, r ∈ rows ∧ r.path = v.path ++ va.path ++ [nm]) := by
  intro vasx
  induction vasx with
  | nil =>
    intro st _ _ _ _ hid
    refine ⟨[], st.uid, ?_, le_refl _, ?_, ?_, ?_⟩
    · rw [List.foldl_nil]
      rcases st with ⟨⟨vv, al, im, se⟩, fs, uid, ops, audit⟩
      simp
    · intro i hi
      rw [List.append_nil] at hi
      exact hid i hi
    · intro r hr
      cases hr
    · intro va hva
      cases hva
  | cons va rest ih =>
    intro st hnd hget hrd hfresh hid
    rw [List.map_cons, List.nodup_cons] at hnd
    obtain ⟨a, ha⟩ := hget va (List.mem_cons_self _ _)
    obtain ⟨es2, hrd1, hnd2⟩ := hrd va (List.mem_cons_self _ _)
    obtain ⟨R, hsif, hmemR, hcovR⟩ := syncImagesInFolder_run1 v vid a va.path st es2
      hrd1 hnd2
      (fun i hi nm => hfresh i hi va (List.mem_cons_self _ _) nm)
      hid
    have hrdS : ∀ va2 ∈ rest, ∃ es3,
        readdirAt st.fs (v.path ++ va2.path) = some es3
        ∧ (es3.map Prod.fst).Nodup :=
      fun va2 hva2 => hrd va2 (List.mem_cons_of_mem _ hva2)
    have hfresh2 : ∀ i ∈ st.db.images ++ R, ∀ va2 ∈ rest, ∀ nm,
        i.path ≠ v.path ++ va2.path ++ [nm] := by
      intro i hi va2 hva2 nm
      rcases List.mem_append.mp hi with hiold | hiR
      · exact hfresh i hiold va2 (List.mem_cons_of_mem _ hva2) nm
      · obtain ⟨⟨nm', hp', _⟩, _, _, _⟩ := hmemR i hiR
        rw [hp']
        intro hc
        have hdl := append_singleton_inj hc
        have hpp : va.path = va2.path := List.append_cancel_left hdl
        apply hnd.1
        rw [hpp]
        exact List.mem_map.mpr ⟨va2, hva2, rfl⟩
    have hid2 : ∀ i ∈ st.db.images ++ R, ∃ j, j < st.uid + R.length ∧ i.id = mkUid j := by
      intro i hi
      rcases List.mem_append.mp hi with hiold | hiR
      · obtain ⟨j, hj, hji⟩ := hid i hiold
        exact ⟨j, by omega, hji⟩
      · obtain ⟨_, _, _, j, hj1, hj2, hj3⟩ := hmemR i hiR
        exact ⟨j, hj2, hj3⟩
    obtain ⟨rows2, u2, hfold2, hle2, hid3, hP2, hcov2⟩ :=
      ih { st with uid := st.uid + R.length
                   db.images := st.db.images ++ R
                   ops := st.ops ++ R.map (fun r => DbOp.insertImage r) }
        hnd.2
        (fun va2 hva2 => hget va2 (List.mem_cons_of_mem _ hva2))
        hrdS hfresh2 hid2
    have hstep : (match alGet m va.path with
        | none => st
        | some album => syncImagesInFolder v vid [] album va.path st)
        = syncImagesInFolder v vid [] a va.path st := by
      rcases hga : alGet m va.path with _ | a'
      · rw [hga] at ha; cases ha
      · rw [hga] at ha
        have ha' : a' = a := by injection ha
        subst ha'
        rfl
    refine ⟨R ++ rows2, u2, ?_, ?_, ?_, ?_, ?_⟩
    · rw [List.foldl_cons]
      rw [hstep]
      rw [hsif, hfold2]
      rcases st with ⟨⟨vv, al, im, se⟩, fs, uid, ops, audit⟩
      simp [List.append_assoc]
    · have : st.uid ≤ st.uid + R.length := by omega
      calc st.uid ≤ st.uid + R.length := this
        _ ≤ u2 := hle2
    · intro i hi
      apply hid3
      rw [← List.append_assoc] at hi
      exact hi
    · intro r hr
      rcases List.mem_append.mp hr with hiR | hiR2
      · obtain ⟨⟨nm, hp, _⟩, halb, hvv, _⟩ := hmemR r hiR
        exact ⟨va, List.mem_cons_self _ _, a, ha, ⟨nm, hp⟩, halb, hvv⟩
      · obtain ⟨va2, hva2, a2, ha2, hp2, halb2, hvv2⟩ := hP2 r hiR2
        exact ⟨va2, List.mem_cons_of_mem _ hva2, a2, ha2, hp2, halb2, hvv2⟩
    · intro va2 hva2 es3 hrd3 nm sz mt hmem himgf
      rcases List.mem_cons.mp hva2 with heq | hva2r
      · subst heq
        rw [hrd3] at hrd1
        have hes : es3 = es2 := by injection hrd1
        subst hes
        obtain ⟨r, hrR, hrp⟩ := hcovR nm sz mt hmem himgf
        exact ⟨r, List.mem_append.mpr (Or.inl hrR), hrp⟩
      · obtain ⟨r, hrR2, hrp⟩ := hcov2 va2 hva2r es3 hrd3 nm sz mt hmem himgf
        exact ⟨r, List.mem_append.mpr (Or.inr hrR2), hrp⟩

/-- The per-folder image pass is the identity when every image file's
path already carries a correctly-associated snapshot row. -/
theorem syncImagesInFolder_hit_noop (vr : Vault) (vid : String)
    (exI : List Image) (album : Album) (vaPath : Path) (st : St)
    (h : ∀ es2, readdirAt st.fs (vr.path ++ vaPath) = some es2 →
      ∀ nm sz mt, (nm, FsNode.file sz mt) ∈ es2 → isImageFile nm = true →
      ∃ r, exI.find? (fun i => i.path == vr.path ++ vaPath ++ [nm]) = some r
        ∧ r.albumId = some album.id ∧ r.vaultId = some vid) :
    syncImagesInFolder vr vid exI album vaPath st = st := by
  rw [syncImagesInFolder_eq_fold]
  rcases hrd : readdirAt st.fs (vr.path ++ vaPath) with _ | es2
  · rfl
  · refine foldl_noop_on _ es2 st ?_
    intro e he t
    rcases e with ⟨nm, c⟩
    cases c with
    | dir ces => rfl
    | file sz mt =>
      by_cases himgf : isImageFile nm = true
      · obtain ⟨r, hfind, hra, hrv⟩ := h es2 hrd nm sz mt he himgf
        simp only [imgBody, himgf, Bool.not_true, Bool.false_eq_true, if_false]
        simp only [hfind]
        rw [hra, hrv]
        simp
      · have himg2 : isImageFile nm = false := by
          rw [Bool.not_eq_true] at himgf; exact himgf
        simp [imgBody, himg2]

/-- The whole second-run image pass is the identity when every image file
of every scanned folder already carries a correctly-associated row. -/
theorem foldl_syncImages_hit_noop (v : Vault) (vid : String)
    (m : List (Path × Album)) (exI : List Image) :
    ∀ (vas : List VaultAlbum) (acc : St),
      (∀ va ∈ vas, ∀ album, alGet m va.path = some album →
        ∀ es2, readdirAt acc.fs (v.path ++ va.path) = some es2 →
        ∀ nm sz mt, (nm, FsNode.file sz mt) ∈ es2 → isImageFile nm = true →
        ∃ r, exI.find? (fun i => i.path == v.path ++ va.path ++ [nm]) = some r
          ∧ r.albumId = some album.id ∧ r.vaultId = some vid) →
      vas.foldl (fun acc va => match alGet m va.path with
        | none => acc
        | some album => syncImagesInFolder v vid exI album va.path acc) acc
      = acc := by
  intro vas
  induction vas with
  | nil => intro acc _; rfl
  | cons va rest ih =>
    intro acc h
    rw [List.foldl_cons]
    have hstep : (match alGet m va.path with
        | none => acc
        | some album => syncImagesInFolder v vid exI album va.path acc) = acc := by
      rcases halget : alGet m va.path with _ | album
      · rfl
      · exact syncImagesInFolder_hit_noop v vid exI album va.path acc
          (h va (List.mem_cons_self va rest) album halget)
    rw [hstep]
    exact ih acc (fun x hx => h x (List.mem_cons_of_mem va hx))

/-- The orphan pass is the identity when every snapshot image already
belongs to a vault. -/
theorem syncOrphans_noop (vr : Vault) (vid : String) (exI : List Image)
    (m : List (Path × Album)) (st : St)
    (h : ∀ i ∈ exI, i.vaultId = some vid) :
    syncOrphans vr vid exI m st = st := by
  rw [syncOrphans]
  have hfilt : exI.filter (fun img =>
      img.vaultId == none && segStarts vr.path img.path) = [] := by
    rw [List.filter_eq_nil]
    intro i hi
    rw [h i hi]
    simp
  rw [hfilt]
  rfl

end FilesSorter

namespace FilesSorter

/-- The catalog body a fresh sync leaves behind: the scanned albums,
no images, vaults and settings untouched. -/
def c2Db (s : St) (m : List (Path × Album)) : Db :=
  { vaults := s.db.vaults, albums := m.map Prod.snd, images := [], settings := s.db.settings }

/-- A post-sync state of the fresh-vault run: synced catalog, original
disk, given uuid counter, op log and audit log. -/
def c2Mk (s : St) (m : List (Path × Album)) (u : Nat) (ops : List DbOp)
    (aud : List (Path × String)) : St :=
  { db := c2Db s m, fs := s.fs, uid := u, ops := ops, audit := aud }

/-- The catalog body a fresh sync leaves behind once the image pass has
run: the scanned albums and the freshly inserted image rows. -/
def c2DbI (s : St) (m : List (Path × Album)) (imgs : List Image) : Db :=
  { vaults := s.db.vaults, albums := m.map Prod.snd, images := imgs,
    settings := s.db.settings }

/-- A post-sync state of the fresh-vault run with image rows. -/
def c2MkI (s : St) (m : List (Path × Album)) (u : Nat) (ops : List DbOp)
    (aud : List (Path × String)) (imgs : List Image) : St :=
  { db := c2DbI s m imgs, fs := s.fs, uid := u, ops := ops, audit := aud }

/-- Claim C2 (amended): on a fresh vault (empty album and image tables)
whose tree has per-directory distinct entry names and sanitize-invariant
folder names, the first sync inserts one album per folder and one image
row per image file (attached to its folder's album and to the vault);
the second sync — with no filesystem change, and `syncVault` never writes
the filesystem — returns the same albums, leaves the whole catalog
(albums, images, vaults, settings) and the disk unchanged, and its only
logged catalog operations are one per-album UPDATE rewriting each album
row to its current values: zero inserts, zero deletes, zero image-row
mutations, but not zero mutations. -/
theorem syncVault_fresh_idempotent (s : St) (vid : String) (v : Vault)
    (es : List (String × FsNode))
    (hv : dbGetVaultById s vid = some v)
    (halb : s.db.albums = [])
    (himg : s.db.images = [])
    (hroot : lookupFs s.fs v.path = some (FsNode.dir es))
    (hwf : treeFreshEntries es = true) :
    ∃ (newAlbums : List Album) (imageRows : List Image),
      (syncVault vid s).1 = Except.ok newAlbums
      ∧ (syncVault vid s).2.db.albums = newAlbums
      ∧ (syncVault vid s).2.db.images = imageRows
      ∧ (∀ r ∈ imageRows, r.vaultId = some vid
          ∧ ∃ a, a ∈ newAlbums ∧ r.albumId = some a.id)
      ∧ (syncVault vid s).2.fs = s.fs
      ∧ (syncVault vid s).2.ops
          = s.ops ++ newAlbums.map (fun a => DbOp.insertAlbum a)
              ++ imageRows.map (fun r => DbOp.insertImage r)
      ∧ (syncVault vid ((syncVault vid s).2)).1 = Except.ok newAlbums
      ∧ (syncVault vid ((syncVault vid s).2)).2.db = ((syncVault vid s).2).db
      ∧ (syncVault vid ((syncVault vid s).2)).2.fs = ((syncVault vid s).2).fs
      ∧ (syncVault vid ((syncVault vid s).2)).2.ops
          = ((syncVault vid s).2).ops ++ newAlbums.map (fun a =>
              DbOp.updateAlbum a.id (idUpd a)) := by
  rcases hscan : scanVAEntries es vid none [] s.uid 0 with ⟨vas, uid2, ord2⟩
  obtain ⟨hc1, hc2, hc3, hc4, hc5⟩ :=
    scanVAEntries_counts (sizeOf es) es (le_refl _) vid none [] s.uid 0
  rw [hscan] at hc1 hc2 hc3 hc4 hc5
  simp only [] at hc1 hc2 hc3 hc4 hc5
  obtain ⟨hpA, hpB, hpC⟩ :=
    scanVAEntries_paths (sizeOf es) es (le_refl _) vid none [] s.uid 0 hwf
  rw [hscan] at hpA hpB hpC
  simp only [] at hpA hpB hpC
  have hA : ∀ va ∈ vas, va.path = va.path.dropLast ++ [va.name]
      ∧ sanitizeFilename va.name = va.name :=
    fun va hva => ⟨(hpA va hva).1, (hpA va hva).2.1⟩
  have hchain0 : chainOkP ((([] : List (Path × Album)).map Prod.fst).reverse
      ++ [([] : Path)]) (vas.map (fun va => va.path)) := by
    simpa using hpC [([] : Path)] (List.mem_singleton.mpr rfl)
  have hnodup0 : ((([] : List (Path × Album)).map Prod.fst)
      ++ vas.map (fun va => va.path)).Nodup := by
    simpa using hpB
  obtain ⟨m, hbuild, hkeys, hfa2, halbf⟩ :=
    syncBuild_run1 vas vid [] hA hchain0 hnodup0 (by intro ka hka; cases hka)
  simp only [List.nil_append, List.map_nil] at hbuild halbf
  have hids_m : (m.map (fun ka => ka.2.id)).Nodup := by
    have hmapeq : vas.map (fun va => va.id) = m.map (fun ka => ka.2.id) :=
      forall₂_map_eq (fun va => va.id) (fun ka => ka.2.id)
        (fun a b hr => hr.2.1.symm) hfa2
    rw [← hmapeq]
    exact hc4
  have hkeys_nodup : (m.map Prod.fst).Nodup := by
    rw [hkeys]
    exact hpB
  have hvault_m : ∀ ka ∈ m, ka.2.vaultId = vid := by
    intro ka hka
    exact (albumFacts_mem halbf ka hka).2.1
  have hfilter : (m.map Prod.snd).filter (fun a => a.vaultId == vid)
      = m.map Prod.snd := by
    refine List.filter_eq_self.mpr ?_
    intro a ha
    obtain ⟨ka, hkam, hae⟩ := List.mem_map.mp ha
    rw [← hae]
    simp [hvault_m ka hkam]
  have hord_m : m.Pairwise (fun k1 k2 => k1.2.order < k2.2.order) := by
    refine pairwise_transfer ?_ hfa2 hc5
    intro a b a' b' hr1 hr2 hp
    rw [hr1.2.2.2.1, hr2.2.2.2.1]
    exact hp
  have hsorted : sortBy (fun a b : Album => a.order ≤ b.order) (m.map Prod.snd)
      = m.map Prod.snd := by
    refine sortBy_eq_self _ _ ?_
    rw [List.pairwise_map]
    refine hord_m.imp ?_
    intro k1 k2 h
    simp only [decide_eq_false_iff_not]
    omega
  have hkeyfun : ∀ ka ∈ m,
      getAlbumPath (m.map Prod.snd) (m.map Prod.snd).length ka.2 = ka.1 := by
    intro ka hka
    have hlen : ka.1.length ≤ m.length := by
      have := (albumFacts_mem halbf ka hka).2.2.1
      simpa using this
    exact getAlbumPath_of_albumFacts vid m halbf hids_m
      (m.map Prod.snd).length ka.1 ka.2 hka (by simpa using hlen)
  have hbpe : buildPathToExisting (m.map Prod.snd) = m :=
    buildPathToExisting_of_map m hkeyfun hkeys_nodup
  have hsv1 : scanVaultFolder vid s = (vas, uid2) := by
    rw [scanVaultFolder]
    simp only [hv, hroot, hscan]
  have hgav1 : dbGetAlbumsByVault { s with uid := uid2 } vid = [] := by
    rw [dbGetAlbumsByVault]
    rw [show ({ s with uid := uid2 } : St).db.albums = s.db.albums from rfl]
    rw [halb]
    rfl
  have hinsfold : (m.map Prod.snd).foldl (fun acc album =>
      if ([] : List Album).any (fun ea => ea.id == album.id) then
        dbUpdateAlbum acc album.id
          { name := some album.name
            parentId := some album.parentId
            vaultId := some album.vaultId
            order := some album.order }
      else dbInsertAlbum acc album) { s with uid := uid2 }
      = { s with uid := uid2
                 db.albums := s.db.albums ++ m.map Prod.snd
                 ops := s.ops ++ (m.map Prod.snd).map (fun a => DbOp.insertAlbum a) } :=
    foldl_dbInsertAlbum (m.map Prod.snd) { s with uid := uid2 }
  have hImAny : ∀ t : St, t.db.images = [] → dbGetAllImages t = [] := by
    intro t ht
    rw [dbGetAllImages, ht]
    rfl
  have hfix : { s with uid := uid2
                       db.albums := s.db.albums ++ m.map Prod.snd
                       ops := s.ops ++ (m.map Prod.snd).map (fun a => DbOp.insertAlbum a) }
      = c2Mk s m uid2 (s.ops ++ (m.map Prod.snd).map (fun a => DbOp.insertAlbum a)) s.audit := by
    rw [c2Mk, c2Db]
    rcases s with ⟨⟨vlts, al, im, se⟩, fs0, uid0, ops0, audit0⟩
    have halb' : al = [] := halb
    have himg' : im = [] := himg
    subst halb'
    subst himg'
    simp
  have hImS1 : ∀ (u : Nat) (ops : List DbOp) (aud : List (Path × String)),
      dbGetAllImages (c2Mk s m u ops aud) = [] := by
    intro u ops aud
    exact hImAny _ rfl
  have hrdS : ∀ va ∈ vas, ∃ es2,
      readdirAt s.fs (v.path ++ va.path) = some es2
      ∧ (es2.map Prod.fst).Nodup := by
    intro va hva
    obtain ⟨q, es2', hqp, hlk, hfr⟩ := (hpA va hva).2.2.2
    have hq : va.path = q := by simpa using hqp
    refine ⟨es2', ?_, treeFreshEntries_nodup es2' hfr⟩
    rw [readdirAt]
    rw [lookupFs_append]
    rw [hroot]
    rw [hq]
    simp only [hlk]
  have hgetS : ∀ va ∈ vas, ∃ a, alGet m va.path = some a := by
    intro va hva
    have hmm : va.path ∈ m.map Prod.fst := by
      rw [hkeys]
      exact List.mem_map.mpr ⟨va, hva, rfl⟩
    obtain ⟨ka, hka, hkaeq⟩ := List.mem_map.mp hmm
    refine ⟨ka.2, ?_⟩
    rw [← hkaeq]
    rcases ka with ⟨k1, a1⟩
    exact alGet_of_mem_nodup hkeys_nodup hka
  rcases foldl_syncImages_run1 v vid m vas
      (c2Mk s m uid2 (s.ops ++ (m.map Prod.snd).map (fun a => DbOp.insertAlbum a))
        s.audit)
      hpB hgetS
      (fun va hva => hrdS va hva)
      (fun i hi => absurd hi (List.not_mem_nil i))
      (fun i hi => absurd hi (List.not_mem_nil i))
    with ⟨rows, u2, hfold1, hle1, hidR, hP, hcov⟩
  have hcov' : ∀ va ∈ vas, ∀ es2,
      readdirAt s.fs (v.path ++ va.path) = some es2 →
      ∀ nm sz mt, (nm, FsNode.file sz mt) ∈ es2 → isImageFile nm = true →
      ∃ r, r ∈ rows ∧ r.path = v.path ++ va.path ++ [nm] := hcov
  have hfold1' : vas.foldl (fun acc va => match alGet m va.path with
      | none => acc
      | some album => syncImagesInFolder v vid [] album va.path acc)
      (c2Mk s m uid2 (s.ops ++ (m.map Prod.snd).map (fun a => DbOp.insertAlbum a))
        s.audit)
      = c2MkI s m u2
          (s.ops ++ (m.map Prod.snd).map (fun a => DbOp.insertAlbum a)
            ++ rows.map (fun r => DbOp.insertImage r))
          s.audit rows :=
    hfold1.trans (by rfl)
  have hrun1 : syncVault vid s = (Except.ok (m.map Prod.snd),
      c2MkI s m u2
        (s.ops ++ (m.map Prod.snd).map (fun a => DbOp.insertAlbum a)
          ++ rows.map (fun r => DbOp.insertImage r))
        (s.audit ++ [(v.path, "SYNC")]) rows) := by
    rw [syncVault]
    simp only [hv, hsv1, hgav1]
    rw [show buildPathToExisting ([] : List Album) = ([] : List (Path × Album)) from rfl]
    rw [hbuild]
    simp only [List.filter_nil, List.foldl_nil]
    rw [hinsfold, hfix]
    rw [hImS1]
    rw [hfold1']
    rw [show syncOrphans v vid [] m (c2MkI s m u2
        (s.ops ++ (m.map Prod.snd).map (fun a => DbOp.insertAlbum a)
          ++ rows.map (fun r => DbOp.insertImage r))
        s.audit rows)
      = c2MkI s m u2
          (s.ops ++ (m.map Prod.snd).map (fun a => DbOp.insertAlbum a)
            ++ rows.map (fun r => DbOp.insertImage r))
          s.audit rows from rfl]
    rw [auditLog]
    rfl
  rcases hscan2 : scanVAEntries es vid none [] u2 0 with ⟨vas2, uid3, ord3⟩
  have hshift : ∀ (u u' : Nat) (ops : List DbOp) (aud : List (Path × String)),
      { c2MkI s m u ops aud rows with uid := u' } = c2MkI s m u' ops aud rows :=
    fun _ _ _ _ => rfl
  have hv2 : ∀ (u : Nat) (ops : List DbOp) (aud : List (Path × String)),
      dbGetVaultById (c2MkI s m u ops aud rows) vid = some v := fun _ _ _ => hv
  have hsv2 : ∀ (ops : List DbOp) (aud : List (Path × String)),
      scanVaultFolder vid (c2MkI s m u2 ops aud rows) = (vas2, uid3) := by
    intro ops aud
    rw [scanVaultFolder]
    simp only [hv2]
    rw [show (c2MkI s m u2 ops aud rows).fs = s.fs from rfl]
    rw [show (c2MkI s m u2 ops aud rows).uid = u2 from rfl]
    simp only [hroot, hscan2]
  have halign0 := scanVAEntries_align (sizeOf es) es (le_refl _) vid none none [] s.uid u2 0
  rw [hscan, hscan2] at halign0
  simp only [] at halign0
  have halign : List.Forall₂ (fun (ka : Path × Album) va2 => va2.path = ka.1
      ∧ va2.name = ka.2.name ∧ va2.order = ka.2.order) m vas2 := by
    have hcomp := forall₂_compose hfa2 halign0
    refine hcomp.imp ?_
    intro ka va2 h
    obtain ⟨va, h1, h2⟩ := h
    refine ⟨(h1.1.trans h2.1).symm, ?_, ?_⟩
    · rw [← h2.2.1]
      exact h1.2.2.1.symm
    · rw [← h2.2.2]
      exact h1.2.2.2.1.symm
  have hbuild2 : syncBuild m vid vas2 [] [] = (m.map Prod.snd, m) :=
    syncBuild_run2 vid m hkeys_nodup m vas2 [] (List.nil_append m).symm halbf halign
  have hLids : ((m.map Prod.snd).map (fun b => b.id)).Nodup := by
    rw [List.map_map]
    exact hids_m
  have hgav2 : ∀ (ops : List DbOp) (aud : List (Path × String)),
      dbGetAlbumsByVault (c2MkI s m uid3 ops aud rows) vid = m.map Prod.snd := by
    intro ops aud
    rw [dbGetAlbumsByVault]
    show sortBy (fun a b => a.order ≤ b.order)
      ((m.map Prod.snd).filter (fun a => a.vaultId == vid)) = m.map Prod.snd
    rw [hfilter, hsorted]
  have hdel2 : List.filter (fun ea => !((m.map Prod.snd).any fun na => na.id == ea.id))
      (m.map Prod.snd) = [] := by
    rw [List.filter_eq_nil]
    intro a ha
    have hany : ((m.map Prod.snd).any fun na => na.id == a.id) = true :=
      List.any_eq_true.mpr ⟨a, ha, by simp⟩
    simp [hany]
  have hE2 : ∀ a ∈ m.map Prod.snd,
      ((m.map Prod.snd).any fun ea => ea.id == a.id) = true :=
    fun a ha => List.any_eq_true.mpr ⟨a, ha, by simp⟩
  have hupdfold : ∀ (ops : List DbOp) (aud : List (Path × String)),
      (m.map Prod.snd).foldl (fun acc album =>
        if (m.map Prod.snd).any (fun ea => ea.id == album.id) then
          dbUpdateAlbum acc album.id
            { name := some album.name
              parentId := some album.parentId
              vaultId := some album.vaultId
              order := some album.order }
        else dbInsertAlbum acc album) (c2MkI s m uid3 ops aud rows)
      = c2MkI s m uid3
          (ops ++ (m.map Prod.snd).map (fun a => DbOp.updateAlbum a.id (idUpd a)))
          aud rows := by
    intro ops aud
    exact foldl_sync_update (m.map Prod.snd) (m.map Prod.snd)
      (c2MkI s m uid3 ops aud rows)
      hE2 (fun a ha => map_update_self (m.map Prod.snd) hLids a ha)
  have hImS2 : ∀ (u : Nat) (ops : List DbOp) (aud : List (Path × String)),
      dbGetAllImages (c2MkI s m u ops aud rows)
        = sortBy (fun a b : Image => a.filename ≤ b.filename) rows :=
    fun _ _ _ => rfl
  have hhit : ∀ va ∈ vas2, ∀ album, alGet m va.path = some album →
      ∀ es2x, readdirAt s.fs (v.path ++ va.path) = some es2x →
      ∀ nm sz mt, (nm, FsNode.file sz mt) ∈ es2x → isImageFile nm = true →
      ∃ r, (sortBy (fun a b : Image => a.filename ≤ b.filename) rows).find?
          (fun i => i.path == v.path ++ va.path ++ [nm]) = some r
        ∧ r.albumId = some album.id ∧ r.vaultId = some vid := by
    intro va2 hva2 album halget2 es2x hrd2 nm sz mt hmem himgf
    obtain ⟨va1, hva1, hrel⟩ := forall₂_mem_right halign0 va2 hva2
    have hrd1' : readdirAt s.fs (v.path ++ va1.path) = some es2x := by
      rw [hrel.1]; exact hrd2
    obtain ⟨rex, hrexmem, hrexpath⟩ := hcov' va1 hva1 es2x hrd1' nm sz mt hmem himgf
    rcases hfind : (sortBy (fun a b : Image => a.filename ≤ b.filename) rows).find?
        (fun i => i.path == v.path ++ va2.path ++ [nm]) with _ | r2
    · exfalso
      have hnone := List.find?_eq_none.mp hfind rex
        ((mem_sortBy _ _ _).mpr hrexmem)
      apply hnone
      simp only [beq_iff_eq]
      rw [hrexpath, hrel.1]
    · have hr2mem : r2 ∈ rows :=
        (mem_sortBy _ _ _).mp (List.mem_of_find?_eq_some hfind)
      have hr2path : r2.path = v.path ++ va2.path ++ [nm] := by
        have hpred := List.find?_some hfind
        simpa using hpred
      obtain ⟨va3, hva3, a3, halget3, ⟨nm3, hpath3⟩, halb3, hvid3⟩ := hP r2 hr2mem
      have hsamepath : va3.path = va2.path := by
        rw [hpath3] at hr2path
        have hdl := append_singleton_inj hr2path
        exact List.append_cancel_left hdl
      refine ⟨r2, hfind, ?_, hvid3⟩
      rw [halb3]
      rw [hsamepath] at halget3
      rw [halget2] at halget3
      have ha3 : album = a3 := by injection halget3
      rw [ha3]
  have himgfold2 : ∀ (u : Nat) (ops : List DbOp) (aud : List (Path × String)),
      vas2.foldl (fun acc va => match alGet m va.path with
        | none => acc
        | some album => syncImagesInFolder v vid
            (sortBy (fun a b : Image => a.filename ≤ b.filename) rows)
            album va.path acc)
        (c2MkI s m u ops aud rows) = c2MkI s m u ops aud rows := by
    intro u ops aud
    refine foldl_syncImages_hit_noop v vid m
      (sortBy (fun a b : Image => a.filename ≤ b.filename) rows) vas2 _ ?_
    intro va hva album halget es2x hrd2 nm sz mt hmem himgf
    exact hhit va hva album halget es2x hrd2 nm sz mt hmem himgf
  have horph2 : ∀ (u : Nat) (ops : List DbOp) (aud : List (Path × String)),
      syncOrphans v vid (sortBy (fun a b : Image => a.filename ≤ b.filename) rows) m
        (c2MkI s m u ops aud rows) = c2MkI s m u ops aud rows := by
    intro u ops aud
    refine syncOrphans_noop v vid _ m _ ?_
    intro i hi
    have hi2 : i ∈ rows := (mem_sortBy _ _ _).mp hi
    obtain ⟨va3, hva3, a3, halget3, hnm3, halb3, hvid3⟩ := hP i hi2
    exact hvid3
  have hrun2 : syncVault vid (c2MkI s m u2
        (s.ops ++ (m.map Prod.snd).map (fun a => DbOp.insertAlbum a)
          ++ rows.map (fun r => DbOp.insertImage r))
        (s.audit ++ [(v.path, "SYNC")]) rows)
      = (Except.ok (m.map Prod.snd),
         c2MkI s m uid3
           ((s.ops ++ (m.map Prod.snd).map (fun a => DbOp.insertAlbum a)
             ++ rows.map (fun r => DbOp.insertImage r))
             ++ (m.map Prod.snd).map (fun a => DbOp.updateAlbum a.id (idUpd a)))
           ((s.audit ++ [(v.path, "SYNC")]) ++ [(v.path, "SYNC")]) rows) := by
    rw [syncVault]
    simp only [hv2, hsv2, hshift, hgav2, hbpe, hbuild2]
    rw [hdel2]
    simp only [List.foldl_nil]
    rw [hupdfold]
    rw [hImS2]
    rw [himgfold2]
    rw [horph2]
    rw [auditLog]
    rfl
  refine ⟨m.map Prod.snd, rows, ?_, ?_, ?_, ?_, ?_, ?_, ?_, ?_, ?_, ?_⟩
  · rw [hrun1]
  · simp only [hrun1]
    simp [c2MkI, c2DbI]
  · simp only [hrun1]
    simp [c2MkI, c2DbI]
  · intro r hr
    obtain ⟨va3, hva3, a3, halget3, hnm3, halb3, hvid3⟩ := hP r hr
    refine ⟨hvid3, a3, ?_, halb3⟩
    have hmem3 := alGet_mem halget3
    exact List.mem_map.mpr ⟨(va3.path, a3), hmem3, rfl⟩
  · simp only [hrun1]
    simp [c2MkI]
  · simp only [hrun1]
    simp [c2MkI]
  · simp only [hrun1, hrun2]
  · simp only [hrun1, hrun2]
    simp [c2MkI, c2DbI]
  · simp only [hrun1, hrun2]
    simp [c2MkI, c2DbI]
  · simp only [hrun1, hrun2]
    simp [c2MkI, c2DbI]

end FilesSorter

namespace FilesSorter

/-- Vault record of the C2 concrete state. -/
def c2V : Vault :=
  { id := "v1", path := ["V"], displayName := "V", isVisible := true, order := 0 }

/-- Fresh one-folder vault: `V` on disk holds a single folder `A` with
one image file `p.jpg`, and the catalog has no albums and no images. -/
def c2St : St :=
  { db := { vaults := [c2V], albums := [], images := []
            settings := { vaultFolder := some ["V"], trashHandling := TrashHandling.vault } }
    fs := FsNode.dir [("V", FsNode.dir
      [("A", FsNode.dir [("p.jpg", FsNode.file 7 "t1")])])]
    uid := 0
    ops := []
    audit := [] }

/-- Counterexample to claim C2 as stated: with no filesystem change, the
second `syncVault` run still performs a catalog mutation — it logs an
UPDATE of the album row `u0`, so the second run's mutation count is not
zero.  (The first run had inserted that album and the image row under
it; the second run touches no image row.) -/
theorem syncVault_second_run_mutates :
    ((syncVault "v1" ((syncVault "v1" c2St).2)).2).ops
      = ((syncVault "v1" c2St).2).ops
        ++ [DbOp.updateAlbum "u0"
            { name := some "A", parentId := some none,
              vaultId := some "v1", order := some 0 }]
    ∧ ((syncVault "v1" c2St).2).ops
      = [DbOp.insertAlbum
          { id := "u0", name := "A", parentId := none, vaultId := "v1", order := 0 },
         DbOp.insertImage
          { id := "u1", path := ["V", "A", "p.jpg"], filename := "p.jpg",
            fileSize := 7, width := none, height := none, modifiedDate := "t1",
            thumbnailPath := none, isSupported := true, format := "jpg",
            albumId := some "u0", vaultId := some "v1",
            status := ImgStatus.normal }] := by
  constructor
  · rfl
  · rfl

/-- Witness for the amended C2 at the concrete fresh vault holding an
image, with every hypothesis holding by computation. -/
theorem syncVault_fresh_idempotent_witness :
    ∃ (newAlbums : List Album) (imageRows : List Image),
      (syncVault "v1" c2St).1 = Except.ok newAlbums
      ∧ (syncVault "v1" c2St).2.db.albums = newAlbums
      ∧ (syncVault "v1" c2St).2.db.images = imageRows
      ∧ (∀ r ∈ imageRows, r.vaultId = some "v1"
          ∧ ∃ a, a ∈ newAlbums ∧ r.albumId = some a.id)
      ∧ (syncVault "v1" c2St).2.fs = c2St.fs
      ∧ (syncVault "v1" c2St).2.ops
          = c2St.ops ++ newAlbums.map (fun a => DbOp.insertAlbum a)
              ++ imageRows.map (fun r => DbOp.insertImage r)
      ∧ (syncVault "v1" ((syncVault "v1" c2St).2)).1 = Except.ok newAlbums
      ∧ (syncVault "v1" ((syncVault "v1" c2St).2)).2.db = ((syncVault "v1" c2St).2).db
      ∧ (syncVault "v1" ((syncVault "v1" c2St).2)).2.fs = ((syncVault "v1" c2St).2).fs
      ∧ (syncVault "v1" ((syncVault "v1" c2St).2)).2.ops
          = ((syncVault "v1" c2St).2).ops ++ newAlbums.map (fun a =>
              DbOp.updateAlbum a.id (idUpd a)) :=
  syncVault_fresh_idempotent c2St "v1" c2V
    [("A", FsNode.dir [("p.jpg", FsNode.file 7 "t1")])]
    rfl rfl rfl rfl rfl

end FilesSorter
